import Mathlib

/-!
Shallow embedding of the `pathce` cardinality-estimation engine
(pattern encoding, canonicalization, catalog, decomposer, join engine,
greedy binning) together with proofs about the embedded definitions.
-/

namespace PathCE

/-! ## Basic types (src/pathce/src/common/types.rs) -/

/-- Tag identifiers (`TagId = u8` in the source; modelled as `Nat`). -/
abbrev TagId := Nat

/-- Label identifiers (`LabelId = u32` in the source; modelled as `Nat`). -/
abbrev LabelId := Nat

/-- Value of `LabelId::MAX` for the 32-bit label type. -/
def labelIdMax : Nat := 4294967295

/-- Value of `LabelId::MAX / 2`, the split point of the label-id space. -/
def labelHalf : Nat := labelIdMax / 2

example : labelHalf = 2147483647 := by decide

/-- Edge direction (src/pathce/src/common/graph.rs). `Out` is declared
before `In`, so `Out < In` in the derived order. -/
inductive EdgeDirection where
  | Out
  | In
deriving DecidableEq, Repr

/-- Derived `Ord` comparison of directions: `Out < In`. -/
def EdgeDirection.cmp : EdgeDirection → EdgeDirection → Ordering
  | .Out, .Out => .eq
  | .Out, .In => .lt
  | .In, .Out => .gt
  | .In, .In => .eq

/-- Reversal of a direction (`EdgeDirection::reverse`). -/
def EdgeDirection.reverse : EdgeDirection → EdgeDirection
  | .Out => .In
  | .In => .Out

/-! ## Pattern data model (src/pathce/src/pattern/mod.rs) -/

/-- A pattern vertex: tag id plus vertex label. -/
structure PatternVertex where
  tagId : TagId
  labelId : LabelId
deriving DecidableEq, Repr

/-- A pattern edge: tag id, source tag, destination tag, edge label. -/
structure PatternEdge where
  tagId : TagId
  src : TagId
  dst : TagId
  labelId : LabelId
deriving DecidableEq, Repr

/-- A pattern adjacency entry, as built by `RawPattern::to_general`. -/
structure PatternAdjacency where
  edgeTagId : TagId
  edgeLabelId : LabelId
  neighborTagId : TagId
  direction : EdgeDirection
deriving DecidableEq, Repr

/-- A raw pattern: vertex list plus edge list, in declaration order
(src/pathce/src/pattern/raw.rs, `RawPattern`). -/
structure RawPattern where
  vertices : List PatternVertex
  edges : List PatternEdge
deriving DecidableEq, Repr

namespace RawPattern

/-- Vertex lookup by tag (`GraphPattern::get_vertex`; tags are unique in
validated patterns, so the first match is the entry). -/
def getVertex (p : RawPattern) (t : TagId) : Option PatternVertex :=
  p.vertices.find? (fun v => v.tagId = t)

/-- Edge lookup by tag (`GraphPattern::get_edge`). -/
def getEdge (p : RawPattern) (t : TagId) : Option PatternEdge :=
  p.edges.find? (fun e => e.tagId = t)

/-- List of vertex tags in declaration order. -/
def vertexTags (p : RawPattern) : List TagId :=
  p.vertices.map (·.tagId)

/-- Outgoing adjacency list of a vertex, in edge declaration order,
exactly as accumulated by `RawPattern::to_general`. `none` when the tag
is not a vertex of the pattern. -/
def outgoingAdjacencies (p : RawPattern) (t : TagId) :
    Option (List PatternAdjacency) :=
  if t ∈ p.vertexTags then
    some (p.edges.filterMap (fun e =>
      if e.src = t then
        some ⟨e.tagId, e.labelId, e.dst, .Out⟩
      else none))
  else none

/-- Incoming adjacency list of a vertex, in edge declaration order. -/
def incomingAdjacencies (p : RawPattern) (t : TagId) :
    Option (List PatternAdjacency) :=
  if t ∈ p.vertexTags then
    some (p.edges.filterMap (fun e =>
      if e.dst = t then
        some ⟨e.tagId, e.labelId, e.src, .In⟩
      else none))
  else none

/-- All adjacencies of a vertex: outgoing followed by incoming
(`GraphPattern::adjacencies` chains the two slices). -/
def adjacencies (p : RawPattern) (t : TagId) :
    Option (List PatternAdjacency) := do
  let o ← p.outgoingAdjacencies t
  let i ← p.incomingAdjacencies t
  pure (o ++ i)

/-- Out-degree of a vertex (`get_vertex_out_degree`). -/
def outDegree (p : RawPattern) (t : TagId) : Option Nat :=
  (p.outgoingAdjacencies t).map List.length

/-- In-degree of a vertex (`get_vertex_in_degree`). -/
def inDegree (p : RawPattern) (t : TagId) : Option Nat :=
  (p.incomingAdjacencies t).map List.length

/-- Total degree of a vertex (`get_vertex_degree`). -/
def degree (p : RawPattern) (t : TagId) : Option Nat := do
  let o ← p.outDegree t
  let i ← p.inDegree t
  pure (o + i)

/-- Minimum vertex label of the pattern (`min_vertex_label_id`). -/
def minVertexLabelId (p : RawPattern) : Option LabelId :=
  (p.vertices.map (·.labelId)).min?

/-- Cyclicity test (`GraphPattern::is_cyclic`): a connected pattern is
cyclic iff `|E| > |V| - 1`. -/
def isCyclic (p : RawPattern) : Bool :=
  if p.vertices.isEmpty then false
  else p.edges.length > p.vertices.length - 1

/-- Cycle test (`GraphPattern::is_cycle`): every vertex has degree 2. -/
def isCycle (p : RawPattern) : Bool :=
  if p.vertices.isEmpty then false
  else p.vertices.all (fun v => (p.degree v.tagId).getD 0 = 2)

/-- Path test (`GraphPattern::is_path`). -/
def isPath (p : RawPattern) : Bool :=
  if p.vertices.isEmpty then false
  else if p.vertices.any (fun v =>
      let d := (p.degree v.tagId).getD 0
      d = 0 ∨ d > 2) then
    -- degree-0 case: accepted only for the single-vertex edgeless pattern;
    -- any degree > 2 rejects the pattern (mirrors the source's early returns)
    p.vertices.all (fun v => (p.degree v.tagId).getD 0 = 0) &&
      p.vertices.length = 1 && p.edges.isEmpty
  else
    ((p.vertices.filter (fun v => (p.degree v.tagId).getD 0 = 1)).length = 2)
      && p.vertices.all (fun v =>
        let d := (p.degree v.tagId).getD 0
        d = 1 ∨ d = 2)

end RawPattern

/-! ## Association-list helpers (modelling `BTreeMap` / `HashMap` uses) -/

/-- Lookup in an association list (first binding wins; keys are unique in
all uses below). -/
def assocGet {α : Type} (l : List (Nat × α)) (k : Nat) : Option α :=
  (l.find? (fun kv => kv.1 = k)).map (·.2)

/-- Update the binding of `k` (insert at the end if absent), modelling
map insertion. -/
def assocSet {α : Type} (l : List (Nat × α)) (k : Nat) (v : α) :
    List (Nat × α) :=
  if l.any (fun kv => kv.1 = k) then
    l.map (fun kv => if kv.1 = k then (k, v) else kv)
  else l ++ [(k, v)]

/-! ## Ordering helpers -/

/-- Comparison of `Option Nat` with Rust's `Option` order: `None < Some`. -/
def cmpOptNat : Option Nat → Option Nat → Ordering
  | none, none => .eq
  | none, some _ => .lt
  | some _, none => .gt
  | some x, some y => compare x y

/-- Stable insertion into a list sorted by the comparator: the new element
goes after all elements it does not compare strictly less than. -/
def insertByCmp {α : Type} (cmp : α → α → Ordering) (x : α) :
    List α → List α
  | [] => [x]
  | y :: ys =>
    if cmp x y = .lt then x :: y :: ys else y :: insertByCmp cmp x ys

/-- Stable insertion sort by a comparator (models the source's
`sort_unstable_by`, whose tie order is unspecified in Rust; the stable
order is one deterministic realization). -/
def sortByCmp {α : Type} (cmp : α → α → Ordering) : List α → List α
  | [] => []
  | x :: xs => insertByCmp cmp x (sortByCmp cmp xs)

/-- Lexicographic comparison of two lists element-wise (used where the
source zips two adjacency lists of equal length). -/
def cmpList {α : Type} (cmp : α → α → Ordering) :
    List α → List α → Ordering
  | [], _ => .eq
  | _, [] => .eq
  | a :: as_, b :: bs => (cmp a b).then (cmpList cmp as_ bs)

/-! ## Canonicalizer (src/pathce/src/pattern/canonical.rs) -/

/-- Mutable state of `Canonicalizer`. Maps keyed by tag ids are modelled
as association lists; `groups` (the `vertex_groups` `BTreeMap`) is kept
sorted by its `(label, group)` key. -/
structure CanonState where
  adjMap : List (TagId × List PatternAdjacency)
  groupMap : List (TagId × Nat)
  groups : List ((LabelId × Nat) × List TagId)
  vRank : List (TagId × Option Nat)
  eRank : List (TagId × Option Nat)
  converged : Bool
deriving Repr

/-- Strict lexicographic order on `(label, group)` keys. -/
def keyLt (a b : LabelId × Nat) : Bool :=
  a.1 < b.1 || (a.1 = b.1 && a.2 < b.2)

/-- Insertion of a tag into the sorted group map
(`entry(key).and_modify(push).or_insert(vec![tag])` on a `BTreeMap`). -/
def groupsInsert (k : LabelId × Nat) (t : TagId) :
    List ((LabelId × Nat) × List TagId) →
    List ((LabelId × Nat) × List TagId)
  | [] => [(k, [t])]
  | (k', ts) :: rest =>
    if k = k' then (k', ts ++ [t]) :: rest
    else if keyLt k k' then (k, [t]) :: (k', ts) :: rest
    else (k', ts) :: groupsInsert k t rest

/-- `Canonicalizer::cmp_adjacency`: compare `(direction, neighbor label,
edge label)`, then the neighbors' groups, then the neighbors' ranks. -/
def cmpAdjacency (p : RawPattern) (groupMap : List (TagId × Nat))
    (vRank : List (TagId × Option Nat)) (a1 a2 : PatternAdjacency) :
    Ordering :=
  let l1 := ((p.getVertex a1.neighborTagId).map (·.labelId)).getD 0
  let l2 := ((p.getVertex a2.neighborTagId).map (·.labelId)).getD 0
  ((a1.direction.cmp a2.direction).then
    ((compare l1 l2).then (compare a1.edgeLabelId a2.edgeLabelId))).then
    (((compare ((assocGet groupMap a1.neighborTagId).getD 0)
        ((assocGet groupMap a2.neighborTagId).getD 0))).then
      (cmpOptNat ((assocGet vRank a1.neighborTagId).getD none)
        ((assocGet vRank a2.neighborTagId).getD none)))

/-- `Canonicalizer::sort_vertex_adjacencies`: re-sort every vertex's
adjacency list with the current comparator. -/
def sortVertexAdjacencies (p : RawPattern) (st : CanonState) : CanonState :=
  { st with
    adjMap := st.adjMap.map (fun kv =>
      (kv.1, sortByCmp (cmpAdjacency p st.groupMap st.vRank) kv.2)) }

/-- `Canonicalizer::cmp_vertex`: label, out-degree, in-degree, then the
sorted adjacency lists compared element-wise. -/
def cmpVertex (p : RawPattern) (st : CanonState) (t1 t2 : TagId) :
    Ordering :=
  let l1 := ((p.getVertex t1).map (·.labelId)).getD 0
  let l2 := ((p.getVertex t2).map (·.labelId)).getD 0
  ((compare l1 l2).then
    ((compare ((p.outDegree t1).getD 0) ((p.outDegree t2).getD 0)).then
      (compare ((p.inDegree t1).getD 0) ((p.inDegree t2).getD 0)))).then
    (cmpList (cmpAdjacency p st.groupMap st.vRank)
      ((assocGet st.adjMap t1).getD []) ((assocGet st.adjMap t2).getD []))

/-- Increment entry `i` of a list of counters. -/
def bumpAt (l : List Nat) (i : Nat) : List Nat :=
  l.set i (l.getD i 0 + 1)

/-- The pairwise counting pass of `refine_vertex_groups` for one group:
`tmp[i]` starts at the group id and receives one bump for every other
member that compares strictly below the member at `i`. -/
def pairwisePass (cmpv : TagId → TagId → Ordering) (tags : List TagId)
    (g0 : Nat) : List Nat :=
  let n := tags.length
  (List.range n).foldl (fun tmp i =>
    (List.range n).foldl (fun tmp j =>
      if i < j then
        match cmpv (tags.getD i 0) (tags.getD j 0) with
        | .gt => bumpAt tmp i
        | .lt => bumpAt tmp j
        | .eq => tmp
      else tmp) tmp) (List.replicate n g0)

/-- `Canonicalizer::refine_vertex_groups`: rebuild the group map and the
group table from the pairwise comparison counts, record convergence, and
re-sort adjacencies. -/
def refineVertexGroups (p : RawPattern) (st : CanonState) : CanonState :=
  let step := st.groups.foldl
    (fun (acc : List (TagId × Nat) × List ((LabelId × Nat) × List TagId) × Bool)
        entry =>
      let label := entry.1.1
      let g0 := entry.1.2
      let tags := entry.2
      let tmp := pairwisePass (cmpVertex p st) tags g0
      (tags.zip tmp).foldl
        (fun acc tg =>
          let conv := acc.2.2 && decide (tg.2 = g0)
          (assocSet acc.1 tg.1 tg.2,
           groupsInsert (label, tg.2) tg.1 acc.2.1, conv))
        acc)
    ([], [], true)
  sortVertexAdjacencies p
    { st with
      groupMap := step.1
      groups := step.2.1
      converged := step.2.2 }

/-- The refinement loop `while !has_converged { refine }`, with fuel (the
source loops unboundedly; the fuel used below always suffices for the
patterns considered in the theorems). -/
def refineLoop (p : RawPattern) : Nat → CanonState → CanonState
  | 0, st => st
  | fuel + 1, st =>
    if st.converged then st else refineLoop p fuel (refineVertexGroups p st)

/-- Grouping of the label-sorted vertex list into per-label chunks
(`sorted_unstable_by_key((label, 0)).chunk_by(..)`). -/
def chunkGroups : List PatternVertex → List ((LabelId × Nat) × List TagId)
  | [] => []
  | v :: vs =>
    match chunkGroups vs with
    | [] => [((v.labelId, 0), [v.tagId])]
    | ((l, g), ts) :: rest =>
      if v.labelId = l then ((l, g), v.tagId :: ts) :: rest
      else ((v.labelId, 0), [v.tagId]) :: ((l, g), ts) :: rest

/-- `Canonicalizer::new`: initial state (group 0 everywhere, per-label
groups from the label-sorted vertex list, unranked, unsorted adjacencies
then sorted once). -/
def canonInit (p : RawPattern) : CanonState :=
  let st : CanonState :=
    { adjMap := p.vertices.map (fun v => (v.tagId, (p.adjacencies v.tagId).getD []))
      groupMap := p.vertices.map (fun v => (v.tagId, 0))
      groups := chunkGroups (sortByCmp (fun a b => compare a.labelId b.labelId) p.vertices)
      vRank := p.vertices.map (fun v => (v.tagId, none))
      eRank := p.edges.map (fun e => (e.tagId, none))
      converged := false }
  sortVertexAdjacencies p st

/-- `Canonicalizer::get_pattern_ranking_start_vertex`: among the vertices
of minimum label, the first one with minimal group. -/
def getPatternRankingStartVertex (p : RawPattern) (st : CanonState) :
    Option TagId :=
  match p.minVertexLabelId with
  | none => none
  | some minLabel =>
    ((p.vertices.filter (fun v => v.labelId = minLabel)).map (·.tagId)).foldl
      (fun acc t =>
        match acc with
        | none => some t
        | some b =>
          if compare ((assocGet st.groupMap t).getD 0)
              ((assocGet st.groupMap b).getD 0) = .lt then some t else some b)
      none

/-- One-step body of the ranking DFS (`pattern_ranking_from_vertex`'s
`while let Some(adj) = stack.pop()` loop), with fuel. The stack's head is
the element the source pops next. -/
def rankingLoop (p : RawPattern) :
    Nat → List PatternAdjacency → List TagId → Nat → Nat → CanonState →
    CanonState
  | 0, _, _, _, _, st => st
  | _ + 1, [], _, _, _, st => st
  | fuel + 1, adj :: rest, visited, nextV, nextE, st =>
    if adj.edgeTagId ∈ visited then
      rankingLoop p fuel rest visited nextV nextE st
    else
      let visited' := adj.edgeTagId :: visited
      let st := { st with eRank := assocSet st.eRank adj.edgeTagId (some nextE) }
      let nextE := nextE + 1
      let nb := adj.neighborTagId
      let ranked := ((assocGet st.vRank nb).getD none).isSome
      let st :=
        if ranked then st
        else { st with vRank := assocSet st.vRank nb (some nextV) }
      let nextV := if ranked then nextV else nextV + 1
      let st := sortVertexAdjacencies p st
      let newAdjs := ((assocGet st.adjMap nb).getD []).filter
        (fun a => a.edgeTagId ∉ visited')
      rankingLoop p fuel (newAdjs ++ rest) visited' nextV nextE st

/-- `Canonicalizer::pattern_ranking_from_vertex`. -/
def patternRankingFromVertex (p : RawPattern) (st : CanonState)
    (start : TagId) : CanonState :=
  let st := { st with vRank := assocSet st.vRank start (some 0) }
  let stack := (assocGet st.adjMap start).getD []
  let fuel := 4 * (p.edges.length + 1) * (p.edges.length + 1) + 4
  rankingLoop p fuel stack [] 1 0 st

/-- `Canonicalizer::pattern_ranking`. -/
def patternRanking (p : RawPattern) (st : CanonState) : CanonState :=
  match getPatternRankingStartVertex p st with
  | none => st
  | some s => patternRankingFromVertex p st s

/-- `canonicalize` (the free function): run refinement to convergence,
rank, and unwrap the rank options (total for connected patterns, as the
source asserts). -/
def canonicalize (p : RawPattern) :
    List (TagId × Nat) × List (TagId × Nat) :=
  let fuel := p.vertices.length * p.vertices.length + p.vertices.length + 2
  let st := patternRanking p (refineLoop p fuel (canonInit p))
  (st.vRank.map (fun kv => (kv.1, kv.2.getD 0)),
   st.eRank.map (fun kv => (kv.1, kv.2.getD 0)))

/-! ## Byte encoding (src/pathce/src/pattern/mod.rs) -/

/-- Little-endian bytes of a `u32` (`LabelId::to_le_bytes`). -/
def u32leBytes (n : Nat) : List Nat :=
  [n % 256, n / 256 % 256, n / 65536 % 256, n / 16777216 % 256]

/-- Big-endian bytes of a `u32` (`BufMut::put_u32`). -/
def u32beBytes (n : Nat) : List Nat :=
  [n / 16777216 % 256, n / 65536 % 256, n / 256 % 256, n % 256]

/-- Single byte (`BufMut::put_u8`). -/
def u8Byte (n : Nat) : List Nat := [n % 256]

/-- `EDGE_ENCODING_LENGTH`. -/
def edgeEncodingLength : Nat := 14

/-- `encode_vertex`. -/
def encodeVertex (l : LabelId) : List Nat := u32leBytes l

/-- `encode_edge`: edge label, src label, dst label (4 bytes each), then
src rank and dst rank, `(0, 1)` when the src label is strictly smaller
and `(1, 0)` otherwise. -/
def encodeEdge (srcLabelId dstLabelId edgeLabelId : LabelId) : List Nat :=
  u32beBytes edgeLabelId ++ u32beBytes srcLabelId ++ u32beBytes dstLabelId ++
    (if srcLabelId < dstLabelId then [0, 1] else [1, 0])

/-- A validated pattern with its canonical rank maps
(`GeneralPattern`: raw data plus `vertex_rank_map` / `edge_rank_map`). -/
structure GenPattern where
  raw : RawPattern
  vRank : List (TagId × Nat)
  eRank : List (TagId × Nat)
deriving DecidableEq, Repr

/-- Build a `GeneralPattern` from raw data by canonicalizing
(the success path of `RawPattern::to_general`). -/
def mkGeneral (p : RawPattern) : GenPattern :=
  let ranks := canonicalize p
  ⟨p, ranks.1, ranks.2⟩

namespace GenPattern

/-- `get_vertex_rank`. -/
def getVertexRank (g : GenPattern) (t : TagId) : Option Nat :=
  assocGet g.vRank t

/-- `get_edge_rank`. -/
def getEdgeRank (g : GenPattern) (t : TagId) : Option Nat :=
  assocGet g.eRank t

/-- The 14-byte record `encode_normal` emits for one edge (the rank
lookups are total for validated connected patterns; `getD` stands for
the source's `unwrap`). -/
def edgeRecord (g : GenPattern) (e : PatternEdge) : List Nat :=
  u32beBytes e.labelId ++
    u32beBytes (((g.raw.getVertex e.src).map (·.labelId)).getD 0) ++
    u32beBytes (((g.raw.getVertex e.dst).map (·.labelId)).getD 0) ++
    u8Byte ((g.getVertexRank e.src).getD 0) ++
    u8Byte ((g.getVertexRank e.dst).getD 0)

/-- `encode_normal`: per-edge records in edge-rank order. -/
def encodeNormal (g : GenPattern) : List Nat :=
  (sortByCmp
    (fun e1 e2 =>
      compare ((g.getEdgeRank e1.tagId).getD 0) ((g.getEdgeRank e2.tagId).getD 0))
    g.raw.edges).flatMap g.edgeRecord

/-- `GraphPattern::encode`: dispatch on the number of edges (the
`unreachable!()` arm, edgeless with several vertices, is modelled as the
empty code; it cannot occur for validated connected patterns). -/
def encode (g : GenPattern) : List Nat :=
  match g.raw.edges with
  | [] =>
    match g.raw.vertices with
    | [] => []
    | [v] => encodeVertex v.labelId
    | _ => []
  | [e] =>
    encodeEdge (((g.raw.getVertex e.src).map (·.labelId)).getD 0)
      (((g.raw.getVertex e.dst).map (·.labelId)).getD 0) e.labelId
  | _ => encodeNormal g

end GenPattern

/-- Canonical code of a raw pattern: canonicalize, then encode. -/
def canonCode (p : RawPattern) : List Nat := (mkGeneral p).encode

/-! ## Validation (src/pathce/src/pattern/raw.rs) -/

/-- Connectivity check (`is_connected`): stack-driven reachability from
the first vertex; the fuel covers every possible push. -/
def isConnectedLoop (p : RawPattern) :
    Nat → List TagId → List TagId → List TagId
  | 0, visited, _ => visited
  | _ + 1, visited, [] => visited
  | fuel + 1, visited, t :: rest =>
    let visited' := if t ∈ visited then visited else t :: visited
    let nbrs := ((p.adjacencies t).getD []).filterMap (fun a =>
      if a.neighborTagId ∈ visited' then none else some a.neighborTagId)
    isConnectedLoop p fuel visited' (nbrs ++ rest)

/-- `is_connected`. -/
def RawPattern.isConnected (p : RawPattern) : Bool :=
  if p.vertices.length ≤ 1 then true
  else
    match p.vertices with
    | [] => true
    | v :: _ =>
      let fuel := 2 * p.edges.length + p.vertices.length + 4
      (isConnectedLoop p fuel [] [v.tagId]).length = p.vertices.length

/-- Errors of the embedded fallible operations. Rust panics
(`assert!`, `unwrap`, `unreachable!`) are modelled as error values;
`assert64Edges` is reserved for the spanning-tree enumerator's
`pattern.edges().len() <= 64` assertion, `catalogDup` for
`GCardError::Catalog` on duplicate insertion, and `fuelOut` for
exhaustion of the fuel that models unbounded source loops. -/
inductive RunError where
  | patternErr : RunError
  | assert64Edges : RunError
  | panicOther : RunError
  | fuelOut : RunError
  | emptyDecomposition : RunError
  | catalogDup : RunError
deriving DecidableEq, Repr

/-- `RawPattern::to_general`: validate tag uniqueness, edge endpoints and
connectivity, then canonicalize. -/
def RawPattern.toGeneral (p : RawPattern) : Except RunError GenPattern :=
  if ¬ (p.vertices.map (·.tagId)).Nodup then .error .patternErr
  else if ¬ (p.edges.map (·.tagId)).Nodup then .error .patternErr
  else if ¬ p.edges.all (fun e =>
      e.src ∈ p.vertexTags && e.dst ∈ p.vertexTags) then .error .patternErr
  else if ¬ p.isConnected then .error .patternErr
  else .ok (mkGeneral p)

/-! ## Generic facts about the comparator-based insertion sort -/

theorem insertByCmp_perm {α : Type} (cmp : α → α → Ordering) (x : α)
    (l : List α) : List.Perm (insertByCmp cmp x l) (x :: l) := by
  induction l with
  | nil => simp [insertByCmp]
  | cons y ys ih =>
    by_cases h : cmp x y = .lt
    · simp [insertByCmp, h]
    · simp only [insertByCmp, if_neg h]
      exact ((ih.cons y).trans (List.Perm.swap x y ys))

theorem sortByCmp_perm {α : Type} (cmp : α → α → Ordering) (l : List α) :
    List.Perm (sortByCmp cmp l) l := by
  induction l with
  | nil => simp [sortByCmp]
  | cons x xs ih =>
    exact (insertByCmp_perm cmp x (sortByCmp cmp xs)).trans (ih.cons x)

theorem sortByCmp_length {α : Type} (cmp : α → α → Ordering) (l : List α) :
    (sortByCmp cmp l).length = l.length :=
  (sortByCmp_perm cmp l).length_eq

theorem insertByCmp_pairwise_key {α : Type} (key : α → Nat) (x : α)
    (l : List α) (h : l.Pairwise (fun a b => key a ≤ key b)) :
    (insertByCmp (fun a b => compare (key a) (key b)) x l).Pairwise
      (fun a b => key a ≤ key b) := by
  induction l with
  | nil => simp [insertByCmp]
  | cons y ys ih =>
    rw [List.pairwise_cons] at h
    by_cases hc : compare (key x) (key y) = Ordering.lt
    · simp only [insertByCmp, if_pos hc]
      rw [Nat.compare_eq_lt] at hc
      refine List.Pairwise.cons ?_ (List.Pairwise.cons h.1 h.2)
      intro b hb
      rw [List.mem_cons] at hb
      rcases hb with rfl | hb
      · exact Nat.le_of_lt hc
      · exact Nat.le_trans (Nat.le_of_lt hc) (h.1 b hb)
    · simp only [insertByCmp, if_neg hc]
      rw [Nat.compare_eq_lt] at hc
      push_neg at hc
      refine List.Pairwise.cons ?_ (ih h.2)
      intro b hb
      have hmem := (insertByCmp_perm (fun a b => compare (key a) (key b)) x
        ys).mem_iff.mp hb
      rw [List.mem_cons] at hmem
      rcases hmem with rfl | hmem
      · exact hc
      · exact h.1 b hmem

theorem sortByCmp_pairwise_key {α : Type} (key : α → Nat) (l : List α) :
    (sortByCmp (fun a b => compare (key a) (key b)) l).Pairwise
      (fun a b => key a ≤ key b) := by
  induction l with
  | nil => simp [sortByCmp]
  | cons x xs ih => exact insertByCmp_pairwise_key key x _ ih

/-! ## Claim C2: byte layout of pattern codes -/

/-- Sort key used by `encode_normal`: the canonical edge rank. -/
def GenPattern.rankKey (g : GenPattern) (e : PatternEdge) : Nat :=
  (g.getEdgeRank e.tagId).getD 0

theorem GenPattern.edgeRecord_length (g : GenPattern) (e : PatternEdge) :
    (g.edgeRecord e).length = 14 := by
  simp [GenPattern.edgeRecord, u32beBytes, u8Byte]

/-- C2. Single-edge patterns encode to exactly the 14 bytes
edge label, src label, dst label (big-endian `u32` each) followed by the
src and dst ranks, which are `(0, 1)` when the src label is strictly
smaller than the dst label and `(1, 0)` otherwise (ties included); a
pattern with two or more edges encodes to the concatenation of per-edge
14-byte records arranged in nondecreasing edge-rank order, so its code
length is `14·|E|`. -/
theorem C2_encode_layout :
    (∀ (g : GenPattern) (e : PatternEdge), g.raw.edges = [e] →
      g.encode =
        u32beBytes e.labelId ++
          u32beBytes (((g.raw.getVertex e.src).map (·.labelId)).getD 0) ++
          u32beBytes (((g.raw.getVertex e.dst).map (·.labelId)).getD 0) ++
          (if (((g.raw.getVertex e.src).map (·.labelId)).getD 0) <
              (((g.raw.getVertex e.dst).map (·.labelId)).getD 0)
            then [0, 1] else [1, 0]) ∧
        g.encode.length = 14) ∧
    (∀ g : GenPattern, 2 ≤ g.raw.edges.length →
      (∃ es : List PatternEdge, List.Perm es g.raw.edges ∧
        es.Pairwise (fun e1 e2 => g.rankKey e1 ≤ g.rankKey e2) ∧
        g.encode = es.flatMap g.edgeRecord) ∧
      g.encode.length = 14 * g.raw.edges.length) := by
  constructor
  · intro g e he
    have henc : g.encode =
        encodeEdge (((g.raw.getVertex e.src).map (·.labelId)).getD 0)
          (((g.raw.getVertex e.dst).map (·.labelId)).getD 0) e.labelId := by
      unfold GenPattern.encode
      rw [he]
    constructor
    · rw [henc]; rfl
    · rw [henc]
      unfold encodeEdge
      by_cases h : (((g.raw.getVertex e.src).map (·.labelId)).getD 0) <
          (((g.raw.getVertex e.dst).map (·.labelId)).getD 0) <;>
        simp [h, u32beBytes]
  · intro g hg
    have henc : g.encode = g.encodeNormal := by
      unfold GenPattern.encode
      match hm : g.raw.edges with
      | [] => rw [hm] at hg; simp at hg
      | [e] => rw [hm] at hg; simp at hg
      | e1 :: e2 :: es => rfl
    have hperm := sortByCmp_perm
      (fun e1 e2 => compare (g.rankKey e1) (g.rankKey e2)) g.raw.edges
    have hsorted := sortByCmp_pairwise_key (g.rankKey) g.raw.edges
    refine ⟨⟨sortByCmp (fun e1 e2 => compare (g.rankKey e1) (g.rankKey e2))
        g.raw.edges, hperm, hsorted, ?_⟩, ?_⟩
    · rw [henc]; rfl
    · rw [henc]
      unfold GenPattern.encodeNormal
      rw [List.length_flatMap]
      have : ∀ es : List PatternEdge,
          (es.map (List.length ∘ g.edgeRecord)).sum = 14 * es.length := by
        intro es
        induction es with
        | nil => simp
        | cons e es ih =>
          rw [List.map_cons, List.sum_cons, ih, Function.comp_apply,
            GenPattern.edgeRecord_length, List.length_cons]
          ring
      rw [this]
      exact congrArg (HMul.hMul 14) (sortByCmp_perm _ g.raw.edges).length_eq

/-- Concrete instantiation of `C2_encode_layout` on a one-edge and a
three-edge pattern. -/
theorem C2_encode_layout_witness :
    (mkGeneral ⟨[⟨3, 123⟩, ⟨4, 124⟩], [⟨0, 3, 4, 7⟩]⟩).encode.length = 14 ∧
    (mkGeneral ⟨[⟨0, 1⟩, ⟨1, 1⟩, ⟨2, 2⟩, ⟨3, 5⟩],
      [⟨0, 0, 1, 3⟩, ⟨1, 1, 2, 4⟩, ⟨2, 2, 3, 4⟩]⟩).encode.length = 14 * 3 :=
  ⟨(C2_encode_layout.1 (mkGeneral ⟨[⟨3, 123⟩, ⟨4, 124⟩], [⟨0, 3, 4, 7⟩]⟩)
      ⟨0, 3, 4, 7⟩ rfl).2,
   by
    have h := (C2_encode_layout.2 (mkGeneral ⟨[⟨0, 1⟩, ⟨1, 1⟩, ⟨2, 2⟩, ⟨3, 5⟩],
      [⟨0, 0, 1, 3⟩, ⟨1, 1, 2, 4⟩, ⟨2, 2, 3, 4⟩]⟩) (by decide)).2
    simpa using h⟩

/-! ## Greedy binning (src/pathce/src/binning/greedy.rs) -/

/-- `build_initial_bucket_map`: the first `n % budget` chunks have the
ceiling size, the remaining chunks the floor size; an element at overall
position `i` of a chunked run of size `k` lands in chunk `i / k`. The
map is the insertion-ordered list of `(vertex, bucket)` bindings.
(Rust panics on `budget = 0`; the embedding is total, and the theorems
assume a positive budget.) -/
def assignBuckets (f : Nat → Nat) (vs : List Nat) : List (Nat × Nat) :=
  vs.enum.map (fun iv => (iv.2, f iv.1))

def buildInitialBucketMap (budget : Nat) (vertices : List Nat) :
    List (Nat × Nat) :=
  let vertexCount := vertices.length
  let bigBucketCount := vertexCount % budget
  let bigBucketSize := (vertexCount + budget - 1) / budget
  let smallBucketSize := vertexCount / budget
  let bigPart := vertices.take (bigBucketSize * bigBucketCount)
  let bigAssign := assignBuckets (fun i => i / bigBucketSize) bigPart
  let smallPart := vertices.drop (bigBucketCount * bigBucketSize)
  let smallAssign := assignBuckets
    (fun i => bigBucketCount + i / smallBucketSize) smallPart
  if smallBucketSize > 0 then bigAssign ++ smallAssign else bigAssign

/-- State of `GreedyBinner`. -/
structure GreedyBinner where
  budget : Nat
  currentNumBuckets : Nat
  bucketMap : List (Nat × Nat)
deriving Repr

/-- `GreedyBinner::new`: reserve `⌈budget/2⌉` buckets for the initial
pass and keep the rest as split budget. -/
def GreedyBinner.new (budget : Nat) (vertices : List Nat) : GreedyBinner :=
  let initialBudget := (budget + 1) / 2
  let remaining := budget - initialBudget
  { budget := remaining
    currentNumBuckets := initialBudget
    bucketMap := buildInitialBucketMap initialBudget vertices }

/-- Number of vertices a bucket map sends to bucket `b`. -/
def bucketSize (m : List (Nat × Nat)) (b : Nat) : Nat :=
  (m.filter (fun kv => kv.2 = b)).length

theorem count_div_range (k b L : Nat) (hk : 0 < k) :
    ((List.range L).filter (fun i => i / k = b)).length =
      min L (k * (b + 1)) - min L (k * b) := by
  induction L with
  | zero => simp
  | succ L ih =>
    rw [List.range_succ, List.filter_append, List.length_append, ih]
    have hAB : k * (b + 1) = k * b + k := by ring
    by_cases h : L / k = b
    · have hdm := Nat.div_add_mod L k
      have hmlt := Nat.mod_lt L hk
      rw [h] at hdm
      have h1 : k * b ≤ L := by omega
      have h2 : L < k * (b + 1) := by omega
      have hone : (([L].filter (fun i => i / k = b)).length) = 1 := by
        simp [h]
      rw [hone]
      omega
    · have hzero : (([L].filter (fun i => i / k = b)).length) = 0 := by
        simp [h]
      rw [hzero]
      rcases Nat.lt_or_ge (L / k) b with hlt | hge
      · have : L < k * b := by
          have := (Nat.div_lt_iff_lt_mul hk).mp hlt
          calc L < b * k := this
          _ = k * b := Nat.mul_comm _ _
        omega
      · have hgt : b < L / k := Nat.lt_of_le_of_ne hge (fun hh => h hh.symm)
        have : k * (b + 1) ≤ L := by
          have := (Nat.le_div_iff_mul_le hk).mp hgt
          calc k * (b + 1) = (b + 1) * k := Nat.mul_comm _ _
          _ ≤ L := this
        omega

theorem assign_filter_count (f : Nat → Nat) (b : Nat) (vs : List Nat) :
    (∀ n, (((vs.enumFrom n).map (fun iv => (iv.2, f iv.1))).filter
        (fun kv => kv.2 = b)).length =
      ((List.range' n vs.length).filter (fun i => f i = b)).length) := by
  induction vs with
  | nil => intro n; simp
  | cons v vs ih =>
    intro n
    simp only [List.enumFrom, List.map_cons, List.range']
    rw [List.filter_cons, List.filter_cons]
    by_cases h : f n = b
    · simp [h, ih (n + 1)]
    · simp [h, ih (n + 1)]

theorem assign_filter_count_zero (f : Nat → Nat) (b : Nat) (vs : List Nat) :
    ((assignBuckets f vs).filter (fun kv => kv.2 = b)).length =
      ((List.range vs.length).filter (fun i => f i = b)).length := by
  have henum : vs.enum = vs.enumFrom 0 := rfl
  rw [assignBuckets, henum, assign_filter_count f b vs 0, List.range_eq_range']

theorem enum_assign_fst (vs : List Nat) (f : Nat → Nat) :
    (assignBuckets f vs).map Prod.fst = vs := by
  rw [assignBuckets, List.map_map]
  have h : (Prod.fst ∘ fun iv : Nat × Nat => (iv.2, f iv.1)) = Prod.snd := rfl
  rw [h, List.enum_map_snd]

theorem count_range_shift (c q b L : Nat) :
    ((List.range L).filter (fun i => c + i / q = b)).length =
      if c ≤ b then ((List.range L).filter (fun i => i / q = b - c)).length
      else 0 := by
  by_cases hcb : c ≤ b
  · rw [if_pos hcb]
    have hcongr : ∀ i ∈ List.range L,
        (decide (c + i / q = b)) = (decide (i / q = b - c)) := by
      intro i _
      refine decide_eq_decide.mpr ?_
      constructor
      · intro h; omega
      · intro h; omega
    rw [List.filter_congr hcongr]
  · rw [if_neg hcb]
    have hnil : (List.range L).filter (fun i => c + i / q = b) = [] := by
      rw [List.filter_eq_nil_iff]
      intro i _
      simp only [decide_eq_true_eq]
      have hdq := Nat.zero_le (i / q)
      omega
    rw [hnil, List.length_nil]

theorem buildInitialBucketMap_spec (init n : Nat) (hinit : 0 < init) :
    ((buildInitialBucketMap init (List.range n)).map Prod.fst = List.range n) ∧
    (∀ b, bucketSize (buildInitialBucketMap init (List.range n)) b =
      if b < n % init then n / init + 1
      else if b < init then n / init
      else 0) := by
  obtain ⟨q, hq⟩ : ∃ x, n / init = x := ⟨_, rfl⟩
  obtain ⟨r, hr⟩ : ∃ x, n % init = x := ⟨_, rfl⟩
  obtain ⟨k, hkdef⟩ : ∃ x, (n + init - 1) / init = x := ⟨_, rfl⟩
  have hdm : init * q + r = n := by
    rw [← hq, ← hr]; exact Nat.div_add_mod n init
  have hrlt : r < init := hr ▸ Nat.mod_lt n hinit
  have hkif : k = if r = 0 then q else q + 1 := by
    rw [← hkdef]
    by_cases h0 : r = 0
    · rw [if_pos h0]
      apply Nat.div_eq_of_lt_le
      · calc q * init = init * q := Nat.mul_comm _ _
        _ ≤ n + init - 1 := by omega
      · calc n + init - 1 < init * q + init := by omega
        _ = init * (q + 1) := by ring
        _ = (q + 1) * init := Nat.mul_comm _ _
    · rw [if_neg h0]
      apply Nat.div_eq_of_lt_le
      · calc (q + 1) * init = init * q + init := by ring
        _ ≤ n + init - 1 := by omega
      · calc n + init - 1 < init * q + 2 * init := by omega
        _ = init * (q + 1 + 1) := by ring
        _ = (q + 1 + 1) * init := Nat.mul_comm _ _
  have hlenr : (List.range n).length = n := List.length_range n
  have hbiglen : k * r ≤ n := by
    rw [hkif]
    by_cases h0 : r = 0
    · rw [if_pos h0, h0, Nat.mul_zero]; omega
    · rw [if_neg h0]
      have h1 : (q + 1) * r = q * r + r := by ring
      have hqr : q * r ≤ q * init := Nat.mul_le_mul_left q (Nat.le_of_lt hrlt)
      have h2 : q * init = init * q := Nat.mul_comm _ _
      omega
  constructor
  · -- every vertex appears exactly once, in order
    simp only [buildInitialBucketMap, hlenr, hq, hr, hkdef]
    by_cases hsmall : q > 0
    · rw [if_pos hsmall, List.map_append]
      simp only [enum_assign_fst]
      rw [Nat.mul_comm r k]
      exact List.take_append_drop _ _
    · rw [if_neg hsmall]
      simp only [enum_assign_fst]
      have hqz : q = 0 := Nat.eq_zero_of_not_pos hsmall
      have hrn : r = n := by rw [hqz, Nat.mul_zero] at hdm; omega
      have hkr : k * r = n := by
        rw [hkif]
        by_cases h0 : r = 0
        · rw [if_pos h0, h0, Nat.mul_zero]; omega
        · rw [if_neg h0, hqz]; omega
      rw [hkr, List.take_range]
      simp
  · -- the per-bucket sizes
    intro b
    simp only [buildInitialBucketMap, bucketSize, hlenr, hq, hr, hkdef]
    by_cases hsmall : q > 0
    · rw [if_pos hsmall, List.filter_append, List.length_append]
      simp only [assign_filter_count_zero]
      rw [List.length_take, List.length_drop, hlenr,
        Nat.min_eq_left hbiglen, count_range_shift]
      by_cases h0 : r = 0
      · -- no big buckets: only the floor-sized part
        subst h0
        have hkq : k = q := by rw [hkif]; simp
        rw [hkq]
        have hnq : n = init * q := by omega
        simp only [Nat.mul_zero, Nat.zero_mul, List.range_zero,
          List.filter_nil, List.length_nil, Nat.sub_zero, Nat.zero_add,
          Nat.zero_le, if_pos, Nat.sub_zero, Nat.not_lt_zero, if_neg,
          if_false]
        rw [count_div_range _ _ _ hsmall]
        by_cases hb : b < init
        · rw [if_pos hb]
          have hble : q * (b + 1) ≤ q * init := Nat.mul_le_mul_left q hb
          have hcm : q * init = init * q := Nat.mul_comm _ _
          have h1 : min n (q * (b + 1)) = q * (b + 1) :=
            Nat.min_eq_right (by omega)
          have h2 : min n (q * b) = q * b :=
            Nat.min_eq_right (by
              have : q * b ≤ q * (b + 1) := Nat.mul_le_mul_left q (by omega)
              omega)
          have h3 : q * (b + 1) = q * b + q := by ring
          omega
        · rw [if_neg hb]
          have hge : q * init ≤ q * b := Nat.mul_le_mul_left q (by omega)
          have hcm : q * init = init * q := Nat.mul_comm _ _
          have h1 : min n (q * (b + 1)) = n :=
            Nat.min_eq_left (by
              have : q * b ≤ q * (b + 1) := Nat.mul_le_mul_left q (by omega)
              omega)
          have h2 : min n (q * b) = n := Nat.min_eq_left (by omega)
          omega
      · -- big buckets first, floor-sized buckets afterwards
        have hkq : k = q + 1 := by rw [hkif, if_neg h0]
        subst hkq
        rw [count_div_range _ _ _ (by omega : 0 < q + 1)]
        have hsp : n - r * (q + 1) = q * (init - r) := by
          have h1 : q * (init - r) + q * r = q * init := by
            rw [← Nat.mul_add]
            congr 1
            omega
          have h2 : init * q = q * init := Nat.mul_comm _ _
          have h3 : r * (q + 1) = q * r + r := by ring
          have h4 : q * r ≤ q * init := Nat.mul_le_mul_left q (Nat.le_of_lt hrlt)
          omega
        rw [hsp]
        by_cases hb : b < r
        · -- a big bucket
          rw [if_pos hb]
          have hble : (q + 1) * (b + 1) ≤ (q + 1) * r := Nat.mul_le_mul_left _ hb
          have h1 : min ((q + 1) * r) ((q + 1) * (b + 1)) = (q + 1) * (b + 1) :=
            Nat.min_eq_right hble
          have h2 : min ((q + 1) * r) ((q + 1) * b) = (q + 1) * b :=
            Nat.min_eq_right (by
              have : (q + 1) * b ≤ (q + 1) * (b + 1) :=
                Nat.mul_le_mul_left _ (by omega)
              omega)
          rw [if_neg (by omega : ¬ r ≤ b), h1, h2]
          have h3 : (q + 1) * (b + 1) = (q + 1) * b + q + 1 := by ring
          omega
        · -- a floor-sized bucket (or out of range)
          have hbe : (q + 1) * r ≤ (q + 1) * b := Nat.mul_le_mul_left _ (by omega)
          have h1 : min ((q + 1) * r) ((q + 1) * (b + 1)) = (q + 1) * r :=
            Nat.min_eq_left (by
              have : (q + 1) * b ≤ (q + 1) * (b + 1) :=
                Nat.mul_le_mul_left _ (by omega)
              omega)
          have h2 : min ((q + 1) * r) ((q + 1) * b) = (q + 1) * r :=
            Nat.min_eq_left hbe
          rw [if_pos (by omega : r ≤ b), h1, h2,
            count_div_range _ _ _ hsmall]
          by_cases hbi : b < init
          · rw [if_neg hb, if_pos hbi]
            have hble : q * (b - r + 1) ≤ q * (init - r) :=
              Nat.mul_le_mul_left q (by omega)
            have h3 : min (q * (init - r)) (q * (b - r + 1)) = q * (b - r + 1) :=
              Nat.min_eq_right hble
            have h4 : min (q * (init - r)) (q * (b - r)) = q * (b - r) :=
              Nat.min_eq_right (by
                have : q * (b - r) ≤ q * (b - r + 1) :=
                  Nat.mul_le_mul_left q (by omega)
                omega)
            have h5 : q * (b - r + 1) = q * (b - r) + q := by ring
            omega
          · rw [if_neg hb, if_neg hbi]
            have hge : q * (init - r) ≤ q * (b - r) :=
              Nat.mul_le_mul_left q (by omega)
            have h3 : min (q * (init - r)) (q * (b - r + 1)) = q * (init - r) :=
              Nat.min_eq_left (by
                have : q * (b - r) ≤ q * (b - r + 1) :=
                  Nat.mul_le_mul_left q (by omega)
                omega)
            have h4 : min (q * (init - r)) (q * (b - r)) = q * (init - r) :=
              Nat.min_eq_left hge
            omega
    · -- fewer vertices than initial buckets: all singleton buckets
      rw [if_neg hsmall]
      simp only [assign_filter_count_zero]
      rw [List.length_take, hlenr]
      have hqz : q = 0 := Nat.eq_zero_of_not_pos hsmall
      have hrn : r = n := by rw [hqz, Nat.mul_zero] at hdm; omega
      by_cases hn0 : n = 0
      · subst hn0
        have hr0 : r = 0 := by omega
        have hk0 : k * r = 0 := by rw [hr0, Nat.mul_zero]
        rw [hk0]
        simp only [Nat.min_self, Nat.zero_min, List.range_zero,
          List.filter_nil, List.length_nil]
        rw [hr0, hqz]
        simp
      · have hk1 : k = 1 := by
          rw [hkif, if_neg (by omega), hqz]
        subst hk1
        rw [Nat.one_mul, hrn, Nat.min_self,
          count_div_range _ _ _ (by omega : (0:Nat) < 1)]
        simp only [Nat.one_mul]
        by_cases hb : b < n
        · rw [if_pos hb]
          have h1 : min n (b + 1) = b + 1 := Nat.min_eq_right (by omega)
          have h2 : min n b = b := Nat.min_eq_right (by omega)
          omega
        · rw [if_neg hb]
          have h1 : min n (b + 1) = n := Nat.min_eq_left (by omega)
          have h2 : min n b = n := Nat.min_eq_left (by omega)
          by_cases hbi : b < init
          · rw [if_pos hbi]; omega
          · rw [if_neg hbi]; omega

/-- C8 (counterexample). With budget `B = 8` and `n = 10` vertices the
initial pass uses `⌈8/2⌉ = 4` buckets, and the claim then predicts that
the last `8 mod 4 = 0` buckets have size `⌈10/4⌉` and all the rest
(hence every bucket) have size `⌊10/4⌋ = 2`; the code instead gives the
first bucket size `3`. -/
theorem C8_counterexample :
    (GreedyBinner.new 8 (List.range 10)).currentNumBuckets = 4 ∧
    bucketSize (GreedyBinner.new 8 (List.range 10)).bucketMap 0 = 3 ∧
    ¬ bucketSize (GreedyBinner.new 8 (List.range 10)).bucketMap 0 = 10 / 4 := by
  decide

/-- C8 (amended). For every vertex label with `n` vertices and positive
bucket budget `B`, the initial pass of greedy binning partitions the
vertices into `initial = ⌈B/2⌉` contiguous buckets in which the *first*
`n mod initial` buckets have size `⌈n/initial⌉` and the remaining ones
have size `⌊n/initial⌋` (buckets past `initial` are unused), every
vertex is assigned exactly one bucket, and the remaining split budget is
`B − initial`. -/
theorem C8_initial_binning (B n : Nat) (hB : 0 < B) :
    (GreedyBinner.new B (List.range n)).budget = B - (B + 1) / 2 ∧
    (GreedyBinner.new B (List.range n)).currentNumBuckets = (B + 1) / 2 ∧
    ((GreedyBinner.new B (List.range n)).bucketMap.map Prod.fst) =
      List.range n ∧
    (∀ b, bucketSize (GreedyBinner.new B (List.range n)).bucketMap b =
      if b < n % ((B + 1) / 2) then n / ((B + 1) / 2) + 1
      else if b < (B + 1) / 2 then n / ((B + 1) / 2)
      else 0) := by
  have hinit : 0 < (B + 1) / 2 := by omega
  obtain ⟨hfst, hsz⟩ := buildInitialBucketMap_spec ((B + 1) / 2) n hinit
  exact ⟨rfl, rfl, hfst, hsz⟩

/-! ## Catalog (src/pathce/src/catalog/duck.rs) -/

/-- Generic association-list lookup (models `HashMap::get` for non-`Nat`
keys). -/
def mapGet {κ α : Type} [DecidableEq κ] (l : List (κ × α)) (k : κ) :
    Option α :=
  (l.find? (fun kv => kv.1 = k)).map (·.2)

/-- `PathStatistics` (src/pathce/src/statistics.rs): the canonical path
plus the `B×B` count and max-degree matrices. -/
structure PathStatistics where
  path : GenPattern
  count : List (List Nat)
  startMaxDegree : List (List Nat)
  endMaxDegree : List (List Nat)
deriving Repr

/-- `StarStatistics`: the canonical star, its designated center rank, and
the per-bucket count and max-degree vectors. -/
structure StarStatistics where
  star : GenPattern
  centerRank : TagId
  count : List Nat
  maxDegree : List Nat
deriving Repr

/-- Table family of a relational table created by the catalog. -/
inductive TableKind where
  | pathT
  | starT
deriving DecidableEq, Repr

/-- A created relational table: family, label id in the name, and rows
(each row a list of column values). -/
structure CatalogTable where
  kind : TableKind
  labelId : Nat
  rows : List (List Nat)
deriving Repr

/-- Metadata of `DuckCatalog`. -/
structure DuckMetadata where
  paths : List GenPattern
  stars : List GenPattern
  pathLabelMap : List (List Nat × Nat)
  starLabelMap : List ((Nat × List Nat) × Nat)
  edgeCountMap : List (Nat × Nat)
deriving Repr

/-- State of a `DuckCatalog`: metadata plus the tables created in the
embedded engine. -/
structure DuckCatalogState where
  metadata : DuckMetadata
  tables : List CatalogTable
deriving Repr

/-- Rows appended by `add_star_stats`: `(id, _mode, _count)` for every
bucket. -/
def starStatsRows (count maxDegree : List Nat) : List (List Nat) :=
  (maxDegree.zip count).enum.map (fun r => [r.1, r.2.1, r.2.2])

/-- Rows appended by `add_path_stats`: `(s, t, _mode_s, _mode_t, _count)`
for every cell with nonzero count. -/
def pathStatsRowsOf (count startMaxDegree endMaxDegree : List (List Nat)) :
    List (List Nat) :=
  ((startMaxDegree.zip (endMaxDegree.zip count)).enum.flatMap (fun r =>
    let i := r.1
    let mds := r.2.1
    let mdt := r.2.2.1
    let cnt := r.2.2.2
    ((mds.zip (mdt.zip cnt)).enum.filterMap (fun c =>
      if c.2.2.2 ≠ 0 then some [i, c.1, c.2.1, c.2.2.1, c.2.2.2]
      else none))))

/-- `DuckCatalog::init`: empty metadata plus the two sentinel tables
`star_{MAX/2}` and `path_{MAX/2}` holding no rows. -/
def DuckCatalogState.init : DuckCatalogState :=
  { metadata := ⟨[], [], [], [], []⟩
    tables := [⟨.starT, labelHalf, []⟩, ⟨.pathT, labelHalf, []⟩] }

/-- `DuckCatalog::add_star`: compute the label id (shifted into the
sentinel space when every count is zero), fail on a duplicate
`(center rank, code)` key leaving the catalog unchanged, otherwise
record the star and create its table unless the statistics are empty. -/
def DuckCatalogState.addStar (s : DuckCatalogState) (st : StarStatistics) :
    DuckCatalogState × Except RunError Nat :=
  let emptyStats := st.count.all (fun c => c = 0)
  let labelId := s.metadata.stars.length +
    (if emptyStats then labelHalf + 1 else 0)
  match mapGet s.metadata.starLabelMap (st.centerRank, st.star.encode) with
  | some _ => (s, .error .catalogDup)
  | none =>
    let md := { s.metadata with
      starLabelMap := s.metadata.starLabelMap ++
        [((st.centerRank, st.star.encode), labelId)]
      stars := s.metadata.stars ++ [st.star] }
    let s' : DuckCatalogState :=
      if emptyStats then { s with metadata := md }
      else { s with
        metadata := md
        tables := s.tables ++
          [⟨.starT, labelId, starStatsRows st.count st.maxDegree⟩] }
    (s', .ok labelId)

/-- `DuckCatalog::add_path`, analogous to `add_star` with the path's
canonical code as the key. -/
def DuckCatalogState.addPath (s : DuckCatalogState) (st : PathStatistics) :
    DuckCatalogState × Except RunError Nat :=
  let emptyStats := st.count.all (fun row => row.all (fun c => c = 0))
  let labelId := s.metadata.paths.length +
    (if emptyStats then labelHalf + 1 else 0)
  match mapGet s.metadata.pathLabelMap st.path.encode with
  | some _ => (s, .error .catalogDup)
  | none =>
    let md := { s.metadata with
      pathLabelMap := s.metadata.pathLabelMap ++ [(st.path.encode, labelId)]
      paths := s.metadata.paths ++ [st.path] }
    let s' : DuckCatalogState :=
      if emptyStats then { s with metadata := md }
      else { s with
        metadata := md
        tables := s.tables ++
          [⟨.pathT, labelId,
            pathStatsRowsOf st.count st.startMaxDegree st.endMaxDegree⟩] }
    (s', .ok labelId)

/-- `DuckCatalog::add_edge_count` (asserts the label is new). -/
def DuckCatalogState.addEdgeCount (s : DuckCatalogState) (l c : Nat) :
    DuckCatalogState × Except RunError Unit :=
  match mapGet s.metadata.edgeCountMap l with
  | some _ => (s, .error .panicOther)
  | none =>
    ({ s with metadata := { s.metadata with
        edgeCountMap := s.metadata.edgeCountMap ++ [(l, c)] } }, .ok ())

/-- One catalog-building operation. -/
inductive CatalogOp where
  | addPath (st : PathStatistics)
  | addStar (st : StarStatistics)
  | addEdgeCount (l c : Nat)

/-- Apply one operation, keeping the state returned by the faithful
operation (unchanged when the operation fails). -/
def applyCatalogOp (s : DuckCatalogState) : CatalogOp → DuckCatalogState
  | .addPath st => (s.addPath st).1
  | .addStar st => (s.addStar st).1
  | .addEdgeCount l c => (s.addEdgeCount l c).1

/-- Apply a sequence of operations starting from `init`. -/
def runCatalogOps (ops : List CatalogOp) : DuckCatalogState :=
  ops.foldl applyCatalogOp DuckCatalogState.init

/-! ## Join-engine table resolution (src/pathce/src/estimate/join.rs) -/

/-- Resolution performed by `create_temp_table`: a catalog edge with
label id below `LabelId::MAX / 2` reads its own `path_{id}`/`star_{id}`
table, every other id reads the shared `…_{MAX/2}` sentinel. The result
is the label number in the resolved table name. -/
def resolveTableLabel (labelId : Nat) : Nat :=
  if labelId < labelHalf then labelId else labelHalf

theorem mapGet_mem_values {κ : Type} [DecidableEq κ] (m : List (κ × Nat))
    (k : κ) (v : Nat) (h : mapGet m k = some v) : v ∈ m.map Prod.snd := by
  unfold mapGet at h
  cases hf : m.find? (fun kv => kv.1 = k) with
  | none => rw [hf] at h; simp at h
  | some kv =>
    rw [hf] at h
    simp at h
    have := List.mem_of_find?_eq_some hf
    subst h
    exact List.mem_map_of_mem Prod.snd this

theorem mapGet_inj {κ : Type} [DecidableEq κ] (m : List (κ × Nat))
    (hpw : (m.map Prod.snd).Pairwise (fun a b => a ≠ b)) :
    ∀ k1 k2 v1 v2, mapGet m k1 = some v1 → mapGet m k2 = some v2 →
      v1 = v2 → k1 = k2 := by
  induction m with
  | nil => intro k1 k2 v1 v2 h1; unfold mapGet at h1; simp at h1
  | cons kv rest ih =>
    intro k1 k2 v1 v2 h1 h2 hv
    rw [List.map_cons, List.pairwise_cons] at hpw
    unfold mapGet at h1 h2
    rw [List.find?_cons] at h1 h2
    by_cases hk1 : kv.1 = k1
    · by_cases hk2 : kv.1 = k2
      · rw [← hk1, ← hk2]
      · rw [decide_eq_true hk1] at h1
        rw [decide_eq_false hk2] at h2
        have h1' : kv.2 = v1 := by simpa using h1
        have hv2 : v2 ∈ rest.map Prod.snd := mapGet_mem_values rest k2 v2 h2
        exact absurd (h1' ▸ hv) (hpw.1 v2 hv2)
    · by_cases hk2 : kv.1 = k2
      · rw [decide_eq_false hk1] at h1
        rw [decide_eq_true hk2] at h2
        have h2' : kv.2 = v2 := by simpa using h2
        have hv1 : v1 ∈ rest.map Prod.snd := mapGet_mem_values rest k1 v1 h1
        exact absurd (h2'.trans hv.symm) (hpw.1 v1 hv1)
      · rw [decide_eq_false hk1] at h1
        rw [decide_eq_false hk2] at h2
        exact ih hpw.2 k1 k2 v1 v2 h1 h2 hv

/-- Invariant carried through catalog construction: with `fuel`
operations still to run, the recorded shape counts fit under
`LabelId::MAX / 2` and every assigned label id either indexes the shape
list directly or does so after subtracting the sentinel offset; the
assigned ids are pairwise distinct. -/
def catInv (s : DuckCatalogState) (fuel : Nat) : Prop :=
  s.metadata.paths.length + fuel ≤ labelHalf ∧
  s.metadata.stars.length + fuel ≤ labelHalf ∧
  (∀ v ∈ s.metadata.pathLabelMap.map Prod.snd,
    v < s.metadata.paths.length ∨
    (labelHalf + 1 ≤ v ∧ v - (labelHalf + 1) < s.metadata.paths.length)) ∧
  (∀ v ∈ s.metadata.starLabelMap.map Prod.snd,
    v < s.metadata.stars.length ∨
    (labelHalf + 1 ≤ v ∧ v - (labelHalf + 1) < s.metadata.stars.length)) ∧
  (s.metadata.pathLabelMap.map Prod.snd).Pairwise (fun a b => a ≠ b) ∧
  (s.metadata.starLabelMap.map Prod.snd).Pairwise (fun a b => a ≠ b)

theorem catInv_step (s : DuckCatalogState) (op : CatalogOp) (m : Nat)
    (h : catInv s (m + 1)) : catInv (applyCatalogOp s op) m := by
  obtain ⟨hp, hs, hfp, hfs, hpwp, hpws⟩ := h
  cases op with
  | addEdgeCount l c =>
    have hstate : applyCatalogOp s (.addEdgeCount l c) =
      (s.addEdgeCount l c).1 := rfl
    rw [hstate]
    unfold DuckCatalogState.addEdgeCount
    cases hm : mapGet s.metadata.edgeCountMap l with
    | some x =>
      exact ⟨(by omega : s.metadata.paths.length + m ≤ labelHalf),
        (by omega : s.metadata.stars.length + m ≤ labelHalf),
        hfp, hfs, hpwp, hpws⟩
    | none =>
      exact ⟨(by omega : s.metadata.paths.length + m ≤ labelHalf),
        (by omega : s.metadata.stars.length + m ≤ labelHalf),
        hfp, hfs, hpwp, hpws⟩
  | addPath st =>
    have hstate : applyCatalogOp s (.addPath st) = (s.addPath st).1 := rfl
    rw [hstate]
    unfold DuckCatalogState.addPath
    cases hm : mapGet s.metadata.pathLabelMap st.path.encode with
    | some x =>
      exact ⟨(by omega : s.metadata.paths.length + m ≤ labelHalf),
        (by omega : s.metadata.stars.length + m ≤ labelHalf),
        hfp, hfs, hpwp, hpws⟩
    | none =>
      dsimp only
      by_cases he : st.count.all (fun row => row.all (fun c => c = 0)) = true
      · simp only [if_pos he]
        refine ⟨?_, ?_, ?_, ?_, ?_, ?_⟩ <;>
          simp only [List.map_append, List.map_cons, List.map_nil,
            List.length_append, List.length_cons, List.length_nil] <;>
          try assumption
        · omega
        · omega
        · intro v hv
          rw [List.mem_append, List.mem_singleton] at hv
          rcases hv with hv | hv
          · rcases hfp v hv with h1 | h1
            · left; omega
            · right; omega
          · subst hv; right; constructor <;> omega
        · rw [List.pairwise_append]
          refine ⟨hpwp, List.pairwise_singleton _ _, ?_⟩
          intro a ha b hb
          rw [List.mem_singleton] at hb
          subst hb
          rcases hfp a ha with h1 | h1 <;> omega
      · simp only [if_neg he]
        refine ⟨?_, ?_, ?_, ?_, ?_, ?_⟩ <;>
          simp only [List.map_append, List.map_cons, List.map_nil,
            List.length_append, List.length_cons, List.length_nil] <;>
          try assumption
        · omega
        · omega
        · intro v hv
          rw [List.mem_append, List.mem_singleton] at hv
          rcases hv with hv | hv
          · rcases hfp v hv with h1 | h1
            · left; omega
            · right; omega
          · subst hv; left; omega
        · rw [List.pairwise_append]
          refine ⟨hpwp, List.pairwise_singleton _ _, ?_⟩
          intro a ha b hb
          rw [List.mem_singleton] at hb
          subst hb
          rcases hfp a ha with h1 | h1 <;> omega
  | addStar st =>
    have hstate : applyCatalogOp s (.addStar st) = (s.addStar st).1 := rfl
    rw [hstate]
    unfold DuckCatalogState.addStar
    cases hm : mapGet s.metadata.starLabelMap (st.centerRank, st.star.encode) with
    | some x =>
      exact ⟨(by omega : s.metadata.paths.length + m ≤ labelHalf),
        (by omega : s.metadata.stars.length + m ≤ labelHalf),
        hfp, hfs, hpwp, hpws⟩
    | none =>
      dsimp only
      by_cases he : st.count.all (fun c => c = 0) = true
      · simp only [if_pos he]
        refine ⟨?_, ?_, ?_, ?_, ?_, ?_⟩ <;>
          simp only [List.map_append, List.map_cons, List.map_nil,
            List.length_append, List.length_cons, List.length_nil] <;>
          try assumption
        · omega
        · omega
        · intro v hv
          rw [List.mem_append, List.mem_singleton] at hv
          rcases hv with hv | hv
          · rcases hfs v hv with h1 | h1
            · left; omega
            · right; omega
          · subst hv; right; constructor <;> omega
        · rw [List.pairwise_append]
          refine ⟨hpws, List.pairwise_singleton _ _, ?_⟩
          intro a ha b hb
          rw [List.mem_singleton] at hb
          subst hb
          rcases hfs a ha with h1 | h1 <;> omega
      · simp only [if_neg he]
        refine ⟨?_, ?_, ?_, ?_, ?_, ?_⟩ <;>
          simp only [List.map_append, List.map_cons, List.map_nil,
            List.length_append, List.length_cons, List.length_nil] <;>
          try assumption
        · omega
        · omega
        · intro v hv
          rw [List.mem_append, List.mem_singleton] at hv
          rcases hv with hv | hv
          · rcases hfs v hv with h1 | h1
            · left; omega
            · right; omega
          · subst hv; left; omega
        · rw [List.pairwise_append]
          refine ⟨hpws, List.pairwise_singleton _ _, ?_⟩
          intro a ha b hb
          rw [List.mem_singleton] at hb
          subst hb
          rcases hfs a ha with h1 | h1 <;> omega

theorem catInv_init (fuel : Nat) (h : fuel ≤ labelHalf) :
    catInv DuckCatalogState.init fuel := by
  refine ⟨?_, ?_, ?_, ?_, ?_, ?_⟩ <;>
    simp [DuckCatalogState.init, catInv]
  · omega
  · omega

theorem catInv_fold (ops : List CatalogOp) :
    ∀ (s : DuckCatalogState) (m : Nat), catInv s (ops.length + m) →
      catInv (ops.foldl applyCatalogOp s) m := by
  induction ops with
  | nil => intro s m h; simpa using h
  | cons op ops ih =>
    intro s m h
    rw [List.foldl_cons]
    apply ih
    apply catInv_step
    have : ops.length + m + 1 = (op :: ops).length + m := by simp; omega
    rw [this]
    exact h

theorem runCatalogOps_inv (ops : List CatalogOp)
    (h : ops.length ≤ labelHalf) : catInv (runCatalogOps ops) 0 := by
  unfold runCatalogOps
  apply catInv_fold
  apply catInv_init
  omega

/-- C6. Inserting path statistics whose path's canonical code is already
a key of `path_label_map` makes `add_path` return a `CatalogError` and
leaves the catalog unchanged; likewise `add_star` for an already-present
`(center rank, code)` key; and after any sequence of at most
`LabelId::MAX/2` catalog operations both maps are injective (distinct
keys are mapped to distinct label ids). -/
theorem C6_duplicate_insert :
    (∀ (s : DuckCatalogState) (st : PathStatistics),
      (mapGet s.metadata.pathLabelMap st.path.encode).isSome = true →
      s.addPath st = (s, .error .catalogDup)) ∧
    (∀ (s : DuckCatalogState) (st : StarStatistics),
      (mapGet s.metadata.starLabelMap (st.centerRank, st.star.encode)).isSome
        = true →
      s.addStar st = (s, .error .catalogDup)) ∧
    (∀ ops : List CatalogOp, ops.length ≤ labelHalf →
      (∀ k1 k2 v1 v2,
        mapGet (runCatalogOps ops).metadata.pathLabelMap k1 = some v1 →
        mapGet (runCatalogOps ops).metadata.pathLabelMap k2 = some v2 →
        v1 = v2 → k1 = k2) ∧
      (∀ k1 k2 v1 v2,
        mapGet (runCatalogOps ops).metadata.starLabelMap k1 = some v1 →
        mapGet (runCatalogOps ops).metadata.starLabelMap k2 = some v2 →
        v1 = v2 → k1 = k2)) := by
  refine ⟨?_, ?_, ?_⟩
  · intro s st hsome
    unfold DuckCatalogState.addPath
    cases hm : mapGet s.metadata.pathLabelMap st.path.encode with
    | none => rw [hm] at hsome; simp at hsome
    | some x => rfl
  · intro s st hsome
    unfold DuckCatalogState.addStar
    cases hm : mapGet s.metadata.starLabelMap (st.centerRank, st.star.encode) with
    | none => rw [hm] at hsome; simp at hsome
    | some x => rfl
  · intro ops hops
    obtain ⟨_, _, _, _, hpwp, hpws⟩ := runCatalogOps_inv ops hops
    exact ⟨mapGet_inj _ hpwp, mapGet_inj _ hpws⟩

/-- Fixture: a one-edge path with nonzero statistics. -/
def pStW : PathStatistics :=
  ⟨mkGeneral ⟨[⟨0, 0⟩, ⟨1, 0⟩], [⟨0, 0, 1, 0⟩]⟩, [[1]], [[1]], [[1]]⟩

/-- Fixture: a single-vertex star with nonzero statistics. -/
def sStW : StarStatistics :=
  ⟨mkGeneral ⟨[⟨0, 0⟩], []⟩, 0, [1], [1]⟩

/-- Concrete instantiation of `C6_duplicate_insert`: re-inserting the
same path (star) into a catalog that already holds it errors out. -/
theorem C6_duplicate_insert_witness :
    ((DuckCatalogState.init.addPath pStW).1.addPath pStW =
      ((DuckCatalogState.init.addPath pStW).1, .error .catalogDup)) ∧
    ((DuckCatalogState.init.addStar sStW).1.addStar sStW =
      ((DuckCatalogState.init.addStar sStW).1, .error .catalogDup)) ∧
    (pStW.path.encode = pStW.path.encode) :=
  ⟨C6_duplicate_insert.1 _ pStW (by decide),
   C6_duplicate_insert.2.1 _ sStW (by decide),
   (C6_duplicate_insert.2.2 [CatalogOp.addPath pStW]
      (by decide)).1 pStW.path.encode pStW.path.encode 0 0
      (by decide) (by decide) rfl⟩

/-- C4. Catalog label ids at most `LabelId::MAX/2` resolve injectively
(each to its own stored table), all ids strictly greater than
`MAX/2 + 1` resolve to the shared sentinel label `MAX/2`, and
`add_path` / `add_star` hand out an id in the sentinel space exactly
when the inserted statistics are all zero. -/
theorem C4_sentinel_resolution :
    (∀ i j : Nat, i ≤ labelHalf → j ≤ labelHalf →
      resolveTableLabel i = resolveTableLabel j → i = j) ∧
    (∀ i : Nat, labelHalf + 1 < i → resolveTableLabel i = labelHalf) ∧
    (∀ (s : DuckCatalogState) (st : PathStatistics) (v : Nat),
      s.metadata.paths.length ≤ labelHalf →
      (s.addPath st).2 = .ok v →
      (labelHalf < v ↔
        st.count.all (fun row => row.all (fun c => c = 0)) = true)) ∧
    (∀ (s : DuckCatalogState) (st : StarStatistics) (v : Nat),
      s.metadata.stars.length ≤ labelHalf →
      (s.addStar st).2 = .ok v →
      (labelHalf < v ↔ st.count.all (fun c => c = 0) = true)) := by
  refine ⟨?_, ?_, ?_, ?_⟩
  · intro i j hi hj h
    unfold resolveTableLabel at h
    split_ifs at h <;> omega
  · intro i hi
    unfold resolveTableLabel
    rw [if_neg (by omega)]
  · intro s st v hlen hok
    unfold DuckCatalogState.addPath at hok
    cases hm : mapGet s.metadata.pathLabelMap st.path.encode with
    | some x => rw [hm] at hok; exact absurd hok (by simp)
    | none =>
      rw [hm] at hok
      have hv : s.metadata.paths.length +
          (if st.count.all (fun row => row.all (fun c => c = 0)) = true
            then labelHalf + 1 else 0) = v := by
        simpa using hok
      by_cases he : st.count.all (fun row => row.all (fun c => c = 0)) = true
      · rw [if_pos he] at hv
        simp only [he, iff_true]
        omega
      · rw [if_neg he] at hv
        constructor
        · intro hlt; exact absurd hlt (by omega)
        · intro hx; exact absurd hx he
  · intro s st v hlen hok
    unfold DuckCatalogState.addStar at hok
    cases hm : mapGet s.metadata.starLabelMap (st.centerRank, st.star.encode) with
    | some x => rw [hm] at hok; exact absurd hok (by simp)
    | none =>
      rw [hm] at hok
      have hv : s.metadata.stars.length +
          (if st.count.all (fun c => c = 0) = true
            then labelHalf + 1 else 0) = v := by
        simpa using hok
      by_cases he : st.count.all (fun c => c = 0) = true
      · rw [if_pos he] at hv
        simp only [he, iff_true]
        omega
      · rw [if_neg he] at hv
        constructor
        · intro hlt; exact absurd hlt (by omega)
        · intro hx; exact absurd hx he

/-- Concrete instantiation of `C4_sentinel_resolution`. -/
theorem C4_sentinel_resolution_witness :
    ((7:Nat) = 7) ∧
    resolveTableLabel (labelHalf + 2) = labelHalf ∧
    (labelHalf < 0 ↔
      pStW.count.all (fun row => row.all (fun c => c = 0)) = true) ∧
    (labelHalf < 0 ↔ sStW.count.all (fun c => c = 0) = true) :=
  ⟨C4_sentinel_resolution.1 7 7 (by decide) (by decide) rfl,
   C4_sentinel_resolution.2.1 (labelHalf + 2) (Nat.lt_succ_self _),
   C4_sentinel_resolution.2.2.1 DuckCatalogState.init pStW 0 (by decide)
     rfl,
   C4_sentinel_resolution.2.2.2 DuckCatalogState.init sStW 0 (by decide)
     rfl⟩

/-! ## Catalog patterns (src/pathce/src/estimate/catalog_pattern.rs) -/

/-- Kind of a catalog hyperedge. -/
inductive CatalogEdgeKind where
  | star (center : TagId)
  | path (src dst : TagId)
  | general (vertices : List TagId)
deriving DecidableEq, Repr

/-- Query vertex tags carried by a hyperedge kind. -/
def CatalogEdgeKind.kindVertices : CatalogEdgeKind → List TagId
  | .star center => [center]
  | .path src dst => [src, dst]
  | .general vs => vs

/-- A catalog hyperedge: tag, catalog label id, and kind. -/
structure CatalogEdge where
  tagId : TagId
  labelId : LabelId
  kind : CatalogEdgeKind
deriving DecidableEq, Repr

/-- `CatalogEdge::star`. -/
def CatalogEdge.mkStar (tagId : TagId) (labelId : LabelId) (center : TagId) :
    CatalogEdge := ⟨tagId, labelId, .star center⟩

/-- `CatalogEdge::path`. -/
def CatalogEdge.mkPath (tagId : TagId) (labelId : LabelId)
    (src dst : TagId) : CatalogEdge := ⟨tagId, labelId, .path src dst⟩

/-- `CatalogEdge::general`. -/
def CatalogEdge.mkGeneral (tagId : TagId) (labelId : LabelId)
    (vs : List TagId) : CatalogEdge := ⟨tagId, labelId, .general vs⟩

/-- A catalog vertex. -/
structure CatalogVertex where
  tagId : TagId
  labelId : LabelId
deriving DecidableEq, Repr

/-- Insertion into a sorted duplicate-free list (models `BTreeSet`). -/
def sortedInsert (x : Nat) : List Nat → List Nat
  | [] => [x]
  | y :: ys =>
    if x = y then y :: ys
    else if x < y then x :: y :: ys
    else y :: sortedInsert x ys

/-- Removal from a sorted duplicate-free list. -/
def sortedRemove (x : Nat) (l : List Nat) : List Nat :=
  l.filter (fun y => y ≠ x)

/-- `CatalogPattern`: vertex and edge stores with tag-indexed maps and a
per-vertex incident-edge set (`adj_list`, a `BTreeSet` per vertex).
Removed entries stay in the stores; membership is tracked through the
maps, exactly as in the source. -/
structure CatalogPattern where
  vertices : List CatalogVertex
  edges : List CatalogEdge
  tagVertexMap : List (TagId × Nat)
  tagEdgeMap : List (TagId × Nat)
  adjList : List (TagId × List TagId)
deriving Repr

namespace CatalogPattern

/-- `CatalogPattern::new`. -/
def new : CatalogPattern := ⟨[], [], [], [], []⟩

/-- `get_vertices_num`. -/
def getVerticesNum (p : CatalogPattern) : Nat := p.tagVertexMap.length

/-- `get_edges_num`. -/
def getEdgesNum (p : CatalogPattern) : Nat := p.tagEdgeMap.length

/-- Live vertices (`vertices()`: filtered by map membership). -/
def verticesActive (p : CatalogPattern) : List CatalogVertex :=
  p.vertices.filter (fun v => (assocGet p.tagVertexMap v.tagId).isSome)

/-- Live edges (`edges()`). -/
def edgesActive (p : CatalogPattern) : List CatalogEdge :=
  p.edges.filter (fun e => (assocGet p.tagEdgeMap e.tagId).isSome)

/-- `get_vertex`. -/
def getVertex (p : CatalogPattern) (t : TagId) : Option CatalogVertex := do
  let i ← assocGet p.tagVertexMap t
  p.vertices.get? i

/-- `get_edge`. -/
def getEdge (p : CatalogPattern) (t : TagId) : Option CatalogEdge := do
  let i ← assocGet p.tagEdgeMap t
  p.edges.get? i

/-- `next_edge_tag_id`. -/
def nextEdgeTagId (p : CatalogPattern) : TagId :=
  ((p.edgesActive.map (fun e => e.tagId + 1)).max?).getD 0

/-- `add_vertex` (the source asserts the tag is fresh; on a stale tag the
embedding leaves the pattern unchanged, a state the decomposer and join
engine never produce). -/
def addVertex (p : CatalogPattern) (v : CatalogVertex) : CatalogPattern :=
  if (assocGet p.tagVertexMap v.tagId).isSome then p
  else
    { p with
      vertices := p.vertices ++ [v]
      tagVertexMap := p.tagVertexMap ++ [(v.tagId, p.vertices.length)]
      adjList :=
        if (assocGet p.adjList v.tagId).isSome then p.adjList
        else p.adjList ++ [(v.tagId, [])] }

/-- Insert an edge tag into one vertex's incident set
(`adj_list.entry(v).or_default().insert(tag)`). -/
def adjInsert (adj : List (TagId × List TagId)) (v : TagId) (t : TagId) :
    List (TagId × List TagId) :=
  if (assocGet adj v).isSome then
    adj.map (fun kv => if kv.1 = v then (kv.1, sortedInsert t kv.2) else kv)
  else adj ++ [(v, [t])]

/-- `add_edge` (assert on a stale tag modelled as no-op, as above). -/
def addEdge (p : CatalogPattern) (e : CatalogEdge) : CatalogPattern :=
  if (assocGet p.tagEdgeMap e.tagId).isSome then p
  else
    { p with
      edges := p.edges ++ [e]
      tagEdgeMap := p.tagEdgeMap ++ [(e.tagId, p.edges.length)]
      adjList := e.kind.kindVertices.foldl
        (fun adj v => adjInsert adj v e.tagId) p.adjList }

/-- Remove a key from an association list. -/
def assocRemove {α : Type} (l : List (Nat × α)) (k : Nat) :
    List (Nat × α) :=
  l.filter (fun kv => kv.1 ≠ k)

/-- `remove_vertex`: drop the vertex and every incident edge, erasing the
edge tags from the other endpoints' incident sets. -/
def removeVertex (p : CatalogPattern) (t : TagId) : CatalogPattern × Bool :=
  if (assocGet p.tagVertexMap t).isNone then (p, false)
  else
    let incident := (assocGet p.adjList t).getD []
    let p' := incident.foldl
      (fun (q : CatalogPattern) edgeTag =>
        let vs := match q.getEdge edgeTag with
          | some e => e.kind.kindVertices
          | none => []
        { q with
          tagEdgeMap := assocRemove q.tagEdgeMap edgeTag
          adjList := vs.foldl
            (fun adj v =>
              if (assocGet adj v).isSome then
                adj.map (fun kv =>
                  if kv.1 = v then (kv.1, sortedRemove edgeTag kv.2) else kv)
              else adj)
            q.adjList })
      { p with
        tagVertexMap := assocRemove p.tagVertexMap t
        adjList := assocRemove p.adjList t }
    (p', true)

/-- `incident_edges`. -/
def incidentEdges (p : CatalogPattern) (t : TagId) :
    Option (List CatalogEdge) :=
  (assocGet p.adjList t).map (fun ts => ts.filterMap (fun e => p.getEdge e))

end CatalogPattern

/-! ## Path patterns (src/pathce/src/pattern/path.rs) -/

/-- `PathPattern`: a validated pattern together with the direction of each
edge along the path (the per-edge `EdgeCardinality` vector carries no
information relevant here: it is default-initialized by `to_path`). -/
structure PathPattern where
  pattern : GenPattern
  directions : List EdgeDirection
deriving DecidableEq, Repr

/-- The direction-collecting loop of `RawPattern::to_path`: walk the edge
list from the first vertex, recording `Out`/`In`, and return the tag the
walk ends on. `none` models the `invalid path` error. -/
def pathDirections : List PatternEdge → TagId →
    Option (List EdgeDirection × TagId)
  | [], s => some ([], s)
  | e :: es, s =>
    if e.src = s then
      (pathDirections es e.dst).map (fun r => (.Out :: r.1, r.2))
    else if e.dst = s then
      (pathDirections es e.src).map (fun r => (.In :: r.1, r.2))
    else none

/-- `RawPattern::to_path`: validate as a general pattern, then check the
edge list forms a walk from the first vertex to the last. -/
def RawPattern.toPath (p : RawPattern) : Except RunError PathPattern := do
  let g ← p.toGeneral
  match g.raw.vertices.head?, g.raw.vertices.getLast? with
  | some v0, some vlast =>
    match pathDirections g.raw.edges v0.tagId with
    | none => .error .patternErr
    | some (dirs, s) =>
      if s = vlast.tagId then .ok ⟨g, dirs⟩ else .error .patternErr
  | _, _ => .error .patternErr

namespace PathPattern

/-- `PathPattern::start` (first vertex; the `unwrap` cannot fire on
validated paths, `getD` totalizes it). -/
def startVertex (pp : PathPattern) : PatternVertex :=
  pp.pattern.raw.vertices.head?.getD ⟨0, 0⟩

/-- `PathPattern::end` (last vertex). -/
def endVertex (pp : PathPattern) : PatternVertex :=
  pp.pattern.raw.vertices.getLast?.getD ⟨0, 0⟩

/-- `PathPattern::len`. -/
def len (pp : PathPattern) : Nat := pp.pattern.raw.edges.length

/-- `get_vertex_rank`, delegated to the inner pattern. -/
def getVertexRank (pp : PathPattern) (t : TagId) : Option Nat :=
  pp.pattern.getVertexRank t

/-- `encode`, delegated to the inner pattern. -/
def encode (pp : PathPattern) : List Nat := pp.pattern.encode

end PathPattern

/-! ## The `Catalog` trait (src/pathce/src/catalog/mod.rs), as a record of
lookup functions -/

/-- A catalog: the lookups the decomposer performs. Byte strings are
`List Nat` as in the encoders above. -/
structure CatalogModel where
  getPathLabelId : List Nat → Option LabelId
  getPath : LabelId → Option PathPattern
  getStarLabelId : TagId → List Nat → Option LabelId
  getStar : LabelId → Option GenPattern
  getEdgeCount : LabelId → Option Nat

/-- Lift an `Option` produced by a source `unwrap` into the error monad
(`none` is the panic). -/
def liftOpt {α : Type} : Option α → Except RunError α
  | some a => .ok a
  | none => .error .panicOther

/-! ## Heuristic decomposer (src/pathce/src/estimate/decompose/heuristic.rs) -/

/-- `HeuristicDecomposer` configuration plus its catalog. -/
structure HeuristicDecomposer where
  catalog : CatalogModel
  maxPathLength : Nat
  maxStarLength : Nat
  maxStarDegree : Nat
  limit : Nat
  disableStar : Bool
  disablePrune : Bool
  disableCyclic : Bool

/-- `HeuristicDecomposer::new`: `disable_star` zeroes both star limits. -/
def HeuristicDecomposer.new (catalog : CatalogModel)
    (maxPathLength maxStarLength maxStarDegree limit : Nat)
    (disableStar disablePrune disableCyclic : Bool) : HeuristicDecomposer :=
  ⟨catalog, maxPathLength,
    if disableStar then 0 else maxStarLength,
    if disableStar then 0 else maxStarDegree,
    limit, disableStar, disablePrune, disableCyclic⟩

/-- `PathRef`: a walk recorded as its vertex tags and edge tags. -/
structure PathRef where
  vertices : List TagId
  edges : List TagId
deriving DecidableEq, Repr

/-- `PathSegment` (a borrowed slice pair in the source; a copied pair of
lists here). -/
structure PathSegment where
  vertices : List TagId
  edges : List TagId
deriving DecidableEq, Repr

/-- The free function `split_at`: vertices `[0..=i]` / `[i..]`, edges
`[0..i]` / `[i..]`. -/
def segmentSplitAt (vertices edges : List TagId) (i : Nat) :
    PathSegment × PathSegment :=
  (⟨vertices.take (i + 1), edges.take i⟩, ⟨vertices.drop i, edges.drop i⟩)

namespace PathRef

/-- `PathRef::new`. -/
def new (source : TagId) : PathRef := ⟨[source], []⟩

/-- `PathRef::to_segment` (`split_at(0).1`, i.e. the whole path). -/
def toSegment (p : PathRef) : PathSegment := ⟨p.vertices, p.edges⟩

/-- `PathRef::push`. -/
def push (p : PathRef) (vertex edge : TagId) : PathRef :=
  ⟨p.vertices ++ [vertex], p.edges ++ [edge]⟩

/-- `PathRef::len`. -/
def len (p : PathRef) : Nat := p.edges.length

/-- `PathRef::end` (`unwrap` of the last vertex, totalized). -/
def endTag (p : PathRef) : TagId := p.vertices.getLast?.getD 0

end PathRef

namespace PathSegment

/-- `PathSegment::len`. -/
def len (s : PathSegment) : Nat := s.edges.length

/-- `PathSegment::split_at`. -/
def splitAt (s : PathSegment) (i : Nat) : PathSegment × PathSegment :=
  segmentSplitAt s.vertices s.edges i

/-- `PathSegment::start`. -/
def startTag (s : PathSegment) : TagId := s.vertices.head?.getD 0

/-- `PathSegment::end`. -/
def endTag (s : PathSegment) : TagId := s.vertices.getLast?.getD 0

end PathSegment

/-- `find_pivots`: vertices of degree at least 3, in declaration order. -/
def findPivots (p : RawPattern) : List TagId :=
  (p.vertices.map (·.tagId)).filter (fun v => 3 ≤ (p.degree v).getD 0)

/-- `Itertools::interleave`: alternate elements starting from the first
list, then the remainder of the longer one. -/
def interleave {α : Type} : List α → List α → List α
  | [], ys => ys
  | x :: xs, ys => x :: interleave ys xs
termination_by a b => a.length + b.length

/-- Lexicographic comparison of lists, a shorter strict-prefix list
comparing below (the semantics of `Iterator::cmp`). -/
def cmpLex {α : Type} (cmp : α → α → Ordering) :
    List α → List α → Ordering
  | [], [] => .eq
  | [], _ :: _ => .lt
  | _ :: _, [] => .gt
  | a :: as_, b :: bs => (cmp a b).then (cmpLex cmp as_ bs)

/-- The label sequence `PathSegmentWrapper::cmp` compares: vertex labels
interleaved with edge labels (lookup `unwrap`s totalized by `getD`). -/
def segmentLabelSeq (p : RawPattern) (s : PathSegment) : List LabelId :=
  interleave
    (s.vertices.map (fun v => ((p.getVertex v).map (·.labelId)).getD 0))
    (s.edges.map (fun e => ((p.getEdge e).map (·.labelId)).getD 0))

/-- `PathSegmentWrapper::cmp`. -/
def cmpSegment (p : RawPattern) (s1 s2 : PathSegment) : Ordering :=
  cmpLex compare (segmentLabelSeq p s1) (segmentLabelSeq p s2)

/-- Helper of `partition_dedup`: split off every element comparing equal
to the last retained element (`prev`). -/
def partitionDedupGo {α : Type} (eqb : α → α → Bool) (prev : α) :
    List α → List α × List α
  | [] => ([], [])
  | x :: xs =>
    if eqb prev x then
      let r := partitionDedupGo eqb prev xs
      (r.1, x :: r.2)
    else
      let r := partitionDedupGo eqb x xs
      (x :: r.1, r.2)

/-- `slice::partition_dedup_by`: first component keeps the first element
of every run of consecutive equal elements, second collects the rest
(their order is unspecified in Rust; declaration order here). -/
def partitionDedup {α : Type} (eqb : α → α → Bool) :
    List α → List α × List α
  | [] => ([], [])
  | x :: xs =>
    let r := partitionDedupGo eqb x xs
    (x :: r.1, r.2)

/-- The inner `while !pivots.contains(&neighbor)` walk of
`find_candidate_paths_from_vertex`: follow the first unvisited adjacency
until a pivot or a dead end. The fuel models the unbounded loop; every
call below passes `|E| + 1`, which the walk (one fresh edge per step)
never exhausts. -/
def walkLoop (p : RawPattern) (pivots : List TagId) :
    Nat → List TagId → TagId → PathRef → PathRef × List TagId
  | 0, visited, _, path => (path, visited)
  | fuel + 1, visited, nb, path =>
    if nb ∈ pivots then (path, visited)
    else
      match ((p.adjacencies nb).getD []).find?
          (fun a => !(visited.contains a.edgeTagId)) with
      | none => (path, visited)
      | some adj =>
        walkLoop p pivots fuel (adj.edgeTagId :: visited) adj.neighborTagId
          (path.push adj.neighborTagId adj.edgeTagId)

/-- `find_candidate_paths_from_vertex`: one walk per unvisited adjacency
of the source, the visited-edge set threaded through (and returned, since
the source mutates a shared set). -/
def findCandidatePathsFromVertex (p : RawPattern) (visited : List TagId)
    (source : TagId) (pivots : List TagId) : List PathRef × List TagId :=
  ((p.adjacencies source).getD []).foldl
    (fun (acc : List PathRef × List TagId) adj =>
      if adj.edgeTagId ∈ acc.2 then acc
      else
        let r := walkLoop p pivots (p.edges.length + 1)
          (adj.edgeTagId :: acc.2) adj.neighborTagId
          ((PathRef.new source).push adj.neighborTagId adj.edgeTagId)
        (acc.1 ++ [r.1], r.2))
    ([], visited)

/-- Sorted duplicate-free list of a tag list (`BTreeSet` built by
`collect()`). -/
def btreeSetOf (l : List TagId) : List TagId :=
  l.foldl (fun s x => sortedInsert x s) []

/-- `find_candidate_paths_with_pivots`: walk from each pivot in ascending
order, sharing one visited-edge set across all pivots. -/
def findCandidatePathsWithPivots (p : RawPattern) (pivots : List TagId) :
    List (TagId × List PathRef) :=
  (pivots.foldl
    (fun (acc : List (TagId × List PathRef) × List TagId) v =>
      let r := findCandidatePathsFromVertex p acc.2 v pivots
      (acc.1 ++ [(v, r.1)], r.2))
    ([], [])).1

/-- `min_by_key`, keeping the first minimal element (Rust semantics). -/
def minByKeyFirst {α : Type} (key : α → Nat) : List α → Option α
  | [] => none
  | x :: xs =>
    some (xs.foldl (fun best y => if key y < key best then y else best) x)

/-- `max_by_key`, keeping the last maximal element (Rust semantics). -/
def maxByKeyLast {α : Type} (key : α → Nat) : List α → Option α
  | [] => none
  | x :: xs =>
    some (xs.foldl (fun best y => if key y < key best then best else y) x)

/-- `find_candidate_paths`: pivots are the smaller-tagged endpoint for a
path, the minimum-tag vertex for a cycle, and the degree-`≥ 3` vertices
otherwise; `collect_tuple().unwrap()` panics unless the path has exactly
two endpoints. -/
def findCandidatePaths (p : RawPattern) :
    Except RunError (List (TagId × List PathRef)) :=
  if p.isPath then
    match p.vertices.filter (fun v => (p.degree v.tagId).getD 0 = 1) with
    | [a, b] =>
      .ok (findCandidatePathsWithPivots p (btreeSetOf [min a.tagId b.tagId]))
    | _ => .error .panicOther
  else if p.isCycle then
    match minByKeyFirst (fun v => v.tagId) p.vertices with
    | some v => .ok (findCandidatePathsWithPivots p (btreeSetOf [v.tagId]))
    | none => .error .panicOther
  else .ok (findCandidatePathsWithPivots p (btreeSetOf (findPivots p)))

/-- `HeuristicDecomposer::translate_star`: rebuild the star from the
segments (tails of each segment, then the shared start), validate it,
and look its code up under the center's rank. The returned hyperedge's
tag is the first edge tag, or the start vertex for a single-vertex star. -/
def translateStar (cm : CatalogModel) (p : RawPattern)
    (segments : List PathSegment) (center : TagId) :
    Except RunError CatalogEdge := do
  match segments with
  | [] => .error .panicOther
  | s0 :: _ =>
    let start := s0.startTag
    if !(segments.all (fun s => s.startTag = start)) then .error .panicOther
    else do
      let vtags := segments.flatMap (fun s => s.vertices.drop 1) ++ [start]
      let vs ← liftOpt (vtags.mapM (fun t => p.getVertex t))
      let etags := segments.flatMap (fun s => s.edges)
      let es ← liftOpt (etags.mapM (fun t => p.getEdge t))
      let star ← RawPattern.toGeneral ⟨vs, es⟩
      let centerRank ← liftOpt (star.getVertexRank center)
      let labelId ← liftOpt (cm.getStarLabelId centerRank star.encode)
      .ok (CatalogEdge.mkStar (etags.head?.getD start) labelId center)

/-- `HeuristicDecomposer::translate_path`: rebuild the segment as a path
pattern — splicing in a fresh end vertex when the segment closes a cycle
— and orient the hyperedge by comparing its endpoint ranks with the
stored catalog path's endpoint ranks. -/
def translatePath (cm : CatalogModel) (p : RawPattern)
    (segment : PathSegment) : Except RunError CatalogEdge := do
  if segment.len = 0 then .error .panicOther
  else do
    let realStart := segment.startTag
    let realEnd := segment.endTag
    let vs ← liftOpt (segment.vertices.mapM (fun t => p.getVertex t))
    let es ← liftOpt (segment.edges.mapM (fun t => p.getEdge t))
    let path ←
      (if realStart ≠ realEnd then RawPattern.toPath ⟨vs, es⟩
      else
        match vs.getLast?, es.getLast? with
        | some vlast, some elast =>
          let nextVertexTagId := ((vs.map (fun v => v.tagId + 1)).max?).getD 0
          let vs' := vs.dropLast ++ [⟨nextVertexTagId, vlast.labelId⟩]
          ((if elast.src = vlast.tagId then
              .ok (PatternEdge.mk elast.tagId nextVertexTagId elast.dst
                elast.labelId)
            else if elast.dst = vlast.tagId then
              .ok (PatternEdge.mk elast.tagId elast.src nextVertexTagId
                elast.labelId)
            else (.error .panicOther : Except RunError PatternEdge)) >>=
            fun newEndEdge =>
              RawPattern.toPath ⟨vs', es.dropLast ++ [newEndEdge]⟩)
        | _, _ => .error .panicOther)
    let edgeTagId := segment.edges.head?.getD 0
    let startRank ← liftOpt (path.getVertexRank path.startVertex.tagId)
    let endRank ← liftOpt (path.getVertexRank path.endVertex.tagId)
    let labelId ← liftOpt (cm.getPathLabelId path.encode)
    let catalogPath ← liftOpt (cm.getPath labelId)
    let cStart ← liftOpt
      (catalogPath.getVertexRank catalogPath.startVertex.tagId)
    let cEnd ← liftOpt (catalogPath.getVertexRank catalogPath.endVertex.tagId)
    if startRank = cStart ∧ endRank = cEnd then
      .ok (CatalogEdge.mkPath edgeTagId labelId realStart realEnd)
    else if startRank = cEnd ∧ endRank = cStart then
      .ok (CatalogEdge.mkPath edgeTagId labelId realEnd realStart)
    else .error .panicOther

/-- The `while path.len() > max_path_length` splitting loop of
`decompose_path` (plus the final nonempty push); the callers' fuel
`len + 1` always suffices when `max_path_length ≥ 1`, and the
`max_path_length = 0` divergence surfaces as `fuelOut`. -/
def splitSegments (maxPathLength : Nat) :
    Nat → PathSegment → List PathSegment →
    Except RunError (List PathSegment)
  | 0, _, _ => .error .fuelOut
  | fuel + 1, path, acc =>
    if path.len > maxPathLength then
      let r := path.splitAt maxPathLength
      splitSegments maxPathLength fuel r.2 (acc ++ [r.1])
    else if path.len > 0 then .ok (acc ++ [path])
    else .ok acc

/-- `HeuristicDecomposer::decompose_path`: split into segments of at most
`max_path_length` edges, then translate each segment as a path, or as a
one-armed star when an endpoint has degree 1 (unless stars are disabled).
Each produced hyperedge is paired with the query edges of its segment. -/
def decomposePath (d : HeuristicDecomposer) (p : RawPattern)
    (path : PathRef) : Except RunError (List (CatalogEdge × List TagId)) := do
  if path.edges.isEmpty then .error .panicOther
  else do
    let segs ← splitSegments d.maxPathLength (path.len + 1) path.toSegment []
    if segs.isEmpty then .error .panicOther
    else
      segs.mapM (fun segment => do
        let startDegree ← liftOpt (p.degree segment.startTag)
        let endDegree ← liftOpt (p.degree segment.endTag)
        let ce ←
          (if d.disableStar || (startDegree > 1 && endDegree > 1) then
            translatePath d.catalog p segment
          else if startDegree = 1 then
            translateStar d.catalog p [segment] segment.endTag
          else if endDegree = 1 then
            translateStar d.catalog p [segment] segment.startTag
          else (.error .panicOther : Except RunError CatalogEdge))
        .ok (ce, segment.edges))

/-- The star-merging rounds of `decompose_candidate_paths`: sort the
segments by label sequence, split off consecutive duplicates, emit one
star from the distinct segments, repeat on the duplicates. The callers'
fuel `|segments| + 1` always suffices (every round consumes at least one
segment). -/
def starRounds (cm : CatalogModel) (p : RawPattern) (pivot : TagId) :
    Nat → List PathSegment → List (CatalogEdge × List TagId) →
    Except RunError (List (CatalogEdge × List TagId))
  | _, [], acc => .ok acc
  | 0, _ :: _, _ => .error .fuelOut
  | fuel + 1, s :: ss, acc => do
    let sorted := sortByCmp (cmpSegment p) (s :: ss)
    let r := partitionDedup (fun a b => cmpSegment p a b = .eq) sorted
    let ce ← translateStar cm p r.1 pivot
    starRounds cm p pivot fuel r.2 (acc ++ [(ce, r.1.flatMap (·.edges))])

/-- Per-pivot hyperedge production of `decompose_candidate_paths`:
partition the pivot's paths into star-mergeable ones (degree-1 far end,
within the star length) and the rest, cap the mergeable ones at
`max_star_degree`, run the star rounds, then decompose every remaining
path. -/
def pivotEdges (d : HeuristicDecomposer) (p : RawPattern) (pivot : TagId)
    (paths : List PathRef) :
    Except RunError (List (CatalogEdge × List TagId)) := do
  let parts := paths.partition (fun path =>
    decide (((p.degree path.endTag).getD 0 = 1) ∧
      path.len ≤ d.maxStarLength))
  let mergeable := parts.1.take d.maxStarDegree
  let remainingMergeable :=
    if parts.1.length > d.maxStarDegree then parts.1.drop d.maxStarDegree
    else []
  let starEdges ← starRounds d.catalog p pivot (mergeable.length + 1)
    (mergeable.map PathRef.toSegment) []
  let pathEdges ← (remainingMergeable ++ parts.2).foldlM
    (fun acc path => do
      let decomposed ← decomposePath d p path
      .ok (acc ++ decomposed))
    ([] : List (CatalogEdge × List TagId))
  .ok (starEdges ++ pathEdges)

/-- The catalog-pattern assembly loop of `decompose_candidate_paths`: add
each hyperedge's query vertices (first time they appear) and the
hyperedge itself; a `General` hyperedge is the source's `unreachable!`. -/
def assembleCatalogPattern (p : RawPattern) :
    List CatalogEdge → CatalogPattern → Except RunError CatalogPattern
  | [], cp => .ok cp
  | e :: rest, cp =>
    match e.kind with
    | .star center => do
      let v ← liftOpt (p.getVertex center)
      assembleCatalogPattern p rest
        ((cp.addVertex ⟨v.tagId, v.labelId⟩).addEdge e)
    | .path src dst => do
      let vs ← liftOpt (p.getVertex src)
      let vd ← liftOpt (p.getVertex dst)
      assembleCatalogPattern p rest
        (((cp.addVertex ⟨vs.tagId, vs.labelId⟩).addVertex
          ⟨vd.tagId, vd.labelId⟩).addEdge e)
    | .general _ => .error .panicOther

/-- `HeuristicDecomposer::decompose_candidate_paths`, instrumented: the
result pairs the built `CatalogPattern` with, for each produced
hyperedge in order, the list of query edges that hyperedge covers (the
edge lists of the segments it was translated from) — the spec's notion
of the hyperedge "referencing" a query edge. -/
def decomposeCandidatePaths (d : HeuristicDecomposer) (p : RawPattern)
    (candidatePaths : List (TagId × List PathRef)) :
    Except RunError (CatalogPattern × List (List TagId)) := do
  let edges ← candidatePaths.foldlM
    (fun acc pv => do
      let more ← pivotEdges d p pv.1 pv.2
      .ok (acc ++ more))
    ([] : List (CatalogEdge × List TagId))
  let cp ← assembleCatalogPattern p (edges.map (·.1)) CatalogPattern.new
  .ok (cp, edges.map (·.2))

/-- `HeuristicDecomposer::decompose_acyclic`. -/
def decomposeAcyclic (d : HeuristicDecomposer) (p : RawPattern) :
    Except RunError (CatalogPattern × List (List TagId)) := do
  let cps ← findCandidatePaths p
  decomposeCandidatePaths d p cps

/-! ## Spanning-tree enumeration (heuristic.rs, `generate_spanning_trees`) -/

/-- `petgraph::prelude::UnGraphMap<TagId, TagId>`: an undirected graph
with node list, and per-edge weight (the pattern edge tag). Nodes are
registered on first use and survive edge removal. -/
structure UnGraph where
  nodes : List TagId
  edges : List (TagId × TagId × TagId)
deriving Repr

namespace UnGraph

/-- Undirected key equality of two endpoint pairs. -/
def sameKey (a b c d : TagId) : Bool :=
  (a = c && b = d) || (a = d && b = c)

/-- Membership of an undirected edge. -/
def hasEdge (g : UnGraph) (a b : TagId) : Bool :=
  g.edges.any (fun e => sameKey e.1 e.2.1 a b)

/-- Register a node. -/
def addNode (g : UnGraph) (a : TagId) : UnGraph :=
  if a ∈ g.nodes then g else { g with nodes := g.nodes ++ [a] }

/-- `add_edge`: register both endpoints and set the weight (replacing an
existing parallel edge, as `GraphMap` does). -/
def addEdge (g : UnGraph) (a b w : TagId) : UnGraph :=
  let g := (g.addNode a).addNode b
  if g.hasEdge a b then
    { g with edges := g.edges.map (fun e =>
        if sameKey e.1 e.2.1 a b then (e.1, e.2.1, w) else e) }
  else { g with edges := g.edges ++ [(a, b, w)] }

/-- `remove_edge` (nodes are kept). -/
def removeEdge (g : UnGraph) (a b : TagId) : UnGraph :=
  { g with edges := g.edges.filter (fun e => !(sameKey e.1 e.2.1 a b)) }

end UnGraph

/-- `petgraph::algo::is_cyclic_undirected`, by its union-find semantics:
scan the edges, merging endpoint components; an edge inside one
component closes a cycle. -/
def isCyclicUndirected (g : UnGraph) : Bool :=
  (g.edges.foldl
    (fun (st : Bool × List (List TagId)) e =>
      if st.1 then st
      else
        let ca := (st.2.find? (fun c => e.1 ∈ c)).getD [e.1]
        if e.2.1 ∈ ca then (true, st.2)
        else
          let cb := (st.2.find? (fun c => e.2.1 ∈ c)).getD [e.2.1]
          (false, (ca ++ cb) ::
            st.2.filter (fun c => !(c.contains e.1) && !(c.contains e.2.1))))
    (false, [])).1

/-- `From<PatternWrapper> for UnGraphMap`: one `add_edge` per pattern
edge. -/
def ungraphOfPattern (p : RawPattern) : UnGraph :=
  p.edges.foldl (fun g e => g.addEdge e.src e.dst e.tagId) ⟨[], []⟩

/-- The traversal loop of `generate_initial_spanning_tree` (the frontier
is a stack, its head the vertex popped next); collects tree vertices and
edges in visit order. The callers' fuel `|V| + 1` always suffices. -/
def spanningTreeLoop (p : RawPattern) :
    Nat → List TagId → List TagId →
    List PatternVertex × List PatternEdge →
    List PatternVertex × List PatternEdge
  | 0, _, _, acc => acc
  | _ + 1, _, [], acc => acc
  | fuel + 1, visited, current :: frontier, acc =>
    let vtx := (p.getVertex current).getD ⟨0, 0⟩
    let st := ((p.adjacencies current).getD []).foldl
      (fun (st : List TagId × List TagId × List PatternEdge) adj =>
        if adj.neighborTagId ∈ st.1 then st
        else
          (adj.neighborTagId :: st.1, adj.neighborTagId :: st.2.1,
            st.2.2 ++ [(p.getEdge adj.edgeTagId).getD ⟨0, 0, 0, 0⟩]))
      (visited, frontier, acc.2)
    spanningTreeLoop p fuel st.1 st.2.1 (acc.1 ++ [vtx], st.2.2)

/-- `generate_initial_spanning_tree`: traverse from a minimum-degree
vertex, validate the collected tree, and check the vertex/edge counts
(the source's `assert_eq!`s). -/
def generateInitialSpanningTree (p : RawPattern) :
    Except RunError GenPattern := do
  match minByKeyFirst (fun v => (p.degree v.tagId).getD 0) p.vertices with
  | none => .error .panicOther
  | some start =>
    let r := spanningTreeLoop p (p.vertices.length + 1) [start.tagId]
      [start.tagId] ([], [])
    let tree ← RawPattern.toGeneral ⟨r.1, r.2⟩
    if tree.raw.vertices.length = p.vertices.length ∧
        tree.raw.edges.length = p.vertices.length - 1 then .ok tree
    else .error .panicOther

/-- Ascending set-bit indices below `width` (the `Ones` iterator; codes
are below `2 ^ width` at every use). -/
def onesBelow (bits width : Nat) : List Nat :=
  (List.range width).filter (fun i => bits.testBit i)

/-- Rebuild a pattern from an `UnGraphMap` state (the tree-emission block
of `generate_spanning_trees`): nodes and edges in the graph's order,
looked up in the original pattern, then validated. -/
def ungraphToGeneral (p : RawPattern) (g : UnGraph) :
    Except RunError GenPattern := do
  let vs ← liftOpt (g.nodes.mapM (fun t => p.getVertex t))
  let es ← liftOpt (g.edges.mapM (fun e => p.getEdge e.2.2))
  RawPattern.toGeneral ⟨vs, es⟩

/-- Inner loop body of `generate_spanning_trees` for one branch-removal
code: once the limit is reached the remaining iterations are no-ops
(the source returns early). -/
def branchStep (p : RawPattern) (treeWithChords : UnGraph)
    (branchEdges : List PatternEdge) (limit : Nat)
    (st : List GenPattern) (bcode : Nat) :
    Except RunError (List GenPattern) :=
  if st.length = limit then .ok st
  else
    let bs := (onesBelow bcode branchEdges.length).map
      (fun i => branchEdges.getD i ⟨0, 0, 0, 0⟩)
    let cand := bs.foldl (fun g e => g.removeEdge e.src e.dst) treeWithChords
    if isCyclicUndirected cand then .ok st
    else do
      let t ← ungraphToGeneral p cand
      .ok (st ++ [t])

/-- Outer loop body of `generate_spanning_trees` for one chord code: add
the chosen chords, then try every branch-removal code with the same
popcount. -/
def chordStep (p : RawPattern) (tree0 : UnGraph)
    (chordEdges branchEdges : List PatternEdge) (limit : Nat)
    (st : List GenPattern) (ccode : Nat) :
    Except RunError (List GenPattern) :=
  if st.length = limit then .ok st
  else
    let cs := (onesBelow ccode chordEdges.length).map
      (fun i => chordEdges.getD i ⟨0, 0, 0, 0⟩)
    let treeWithChords := cs.foldl
      (fun g e => g.addEdge e.src e.dst e.tagId) tree0
    let chordNum := (onesBelow ccode chordEdges.length).length
    let bcodes := ((List.range (2 ^ branchEdges.length)).drop 1).filter
      (fun c => (onesBelow c branchEdges.length).length = chordNum)
    bcodes.foldlM (branchStep p treeWithChords branchEdges limit) st

/-- `generate_spanning_trees`: empty for `limit = 0`; the
`pattern.edges().len() <= 64` assertion; then the initial tree and the
chord/branch exchange enumeration up to `limit` trees. -/
def generateSpanningTrees (p : RawPattern) (limit : Nat) :
    Except RunError (List GenPattern) :=
  if limit = 0 then .ok []
  else if p.edges.length > 64 then .error .assert64Edges
  else
    match generateInitialSpanningTree p with
    | .error e => .error e
    | .ok initial =>
      if limit = 1 then .ok [initial]
      else
        let tree0 := ungraphOfPattern initial.raw
        let branchEdges := initial.raw.edges
        let chordEdges := p.edges.filter
          (fun e => (initial.raw.getEdge e.tagId).isNone)
        let ccodes := (List.range
          (2 ^ (min chordEdges.length branchEdges.length))).drop 1
        ccodes.foldlM (chordStep p tree0 chordEdges branchEdges limit)
          [initial]

/-! ## Pruning (heuristic.rs, `HeuristicDecomposer::prune`) -/

/-- Insert a value into the `BTreeSet` stored under a key of a sorted
`BTreeMap` (`entry(k).or_default().insert(v)`). -/
def btreeEntryInsert : List (TagId × List TagId) → TagId → TagId →
    List (TagId × List TagId)
  | [], k, v => [(k, [v])]
  | (k', s) :: rest, k, v =>
    if k = k' then (k', sortedInsert v s) :: rest
    else if k < k' then (k, [v]) :: (k', s) :: rest
    else (k', s) :: btreeEntryInsert rest k v

/-- The neighbor map `prune` builds from the candidate paths: pivots and
far path ends of degree other than 1, linked both ways. -/
def pruneNeighbors (p : RawPattern)
    (cps : List (TagId × List PathRef)) : List (TagId × List TagId) :=
  cps.foldl
    (fun nb pv =>
      pv.2.foldl
        (fun nb path =>
          let e := path.endTag
          if e ≠ pv.1 ∧ (p.degree e).getD 0 ≠ 1 then
            btreeEntryInsert (btreeEntryInsert nb pv.1 e) e pv.1
          else nb)
        nb)
    []

/-- The victim-elimination loop of `prune`: repeatedly take the key with
the fewest neighbors; a victim with more than 2 neighbors selects, from
its candidate paths, the heaviest edge (by catalog edge count, `unwrap`
totalized inside the comparator) of the first `neighbors − 2` paths to
prune and stops; otherwise the victim is spliced out of the map. -/
def pruneVictimLoop (cm : CatalogModel) (p : RawPattern)
    (cps : List (TagId × List PathRef)) :
    Nat → List (TagId × List TagId) → Except RunError (List TagId)
  | 0, _ => .error .fuelOut
  | fuel + 1, neighbors =>
    match neighbors with
    | [] => .ok []
    | _ :: _ =>
      match minByKeyFirst (fun kv => kv.2.length) neighbors with
      | none => .error .panicOther
      | some victim =>
        let neighbors' := CatalogPattern.assocRemove neighbors victim.1
        if victim.2.length > 2 then do
          let numToPrune := victim.2.length - 2
          let paths ← liftOpt ((cps.find? (fun kv => kv.1 = victim.1)).map
            (·.2))
          let pruned ← (paths.take numToPrune).mapM (fun path =>
            liftOpt (maxByKeyLast
              (fun e => (cm.getEdgeCount
                (((p.getEdge e).map (·.labelId)).getD 0)).getD 0)
              path.edges))
          if pruned.length = numToPrune then .ok pruned
          else .error .panicOther
        else do
          let merged ← victim.2.foldlM
            (fun (m : List (TagId × List TagId)) nbv => do
              let s ← liftOpt (assocGet m nbv)
              let s := sortedRemove victim.1 s
              let s := victim.2.foldl
                (fun s n2 => if n2 ≠ nbv then sortedInsert n2 s else s) s
              .ok (assocSet m nbv s))
            neighbors'
          pruneVictimLoop cm p cps fuel merged

/-- The outer `loop` of `prune`: find edges to prune; done when none,
else rebuild the pattern without them and repeat. Each round removes at
least one edge, so the caller's fuel `|E| + 1` always suffices. -/
def pruneLoop (cm : CatalogModel) :
    Nat → GenPattern → Except RunError GenPattern
  | 0, _ => .error .fuelOut
  | fuel + 1, pat => do
    let cps ← findCandidatePaths pat.raw
    let neighbors := pruneNeighbors pat.raw cps
    let toPrune ← pruneVictimLoop cm pat.raw cps (neighbors.length + 1)
      neighbors
    if toPrune.isEmpty then .ok pat
    else do
      let pat' ← RawPattern.toGeneral
        ⟨pat.raw.vertices,
          pat.raw.edges.filter (fun e => !(toPrune.contains e.tagId))⟩
      pruneLoop cm fuel pat'

/-- `HeuristicDecomposer::prune`. -/
def prune (cm : CatalogModel) (p : RawPattern) :
    Except RunError GenPattern := do
  let pat ← p.toGeneral
  pruneLoop cm (p.edges.length + 1) pat

/-! ## Top-level decomposition and estimation
(heuristic.rs `decompose`, src/pathce/src/estimate/mod.rs) -/

/-- `HeuristicDecomposer::decompose_cyclic`: decompose every spanning
tree, then (unless cyclic handling is disabled) add per-vertex pivot
decompositions for a pure cycle, or a decomposition of the (possibly
pruned) pattern itself. -/
def decomposeCyclic (d : HeuristicDecomposer) (p : RawPattern) :
    Except RunError (List (CatalogPattern × List (List TagId))) := do
  let trees ← generateSpanningTrees p d.limit
  let base ← trees.mapM (fun t => decomposeAcyclic d t.raw)
  if d.disableCyclic then .ok base
  else if p.isCycle then do
    let extra ← p.vertices.mapM (fun v =>
      decomposeCandidatePaths d p
        (findCandidatePathsWithPivots p (btreeSetOf [v.tagId])))
    .ok (base ++ extra)
  else if d.disablePrune then do
    let one ← decomposeAcyclic d p
    .ok (base ++ [one])
  else do
    let pruned ← prune d.catalog p
    let one ← decomposeAcyclic d pruned.raw
    .ok (base ++ [one])

/-- `HeuristicDecomposer::decompose` (instrumented like
`decomposeCandidatePaths`): the empty pattern is the source's
`assert!`; a single vertex becomes one single-vertex star; otherwise
dispatch on cyclicity. -/
def HeuristicDecomposer.decompose (d : HeuristicDecomposer)
    (p : RawPattern) :
    Except RunError (List (CatalogPattern × List (List TagId))) :=
  match p.vertices with
  | [] => .error .panicOther
  | v :: rest =>
    if rest.isEmpty ∧ p.edges.isEmpty then do
      let edge ← translateStar d.catalog p [(PathRef.new v.tagId).toSegment]
        v.tagId
      .ok [((CatalogPattern.new.addVertex ⟨v.tagId, v.labelId⟩).addEdge edge,
        [[]])]
    else if ¬ p.isCyclic then do
      let one ← decomposeAcyclic d p
      .ok [one]
    else decomposeCyclic d p

/-- Sequential join estimation of the decomposed patterns
(`patterns.into_iter().map(|p| join::estimate(..)).try_collect()`), the
table-id generator threaded through the parametric join engine `j` (the
engine itself runs SQL and is external to the embedding). -/
def joinCards (j : CatalogPattern → Nat → Except RunError (Rat × Nat)) :
    List CatalogPattern → Nat → Except RunError (List Rat × Nat)
  | [], idg => .ok ([], idg)
  | cp :: rest, idg => do
    let r ← j cp idg
    let rs ← joinCards j rest r.2
    .ok (r.1 :: rs.1, rs.2)

/-- `CardinalityEstimator::estimate`: decompose (the `assert!` that the
decomposition is nonempty), estimate every catalog pattern, and return
the minimum estimate (`min_by(total_cmp)`; estimates are `ℚ` here). -/
def CardinalityEstimator.estimate (d : HeuristicDecomposer)
    (j : CatalogPattern → Nat → Except RunError (Rat × Nat)) (id0 : Nat)
    (p : RawPattern) : Except RunError Rat := do
  let pats ← d.decompose p
  match pats with
  | [] => .error .emptyDecomposition
  | _ :: _ => do
    let r ← joinCards j (pats.map (·.1)) id0
    match r.1 with
    | [] => .error .panicOther
    | c :: cs => .ok (cs.foldl min c)

/-! ## Join engine victim selection and elimination loop
(src/pathce/src/estimate/join.rs) -/

/-- `HashSet::insert` modelled on a duplicate-free list (order is
irrelevant: only the cardinality is consumed). -/
def hashInsert (x : Nat) (l : List Nat) : List Nat :=
  if x ∈ l then l else l ++ [x]

/-- The set of distinct neighbor tags gathered by
`choose_victim_vertex` for one vertex: all vertex tags of the incident
hyperedges, the vertex itself removed at the end. -/
def CatalogPattern.neighborTags (p : CatalogPattern) (t : TagId) :
    List TagId :=
  (((p.incidentEdges t).getD []).foldl
    (fun acc e => e.kind.kindVertices.foldl (fun acc v => hashInsert v acc) acc)
    []).filter (fun v => v ≠ t)

/-- Number of distinct neighbor tags of a vertex. -/
def CatalogPattern.neighborCount (p : CatalogPattern) (t : TagId) : Nat :=
  (p.neighborTags t).length

/-- Loop body of `choose_victim_vertex`: keep the vertex with strictly
fewer distinct neighbors, merging ties by the minimum tag
(`victim.min(Some(tag))`); the `none` count models the initial
`usize::MAX`. -/
def victimStep (f : Nat → Nat) (acc : Option Nat × Option Nat) (u : Nat) :
    Option Nat × Option Nat :=
  let c := f u
  match acc.2 with
  | none => (some u, some c)
  | some m =>
    if c < m then (some u, some c)
    else if c = m then
      (match acc.1 with
       | none => none
       | some b => some (min b u), some m)
    else acc

/-- `EstimateState::choose_victim_vertex`: scan the live vertices with
`victimStep` on their distinct-neighbor counts. -/
def chooseVictimVertex (p : CatalogPattern) : Option TagId :=
  (p.verticesActive.foldl
    (fun acc v => victimStep p.neighborCount acc v.tagId) (none, none)).1

/-- Pattern evolution of `eliminate_vertex` (the relational view creation
is external to the pattern state): collect the victim's incident edges,
derive the sorted neighbor set (`vertex_to_tables` keys minus the
victim), then remove the victim and add the replacement hyperedge of
arity-dependent kind. -/
def eliminateVertex (p : CatalogPattern) (victim : TagId) :
    Except RunError CatalogPattern :=
  match assocGet p.adjList victim with
  | none => .error .panicOther
  | some incidentTags =>
    let incident := incidentTags.filterMap (fun e => p.getEdge e)
    let vertexKeys := incident.foldl
      (fun acc e => e.kind.kindVertices.foldl
        (fun acc v => sortedInsert v acc) acc)
      []
    let neighbors := vertexKeys.filter (fun v => v ≠ victim)
    let nextTag := p.nextEdgeTagId
    let newEdge := match neighbors with
      | [center] => CatalogEdge.mkStar nextTag 0 center
      | [src, dst] => CatalogEdge.mkPath nextTag 0 src dst
      | vs => CatalogEdge.mkGeneral nextTag 0 vs
    let p := (p.removeVertex victim).1
    .ok (p.addEdge newEdge)

/-- The elimination loop of `EstimateState::estimate`, recording the
sequence of eliminated vertices. With a predefined order, the loop walks
the order and stops as soon as at most one vertex remains; without one,
it picks `choose_victim_vertex` while more than one vertex remains
(`fuel` models the unbounded loop). -/
def eliminationTrace (p : CatalogPattern) :
    Option (List TagId) → Nat → Except RunError (List TagId × CatalogPattern)
  | some [], _ => .ok ([], p)
  | some (v :: rest), fuel =>
    if p.getVerticesNum ≤ 1 then .ok ([], p)
    else
      match fuel with
      | 0 => .error .fuelOut
      | fuel + 1 =>
        match eliminateVertex p v with
        | .error e => .error e
        | .ok p' =>
          match eliminationTrace p' (some rest) fuel with
          | .error e => .error e
          | .ok r => .ok (v :: r.1, r.2)
  | none, fuel =>
    if p.getVerticesNum ≤ 1 then .ok ([], p)
    else
      match fuel with
      | 0 => .error .fuelOut
      | fuel + 1 =>
        match chooseVictimVertex p with
        | none => .error .panicOther
        | some v =>
          match eliminateVertex p v with
          | .error e => .error e
          | .ok p' =>
            match eliminationTrace p' none fuel with
            | .error e => .error e
            | .ok r => .ok (v :: r.1, r.2)

theorem victimFold_spec (f : Nat → Nat) :
    ∀ (ts : List Nat) (t0 m0 : Nat), f t0 = m0 →
    ∃ t m, ts.foldl (victimStep f) (some t0, some m0) = (some t, some m) ∧
      f t = m ∧ m ≤ m0 ∧ (∀ u ∈ ts, m ≤ f u) ∧
      (t = t0 ∨ t ∈ ts) ∧
      (m = m0 → t ≤ t0) ∧ (∀ u ∈ ts, f u = m → t ≤ u) := by
  intro ts
  induction ts with
  | nil =>
    intro t0 m0 h0
    exact ⟨t0, m0, rfl, h0, Nat.le_refl _, by simp, Or.inl rfl,
      fun _ => Nat.le_refl _, by simp⟩
  | cons u rest ih =>
    intro t0 m0 h0
    rw [List.foldl_cons]
    rcases Nat.lt_trichotomy (f u) m0 with hc | hc | hc
    · -- strictly fewer neighbors: restart from u
      have hstep : victimStep f (some t0, some m0) u = (some u, some (f u)) := by
        unfold victimStep
        simp only [if_pos hc]
      rw [hstep]
      obtain ⟨t, m, hfold, hft, hm, hall, hpos, htie0, htie⟩ :=
        ih u (f u) rfl
      refine ⟨t, m, hfold, hft, by omega, ?_, ?_, by omega, ?_⟩
      · intro w hw
        rw [List.mem_cons] at hw
        rcases hw with rfl | hw
        · exact hm
        · exact hall w hw
      · rcases hpos with rfl | hp
        · exact Or.inr (List.mem_cons_self _ _)
        · exact Or.inr (List.mem_cons_of_mem _ hp)
      · intro w hw hfw
        rw [List.mem_cons] at hw
        rcases hw with rfl | hw
        · exact htie0 (by omega)
        · exact htie w hw hfw
    · -- tie with the current minimum: merge by minimum tag
      have hstep : victimStep f (some t0, some m0) u =
          (some (min t0 u), some m0) := by
        unfold victimStep
        simp only [if_neg (by omega : ¬ f u < m0), if_pos hc]
      rw [hstep]
      have hmin : f (min t0 u) = m0 := by
        have hcase : min t0 u = t0 ∨ min t0 u = u := by omega
        rcases hcase with hm2 | hm2 <;> rw [hm2]
        · exact h0
        · exact hc
      obtain ⟨t, m, hfold, hft, hm, hall, hpos, htie0, htie⟩ :=
        ih (min t0 u) m0 hmin
      refine ⟨t, m, hfold, hft, hm, ?_, ?_, ?_, ?_⟩
      · intro w hw
        rw [List.mem_cons] at hw
        rcases hw with rfl | hw
        · omega
        · exact hall w hw
      · rcases hpos with rfl | hp
        · have hcase : min t0 u = t0 ∨ min t0 u = u := by omega
          rcases hcase with hm2 | hm2
          · exact Or.inl hm2
          · rw [hm2]
            exact Or.inr (List.mem_cons_self u rest)
        · exact Or.inr (List.mem_cons_of_mem _ hp)
      · intro hmm
        exact Nat.le_trans (htie0 hmm) (Nat.min_le_left _ _)
      · intro w hw hfw
        rw [List.mem_cons] at hw
        rcases hw with rfl | hw
        · exact Nat.le_trans (htie0 (by omega)) (Nat.min_le_right _ _)
        · exact htie w hw hfw
    · -- more neighbors: keep the accumulator
      have hstep : victimStep f (some t0, some m0) u = (some t0, some m0) := by
        unfold victimStep
        simp only [if_neg (by omega : ¬ f u < m0), if_neg (by omega : ¬ f u = m0)]
      rw [hstep]
      obtain ⟨t, m, hfold, hft, hm, hall, hpos, htie0, htie⟩ := ih t0 m0 h0
      refine ⟨t, m, hfold, hft, hm, ?_, ?_, htie0, ?_⟩
      · intro w hw
        rw [List.mem_cons] at hw
        rcases hw with rfl | hw
        · omega
        · exact hall w hw
      · rcases hpos with rfl | hp
        · exact Or.inl rfl
        · exact Or.inr (List.mem_cons_of_mem _ hp)
      · intro w hw hfw
        rw [List.mem_cons] at hw
        rcases hw with rfl | hw
        · omega
        · exact htie w hw hfw

theorem eliminationTrace_order_spec :
    ∀ (order : List TagId) (fuel : Nat) (p : CatalogPattern)
      (tr : List TagId) (q : CatalogPattern),
      eliminationTrace p (some order) fuel = .ok (tr, q) →
      tr <+: order ∧ (tr = order ∨ q.getVerticesNum ≤ 1) := by
  intro order
  induction order with
  | nil =>
    intro fuel p tr q h
    unfold eliminationTrace at h
    simp only [Except.ok.injEq, Prod.mk.injEq] at h
    obtain ⟨rfl, _⟩ := h
    exact ⟨List.nil_prefix, Or.inl rfl⟩
  | cons v rest ih =>
    intro fuel p tr q h
    unfold eliminationTrace at h
    by_cases hle : p.getVerticesNum ≤ 1
    · rw [if_pos hle] at h
      simp only [Except.ok.injEq, Prod.mk.injEq] at h
      obtain ⟨rfl, rfl⟩ := h
      exact ⟨List.nil_prefix, Or.inr hle⟩
    · rw [if_neg hle] at h
      cases fuel with
      | zero => simp at h
      | succ fuel =>
        dsimp only at h
        cases he : eliminateVertex p v with
        | error e => rw [he] at h; simp at h
        | ok p' =>
          rw [he] at h
          dsimp only at h
          cases hr : eliminationTrace p' (some rest) fuel with
          | error e => rw [hr] at h; simp at h
          | ok r =>
            rw [hr] at h
            simp only [Except.ok.injEq, Prod.mk.injEq] at h
            obtain ⟨htr, hq⟩ := h
            obtain ⟨hpre, hrest⟩ := ih fuel p' r.1 r.2 (by rw [hr])
            subst htr
            constructor
            · obtain ⟨t, ht⟩ := hpre
              exact ⟨t, by rw [List.cons_append, ht]⟩
            · rcases hrest with h1 | h1
              · exact Or.inl (by rw [h1])
              · exact Or.inr (hq ▸ h1)

/-- C9. Without a predefined elimination order, `choose_victim_vertex`
returns the live vertex whose incident hyperedges span the fewest
distinct neighbor tags (the vertex itself excluded), ties broken by the
smallest vertex tag; with a predefined order, the loop eliminates
vertices in exactly that order, stopping only when at most one vertex
remains (so the eliminated sequence is the order itself unless the
vertex count reached one first). -/
theorem C9_victim_selection :
    (∀ p : CatalogPattern, p.verticesActive ≠ [] →
      ∃ t, chooseVictimVertex p = some t ∧
        t ∈ p.verticesActive.map (fun v => v.tagId) ∧
        (∀ v ∈ p.verticesActive,
          p.neighborCount t ≤ p.neighborCount v.tagId) ∧
        (∀ v ∈ p.verticesActive,
          p.neighborCount v.tagId = p.neighborCount t → t ≤ v.tagId)) ∧
    (∀ (order : List TagId) (fuel : Nat) (p : CatalogPattern)
      (tr : List TagId) (q : CatalogPattern),
      eliminationTrace p (some order) fuel = .ok (tr, q) →
      tr <+: order ∧ (tr = order ∨ q.getVerticesNum ≤ 1)) := by
  constructor
  · intro p hne
    match hv : p.verticesActive with
    | [] => exact absurd hv hne
    | v0 :: vs =>
      unfold chooseVictimVertex
      rw [hv, List.foldl_cons]
      have hstep : victimStep p.neighborCount (none, none) v0.tagId =
          (some v0.tagId, some (p.neighborCount v0.tagId)) := rfl
      rw [hstep]
      have hfm : vs.foldl
          (fun acc v => victimStep p.neighborCount acc v.tagId)
          (some v0.tagId, some (p.neighborCount v0.tagId)) =
          (vs.map (fun v => v.tagId)).foldl (victimStep p.neighborCount)
          (some v0.tagId, some (p.neighborCount v0.tagId)) := by
        rw [List.foldl_map]
      rw [hfm]
      obtain ⟨t, m, hfold, hft, hm, hall, hpos, htie0, htie⟩ :=
        victimFold_spec p.neighborCount (vs.map (fun v => v.tagId))
          v0.tagId (p.neighborCount v0.tagId) rfl
      rw [hfold]
      refine ⟨t, rfl, ?_, ?_, ?_⟩
      · rw [List.map_cons]
        rcases hpos with rfl | hp
        · exact List.mem_cons_self _ _
        · exact List.mem_cons_of_mem _ hp
      · intro v hvm
        rw [List.mem_cons] at hvm
        rcases hvm with rfl | hvm
        · rw [hft]; exact hm
        · rw [hft]
          exact hall v.tagId (List.mem_map_of_mem (fun v => v.tagId) hvm)
      · intro v hvm hfv
        rw [List.mem_cons] at hvm
        rcases hvm with rfl | hvm
        · exact htie0 (by omega)
        · exact htie v.tagId (List.mem_map_of_mem (fun v => v.tagId) hvm)
            (by omega)
  · exact eliminationTrace_order_spec

/-- Fixture: a two-vertex catalog pattern joined by one path hyperedge. -/
def cpW : CatalogPattern :=
  ((CatalogPattern.new.addVertex ⟨0, 0⟩).addVertex ⟨1, 0⟩).addEdge
    (CatalogEdge.mkPath 0 5 0 1)

/-- Fixture: a single-vertex catalog pattern. -/
def cp1W : CatalogPattern := CatalogPattern.new.addVertex ⟨0, 0⟩

/-- Concrete instantiation of `C9_victim_selection`. -/
theorem C9_victim_selection_witness :
    (∃ t, chooseVictimVertex cpW = some t ∧
      t ∈ cpW.verticesActive.map (fun v => v.tagId) ∧
      (∀ v ∈ cpW.verticesActive,
        cpW.neighborCount t ≤ cpW.neighborCount v.tagId) ∧
      (∀ v ∈ cpW.verticesActive,
        cpW.neighborCount v.tagId = cpW.neighborCount t → t ≤ v.tagId)) ∧
    (([] : List TagId) <+: [0] ∧
      (([] : List TagId) = [0] ∨ cp1W.getVerticesNum ≤ 1)) :=
  ⟨C9_victim_selection.1 cpW (by decide),
   C9_victim_selection.2 [0] 5 cp1W [] cp1W rfl⟩

/-! ## Reduction helpers for the error monad and list folds -/

theorem bind_ok_run {α β : Type} (a : α) (f : α → Except RunError β) :
    (Except.ok a >>= f) = f a := rfl

theorem bind_err_run {α β : Type} (e : RunError)
    (f : α → Except RunError β) :
    ((Except.error e : Except RunError α) >>= f) = .error e := rfl

theorem pure_run {α : Type} (a : α) : (pure a : Except RunError α) = .ok a :=
  rfl

theorem foldlMin_le (c : Rat) (cs : List Rat) :
    cs.foldl min c ≤ c ∧ ∀ x ∈ cs, cs.foldl min c ≤ x := by
  induction cs generalizing c with
  | nil => exact ⟨le_refl c, by simp⟩
  | cons y ys ih =>
    refine ⟨le_trans (ih (min c y)).1 (min_le_left c y), ?_⟩
    intro x hx
    rcases List.mem_cons.mp hx with rfl | hx
    · exact le_trans (ih (min c x)).1 (min_le_right c x)
    · exact (ih (min c y)).2 x hx

theorem foldlMin_mem (c : Rat) (cs : List Rat) :
    cs.foldl min c = c ∨ cs.foldl min c ∈ cs := by
  induction cs generalizing c with
  | nil => exact Or.inl rfl
  | cons y ys ih =>
    rcases ih (min c y) with h | h
    · rcases min_cases c y with ⟨hm, _⟩ | ⟨hm, _⟩
      · exact Or.inl (by rw [List.foldl_cons, h, hm])
      · exact Or.inr (by
          rw [List.foldl_cons, h, hm]; exact List.mem_cons_self y ys)
    · exact Or.inr (List.mem_cons_of_mem y h)

theorem joinCards_length
    (j : CatalogPattern → Nat → Except RunError (Rat × Nat)) :
    ∀ (l : List CatalogPattern) (idg : Nat) (cs : List Rat) (idg' : Nat),
    joinCards j l idg = .ok (cs, idg') → cs.length = l.length := by
  intro l
  induction l with
  | nil =>
    intro idg cs idg' h
    unfold joinCards at h
    cases h
    rfl
  | cons cp rest ih =>
    intro idg cs idg' h
    unfold joinCards at h
    cases hj : j cp idg with
    | error e => rw [hj, bind_err_run] at h; cases h
    | ok r =>
      rw [hj, bind_ok_run] at h
      cases hrec : joinCards j rest r.2 with
      | error e => rw [hrec, bind_err_run] at h; cases h
      | ok rs =>
        rw [hrec, bind_ok_run] at h
        cases h
        simp [ih r.2 rs.1 rs.2 hrec]

/-! ## Claim C7: cyclic pattern, cyclic handling disabled, limit zero -/

/-- C7. For every cyclic query pattern, estimation with
`disable_cyclic = true` and `limit = 0` returns an error and never a
nonempty answer: the spanning-tree enumerator yields no trees, the
cyclic branch is skipped, so the decomposition is empty and the
nonemptiness assertion of `estimate` fires. -/
theorem C7_cyclic_estimate_error (d : HeuristicDecomposer)
    (j : CatalogPattern → Nat → Except RunError (Rat × Nat)) (id0 : Nat)
    (p : RawPattern) (hcyc : p.isCyclic = true)
    (hdc : d.disableCyclic = true) (hlim : d.limit = 0) :
    ∃ e, CardinalityEstimator.estimate d j id0 p = .error e := by
  have hdec : d.decompose p = .error .panicOther ∨ d.decompose p = .ok [] := by
    unfold HeuristicDecomposer.decompose
    cases hv : p.vertices with
    | nil => exact Or.inl rfl
    | cons v rest =>
      have hne : ¬ (rest.isEmpty ∧ p.edges.isEmpty) := by
        rintro ⟨h1, h2⟩
        rw [RawPattern.isCyclic, hv] at hcyc
        simp only [List.isEmpty_cons, List.isEmpty_iff] at hcyc
        rw [List.isEmpty_iff] at h1 h2
        subst h1
        simp [h2] at hcyc
      have hcy : ¬ ¬ p.isCyclic = true := by simp [hcyc]
      dsimp only
      rw [if_neg hne, if_neg hcy]
      unfold decomposeCyclic
      rw [hlim]
      unfold generateSpanningTrees
      rw [if_pos rfl, bind_ok_run, List.mapM_nil, pure_run, bind_ok_run,
        if_pos hdc]
      exact Or.inr rfl
  rcases hdec with h | h
  · refine ⟨.panicOther, ?_⟩
    unfold CardinalityEstimator.estimate
    rw [h, bind_err_run]
  · refine ⟨.emptyDecomposition, ?_⟩
    unfold CardinalityEstimator.estimate
    rw [h, bind_ok_run]

/-! ## Claim C1: the estimate is the minimum over the decomposition -/

/-- C1. Whenever `estimate` succeeds, the decomposer produced a nonempty
list of catalog patterns, the join engine produced one estimate per
pattern, and the returned value is the minimum of those estimates (a
member that is below all of them); and for an acyclic — in particular a
single-vertex — pattern the decomposition has exactly one element, whose
estimate is therefore returned directly. -/
theorem C1_estimate_min :
    (∀ (d : HeuristicDecomposer)
      (j : CatalogPattern → Nat → Except RunError (Rat × Nat))
      (id0 : Nat) (p : RawPattern) (r : Rat),
      CardinalityEstimator.estimate d j id0 p = .ok r →
      ∃ pats cards idg, d.decompose p = .ok pats ∧ pats ≠ [] ∧
        joinCards j (pats.map (·.1)) id0 = .ok (cards, idg) ∧
        cards.length = pats.length ∧ r ∈ cards ∧ ∀ c ∈ cards, r ≤ c) ∧
    (∀ (d : HeuristicDecomposer) (p : RawPattern)
      (pats : List (CatalogPattern × List (List TagId))),
      p.isCyclic = false → d.decompose p = .ok pats → pats.length = 1) := by
  constructor
  · intro d j id0 p r h
    unfold CardinalityEstimator.estimate at h
    cases hd : d.decompose p with
    | error e => rw [hd, bind_err_run] at h; cases h
    | ok pats =>
      rw [hd, bind_ok_run] at h
      match hp : pats with
      | [] => cases h
      | p0 :: ps =>
        cases hj : joinCards j ((p0 :: ps).map (·.1)) id0 with
        | error e => rw [hj, bind_err_run] at h; cases h
        | ok rr =>
          rw [hj, bind_ok_run] at h
          match hc : rr.1 with
          | [] => rw [hc] at h; cases h
          | c :: cs =>
            rw [hc] at h
            cases h
            refine ⟨p0 :: ps, c :: cs, rr.2, rfl, by simp, ?_, ?_, ?_, ?_⟩
            · rw [← hc]; exact hj
            · rw [← hc]
              have h2 := joinCards_length j ((p0 :: ps).map (·.1)) id0
                rr.1 rr.2 (by rw [hj])
              simpa using h2
            · rcases foldlMin_mem c cs with hm | hm
              · rw [hm]; exact List.mem_cons_self c cs
              · exact List.mem_cons_of_mem c hm
            · intro x hx
              rcases List.mem_cons.mp hx with rfl | hx
              · exact (foldlMin_le x cs).1
              · exact (foldlMin_le c cs).2 x hx
  · intro d p pats hcyc h
    unfold HeuristicDecomposer.decompose at h
    cases hv : p.vertices with
    | nil => rw [hv] at h; cases h
    | cons v rest =>
      rw [hv] at h
      dsimp only at h
      by_cases hone : rest.isEmpty ∧ p.edges.isEmpty
      · rw [if_pos hone] at h
        cases ht : translateStar d.catalog p
            [(PathRef.new v.tagId).toSegment] v.tagId with
        | error e => rw [ht, bind_err_run] at h; cases h
        | ok edge => rw [ht, bind_ok_run] at h; cases h; rfl
      · rw [if_neg hone, if_pos (by simp [hcyc])] at h
        cases ha : decomposeAcyclic d p with
        | error e => rw [ha, bind_err_run] at h; cases h
        | ok one => rw [ha, bind_ok_run] at h; cases h; rfl

/-! ## Claim C10: the 64-edge assertion of the spanning-tree enumerator -/

/-- A result that is not the `assert64Edges` panic. -/
def assertFree {α : Type} : Except RunError α → Prop
  | .error .assert64Edges => False
  | _ => True

theorem assertFree_ok {α : Type} (a : α) :
    assertFree (.ok a : Except RunError α) := trivial

theorem assertFree_bind {α β : Type} {x : Except RunError α}
    {f : α → Except RunError β} (hx : assertFree x)
    (hf : ∀ a, assertFree (f a)) : assertFree (x >>= f) := by
  cases x with
  | ok a => exact hf a
  | error e => cases e <;> first | exact hx.elim | trivial

theorem assertFree_ite {c : Prop} [Decidable c] {α : Type}
    {x y : Except RunError α} (hx : assertFree x) (hy : assertFree y) :
    assertFree (if c then x else y) := by
  by_cases h : c
  · rw [if_pos h]; exact hx
  · rw [if_neg h]; exact hy

theorem assertFree_liftOpt {α : Type} (o : Option α) :
    assertFree (liftOpt o) := by
  cases o <;> trivial

theorem assertFree_mapM {α β : Type} (f : α → Except RunError β)
    (l : List α) (h : ∀ a ∈ l, assertFree (f a)) :
    assertFree (l.mapM f) := by
  induction l with
  | nil => rw [List.mapM_nil]; exact assertFree_ok []
  | cons a as ih =>
    rw [List.mapM_cons]
    refine assertFree_bind (h a (List.mem_cons_self a as)) (fun x => ?_)
    refine assertFree_bind (ih (fun b hb => h b (List.mem_cons_of_mem a hb)))
      (fun xs => assertFree_ok _)

theorem assertFree_foldlM {α β : Type} (f : β → α → Except RunError β)
    (l : List α) (h : ∀ b a, a ∈ l → assertFree (f b a)) :
    ∀ b, assertFree (l.foldlM f b) := by
  induction l with
  | nil => intro b; rw [List.foldlM_nil]; exact assertFree_ok b
  | cons a as ih =>
    intro b
    rw [List.foldlM_cons]
    refine assertFree_bind (h b a (List.mem_cons_self a as)) (fun b' => ?_)
    exact ih (fun b2 a2 ha2 => h b2 a2 (List.mem_cons_of_mem a ha2)) b'

theorem assertFree_toGeneral (p : RawPattern) : assertFree p.toGeneral := by
  unfold RawPattern.toGeneral
  repeat' first | trivial | split

theorem assertFree_toPath (p : RawPattern) : assertFree p.toPath := by
  unfold RawPattern.toPath
  refine assertFree_bind (assertFree_toGeneral p) (fun g => ?_)
  repeat' first | trivial | split

theorem assertFree_translateStar (cm : CatalogModel) (p : RawPattern)
    (segments : List PathSegment) (center : TagId) :
    assertFree (translateStar cm p segments center) := by
  unfold translateStar
  cases segments with
  | nil => trivial
  | cons s0 rest =>
    dsimp only
    refine assertFree_ite trivial ?_
    refine assertFree_bind (assertFree_liftOpt _) (fun vs => ?_)
    refine assertFree_bind (assertFree_liftOpt _) (fun es => ?_)
    refine assertFree_bind (assertFree_toGeneral _) (fun star => ?_)
    refine assertFree_bind (assertFree_liftOpt _) (fun cr => ?_)
    exact assertFree_bind (assertFree_liftOpt _) (fun li => assertFree_ok _)

theorem assertFree_translatePath (cm : CatalogModel) (p : RawPattern)
    (segment : PathSegment) : assertFree (translatePath cm p segment) := by
  unfold translatePath
  refine assertFree_ite trivial ?_
  dsimp only
  refine assertFree_bind (assertFree_liftOpt _) (fun vs => ?_)
  refine assertFree_bind (assertFree_liftOpt _) (fun es => ?_)
  refine assertFree_bind ?_ (fun path => ?_)
  · refine assertFree_ite (assertFree_toPath _) ?_
    cases vs.getLast? <;> cases es.getLast? <;> try trivial
    dsimp only
    exact assertFree_bind (assertFree_ite (assertFree_ok _)
      (assertFree_ite (assertFree_ok _) trivial))
      (fun ne => assertFree_toPath _)
  · dsimp only
    refine assertFree_bind (assertFree_liftOpt _) (fun a => ?_)
    refine assertFree_bind (assertFree_liftOpt _) (fun b => ?_)
    refine assertFree_bind (assertFree_liftOpt _) (fun c => ?_)
    refine assertFree_bind (assertFree_liftOpt _) (fun d2 => ?_)
    refine assertFree_bind (assertFree_liftOpt _) (fun e2 => ?_)
    refine assertFree_bind (assertFree_liftOpt _) (fun f2 => ?_)
    exact assertFree_ite (assertFree_ok _) (assertFree_ite (assertFree_ok _)
      trivial)

theorem assertFree_splitSegments (m : Nat) :
    ∀ (fuel : Nat) (s : PathSegment) (acc : List PathSegment),
    assertFree (splitSegments m fuel s acc) := by
  intro fuel
  induction fuel with
  | zero => intro s acc; trivial
  | succ n ih =>
    intro s acc
    unfold splitSegments
    exact assertFree_ite (ih _ _) (assertFree_ite (assertFree_ok _)
      (assertFree_ok _))

theorem assertFree_decomposePath (d : HeuristicDecomposer) (p : RawPattern)
    (path : PathRef) : assertFree (decomposePath d p path) := by
  unfold decomposePath
  refine assertFree_ite trivial ?_
  refine assertFree_bind (assertFree_splitSegments _ _ _ _) (fun segs => ?_)
  refine assertFree_ite trivial ?_
  refine assertFree_mapM _ _ (fun seg _ => ?_)
  refine assertFree_bind (assertFree_liftOpt _) (fun sd => ?_)
  refine assertFree_bind (assertFree_liftOpt _) (fun ed => ?_)
  refine assertFree_bind ?_ (fun ce => assertFree_ok _)
  exact assertFree_ite (assertFree_translatePath _ _ _)
    (assertFree_ite (assertFree_translateStar _ _ _ _)
      (assertFree_ite (assertFree_translateStar _ _ _ _) trivial))

theorem assertFree_starRounds (cm : CatalogModel) (p : RawPattern)
    (pivot : TagId) :
    ∀ (fuel : Nat) (segs : List PathSegment)
      (acc : List (CatalogEdge × List TagId)),
    assertFree (starRounds cm p pivot fuel segs acc) := by
  intro fuel
  induction fuel with
  | zero => intro segs acc; cases segs <;> trivial
  | succ n ih =>
    intro segs acc
    cases segs with
    | nil => trivial
    | cons s ss =>
      unfold starRounds
      exact assertFree_bind (assertFree_translateStar _ _ _ _)
        (fun ce => ih _ _)

theorem assertFree_pivotEdges (d : HeuristicDecomposer) (p : RawPattern)
    (pivot : TagId) (paths : List PathRef) :
    assertFree (pivotEdges d p pivot paths) := by
  unfold pivotEdges
  refine assertFree_bind (assertFree_starRounds _ _ _ _ _ _) (fun se => ?_)
  refine assertFree_bind ?_ (fun pe => assertFree_ok _)
  refine assertFree_foldlM _ _ (fun acc path _ => ?_) _
  exact assertFree_bind (assertFree_decomposePath _ _ _)
    (fun dec => assertFree_ok _)

theorem assertFree_assembleCatalogPattern (p : RawPattern) :
    ∀ (es : List CatalogEdge) (cp : CatalogPattern),
    assertFree (assembleCatalogPattern p es cp) := by
  intro es
  induction es with
  | nil => intro cp; trivial
  | cons e rest ih =>
    intro cp
    unfold assembleCatalogPattern
    cases e.kind with
    | star center =>
      exact assertFree_bind (assertFree_liftOpt _) (fun v => ih _)
    | path src dst =>
      exact assertFree_bind (assertFree_liftOpt _) (fun v1 =>
        assertFree_bind (assertFree_liftOpt _) (fun v2 => ih _))
    | general vs => trivial

theorem assertFree_decomposeCandidatePaths (d : HeuristicDecomposer)
    (p : RawPattern) (cps : List (TagId × List PathRef)) :
    assertFree (decomposeCandidatePaths d p cps) := by
  unfold decomposeCandidatePaths
  refine assertFree_bind ?_ (fun edges => ?_)
  · refine assertFree_foldlM _ _ (fun acc pv _ => ?_) _
    exact assertFree_bind (assertFree_pivotEdges _ _ _ _)
      (fun more => assertFree_ok _)
  · exact assertFree_bind (assertFree_assembleCatalogPattern _ _ _)
      (fun cp => assertFree_ok _)

theorem assertFree_findCandidatePaths (p : RawPattern) :
    assertFree (findCandidatePaths p) := by
  unfold findCandidatePaths
  repeat' first | trivial | split

theorem assertFree_decomposeAcyclic (d : HeuristicDecomposer)
    (p : RawPattern) : assertFree (decomposeAcyclic d p) := by
  unfold decomposeAcyclic
  exact assertFree_bind (assertFree_findCandidatePaths p)
    (fun cps => assertFree_decomposeCandidatePaths d p cps)

theorem assertFree_generateInitialSpanningTree (p : RawPattern) :
    assertFree (generateInitialSpanningTree p) := by
  unfold generateInitialSpanningTree
  cases minByKeyFirst (fun v => (p.degree v.tagId).getD 0) p.vertices with
  | none => trivial
  | some start =>
    dsimp only
    refine assertFree_bind (assertFree_toGeneral _) (fun tree => ?_)
    exact assertFree_ite (assertFree_ok _) trivial

theorem assertFree_ungraphToGeneral (p : RawPattern) (g : UnGraph) :
    assertFree (ungraphToGeneral p g) := by
  unfold ungraphToGeneral
  exact assertFree_bind (assertFree_liftOpt _) (fun vs =>
    assertFree_bind (assertFree_liftOpt _) (fun es =>
      assertFree_toGeneral _))

theorem assertFree_branchStep (p : RawPattern) (t : UnGraph)
    (be : List PatternEdge) (limit : Nat) (st : List GenPattern)
    (bcode : Nat) : assertFree (branchStep p t be limit st bcode) := by
  unfold branchStep
  refine assertFree_ite (assertFree_ok _) ?_
  refine assertFree_ite (assertFree_ok _) ?_
  exact assertFree_bind (assertFree_ungraphToGeneral _ _)
    (fun t2 => assertFree_ok _)

theorem assertFree_chordStep (p : RawPattern) (t : UnGraph)
    (ce be : List PatternEdge) (limit : Nat) (st : List GenPattern)
    (ccode : Nat) : assertFree (chordStep p t ce be limit st ccode) := by
  unfold chordStep
  refine assertFree_ite (assertFree_ok _) ?_
  exact assertFree_foldlM _ _ (fun b a _ => assertFree_branchStep _ _ _ _ _ _)
    st

theorem assertFree_generateSpanningTrees (p : RawPattern) (limit : Nat)
    (h : p.edges.length ≤ 64) :
    assertFree (generateSpanningTrees p limit) := by
  unfold generateSpanningTrees
  by_cases h0 : limit = 0
  · rw [if_pos h0]; trivial
  · rw [if_neg h0, if_neg (by omega : ¬ p.edges.length > 64)]
    cases hg : generateInitialSpanningTree p with
    | error e =>
      dsimp only
      have hfree := assertFree_generateInitialSpanningTree p
      rw [hg] at hfree
      cases e <;> first | exact hfree.elim | trivial
    | ok initial =>
      dsimp only
      refine assertFree_ite (assertFree_ok _) ?_
      exact assertFree_foldlM _ _
        (fun b a _ => assertFree_chordStep _ _ _ _ _ _ _) _

theorem assertFree_pruneVictimLoop (cm : CatalogModel) (p : RawPattern)
    (cps : List (TagId × List PathRef)) :
    ∀ (fuel : Nat) (neighbors : List (TagId × List TagId)),
    assertFree (pruneVictimLoop cm p cps fuel neighbors) := by
  intro fuel
  induction fuel with
  | zero => intro neighbors; trivial
  | succ n ih =>
    intro neighbors
    unfold pruneVictimLoop
    cases neighbors with
    | nil => trivial
    | cons kv rest =>
      cases minByKeyFirst (fun kv => kv.2.length) (kv :: rest) with
      | none => trivial
      | some victim =>
        dsimp only
        refine assertFree_ite ?_ ?_
        · refine assertFree_bind (assertFree_liftOpt _) (fun paths => ?_)
          refine assertFree_bind
            (assertFree_mapM _ _ (fun a _ => assertFree_liftOpt _))
            (fun pruned => ?_)
          exact assertFree_ite (assertFree_ok _) trivial
        · refine assertFree_bind
            (assertFree_foldlM _ _ (fun b a _ => ?_) _) (fun merged => ih _)
          exact assertFree_bind (assertFree_liftOpt _)
            (fun s => assertFree_ok _)

theorem assertFree_pruneLoop (cm : CatalogModel) :
    ∀ (fuel : Nat) (pat : GenPattern),
    assertFree (pruneLoop cm fuel pat) := by
  intro fuel
  induction fuel with
  | zero => intro pat; trivial
  | succ n ih =>
    intro pat
    unfold pruneLoop
    refine assertFree_bind (assertFree_findCandidatePaths _) (fun cps => ?_)
    refine assertFree_bind (assertFree_pruneVictimLoop _ _ _ _ _)
      (fun toPrune => ?_)
    refine assertFree_ite (assertFree_ok _) ?_
    exact assertFree_bind (assertFree_toGeneral _) (fun pat2 => ih _)

theorem assertFree_prune (cm : CatalogModel) (p : RawPattern) :
    assertFree (prune cm p) := by
  unfold prune
  exact assertFree_bind (assertFree_toGeneral _)
    (fun pat => assertFree_pruneLoop cm _ pat)

theorem assertFree_decomposeCyclic (d : HeuristicDecomposer)
    (p : RawPattern) (h : p.edges.length ≤ 64) :
    assertFree (decomposeCyclic d p) := by
  unfold decomposeCyclic
  refine assertFree_bind (assertFree_generateSpanningTrees p d.limit h)
    (fun trees => ?_)
  refine assertFree_bind
    (assertFree_mapM _ _ (fun t _ => assertFree_decomposeAcyclic _ _))
    (fun base => ?_)
  refine assertFree_ite (assertFree_ok _) ?_
  refine assertFree_ite ?_ ?_
  · refine assertFree_bind
      (assertFree_mapM _ _
        (fun v _ => assertFree_decomposeCandidatePaths _ _ _))
      (fun extra => assertFree_ok _)
  · refine assertFree_ite ?_ ?_
    · exact assertFree_bind (assertFree_decomposeAcyclic _ _)
        (fun one => assertFree_ok _)
    · refine assertFree_bind (assertFree_prune _ _) (fun pruned => ?_)
      exact assertFree_bind (assertFree_decomposeAcyclic _ _)
        (fun one => assertFree_ok _)

theorem assertFree_decompose (d : HeuristicDecomposer) (p : RawPattern)
    (h : p.edges.length ≤ 64) : assertFree (d.decompose p) := by
  unfold HeuristicDecomposer.decompose
  cases p.vertices with
  | nil => trivial
  | cons v rest =>
    dsimp only
    refine assertFree_ite ?_ ?_
    · exact assertFree_bind (assertFree_translateStar _ _ _ _)
        (fun edge => assertFree_ok _)
    · exact assertFree_ite
        (assertFree_bind (assertFree_decomposeAcyclic _ _)
          (fun one => assertFree_ok _))
        (assertFree_decomposeCyclic d p h)

/-- C10. (a) Decomposing a cyclic pattern with more than 64 edges and a
nonzero spanning-tree limit fires the `pattern.edges().len() <= 64`
assertion of `generate_spanning_trees` (the `assert64Edges` panic);
(b) under the precondition that the pattern has at most 64 edges the
assertion is unreachable anywhere in decomposition — cyclic
decomposition is only defined for patterns with at most 64 edges. -/
theorem C10_spanning_tree_assert :
    (∀ (d : HeuristicDecomposer) (p : RawPattern),
      p.vertices ≠ [] → p.isCyclic = true → 64 < p.edges.length →
      1 ≤ d.limit → d.decompose p = .error .assert64Edges) ∧
    (∀ (d : HeuristicDecomposer) (p : RawPattern),
      p.edges.length ≤ 64 → d.decompose p ≠ .error .assert64Edges) := by
  constructor
  · intro d p hv hcyc hbig hlim
    unfold HeuristicDecomposer.decompose
    cases hvv : p.vertices with
    | nil => exact absurd hvv hv
    | cons v rest =>
      dsimp only
      have hne : ¬ (rest.isEmpty ∧ p.edges.isEmpty) := by
        rintro ⟨_, h2⟩
        rw [List.isEmpty_iff] at h2
        rw [h2] at hbig
        simp at hbig
      have hcy : ¬ ¬ p.isCyclic = true := by simp [hcyc]
      rw [if_neg hne, if_neg hcy]
      unfold decomposeCyclic
      have hgen : generateSpanningTrees p d.limit = .error .assert64Edges := by
        unfold generateSpanningTrees
        rw [if_neg (by omega : ¬ d.limit = 0),
          if_pos (by omega : p.edges.length > 64)]
      rw [hgen, bind_err_run]
  · intro d p h hcontra
    have hfree := assertFree_decompose d p h
    rw [hcontra] at hfree
    exact hfree

/-! ## Claim C5: edge coverage of decomposition -/

theorem walkLoop_spec (p : RawPattern) (pivots : List TagId) :
    ∀ (fuel : Nat) (visited : List TagId) (nb : TagId) (path : PathRef),
    ∃ news,
      (walkLoop p pivots fuel visited nb path).1.edges =
        path.edges ++ news ∧
      (walkLoop p pivots fuel visited nb path).2 =
        news.reverse ++ visited ∧
      news.Nodup ∧ ∀ e ∈ news, e ∉ visited := by
  intro fuel
  induction fuel with
  | zero => intro visited nb path; exact ⟨[], by simp [walkLoop]⟩
  | succ n ih =>
    intro visited nb path
    unfold walkLoop
    by_cases hpiv : nb ∈ pivots
    · rw [if_pos hpiv]; exact ⟨[], by simp⟩
    · rw [if_neg hpiv]
      cases hfind : ((p.adjacencies nb).getD []).find?
          (fun a => !(visited.contains a.edgeTagId)) with
      | none => exact ⟨[], by simp⟩
      | some adj =>
        have hnotmem : adj.edgeTagId ∉ visited := by
          have := List.find?_some hfind
          simpa using this
        obtain ⟨news, h1, h2, h3, h4⟩ := ih (adj.edgeTagId :: visited)
          adj.neighborTagId (path.push adj.neighborTagId adj.edgeTagId)
        refine ⟨adj.edgeTagId :: news, ?_, ?_, ?_, ?_⟩
        · rw [h1]; simp [PathRef.push]
        · rw [h2]; simp
        · refine List.Pairwise.cons ?_ h3
          intro b hb hbe
          exact (h4 b hb) (by simp [hbe])
        · intro e he
          rcases List.mem_cons.mp he with rfl | he
          · exact hnotmem
          · exact fun hv => (h4 e he) (List.mem_cons_of_mem _ hv)

theorem walkFold_spec (p : RawPattern) (pivots : List TagId)
    (source : TagId) :
    ∀ (adjs : List PatternAdjacency) (acc : List PathRef)
      (visited : List TagId),
    ∃ newPaths,
      (adjs.foldl
        (fun (acc : List PathRef × List TagId) adj =>
          if adj.edgeTagId ∈ acc.2 then acc
          else
            let r := walkLoop p pivots (p.edges.length + 1)
              (adj.edgeTagId :: acc.2) adj.neighborTagId
              ((PathRef.new source).push adj.neighborTagId adj.edgeTagId)
            (acc.1 ++ [r.1], r.2))
        (acc, visited)).1 = acc ++ newPaths ∧
      (adjs.foldl
        (fun (acc : List PathRef × List TagId) adj =>
          if adj.edgeTagId ∈ acc.2 then acc
          else
            let r := walkLoop p pivots (p.edges.length + 1)
              (adj.edgeTagId :: acc.2) adj.neighborTagId
              ((PathRef.new source).push adj.neighborTagId adj.edgeTagId)
            (acc.1 ++ [r.1], r.2))
        (acc, visited)).2 =
        (newPaths.flatMap (·.edges)).reverse ++ visited ∧
      (newPaths.flatMap (·.edges)).Nodup ∧
      ∀ e ∈ newPaths.flatMap (·.edges), e ∉ visited := by
  intro adjs
  induction adjs with
  | nil => intro acc visited; exact ⟨[], by simp⟩
  | cons adj rest ih =>
    intro acc visited
    rw [List.foldl_cons]
    by_cases hmem : adj.edgeTagId ∈ visited
    · rw [if_pos hmem]
      exact ih acc visited
    · rw [if_neg hmem]
      obtain ⟨news1, hw1, hw2, hw3, hw4⟩ := walkLoop_spec p pivots
        (p.edges.length + 1) (adj.edgeTagId :: visited) adj.neighborTagId
        ((PathRef.new source).push adj.neighborTagId adj.edgeTagId)
      set r := walkLoop p pivots (p.edges.length + 1)
        (adj.edgeTagId :: visited) adj.neighborTagId
        ((PathRef.new source).push adj.neighborTagId adj.edgeTagId) with hr
      obtain ⟨newPaths2, h1, h2, h3, h4⟩ := ih (acc ++ [r.1]) r.2
      have hredge : r.1.edges = adj.edgeTagId :: news1 := by
        rw [hw1]; simp [PathRef.push, PathRef.new]
      refine ⟨r.1 :: newPaths2, ?_, ?_, ?_, ?_⟩
      · rw [h1]; simp
      · rw [h2, hw2, List.flatMap_cons, hredge]
        simp [List.reverse_append]
      · rw [List.flatMap_cons, hredge]
        rw [List.nodup_append]
        refine ⟨?_, h3, ?_⟩
        · refine List.Pairwise.cons ?_ hw3
          intro b hb hbe
          exact (hw4 b hb) (by simp [hbe])
        · intro x hx hx2
          have hxin : x ∈ r.2 := by
            rw [hw2, hredge] at *
            rcases List.mem_cons.mp hx with rfl | hx
            · simp
            · simp [hx]
          exact (h4 x hx2) hxin
      · intro e he
        rw [List.flatMap_cons, hredge] at he
        rcases List.mem_append.mp he with he | he
        · rcases List.mem_cons.mp he with rfl | he
          · exact hmem
          · exact fun hv => (hw4 e he) (List.mem_cons_of_mem _ hv)
        · intro hv
          refine (h4 e he) ?_
          rw [hw2]
          exact List.mem_append.mpr (Or.inr (List.mem_cons_of_mem _ hv))

theorem findCandidatePathsFromVertex_spec (p : RawPattern)
    (pivots : List TagId) (source : TagId) (visited : List TagId) :
    (findCandidatePathsFromVertex p visited source pivots).2 =
      (((findCandidatePathsFromVertex p visited source pivots).1).flatMap
        (·.edges)).reverse ++ visited ∧
    (((findCandidatePathsFromVertex p visited source pivots).1).flatMap
      (·.edges)).Nodup ∧
    ∀ e ∈ ((findCandidatePathsFromVertex p visited source pivots).1).flatMap
      (·.edges), e ∉ visited := by
  obtain ⟨paths, h1, h2, h3, h4⟩ := walkFold_spec p pivots source
    ((p.adjacencies source).getD []) [] visited
  have hr1 : (findCandidatePathsFromVertex p visited source pivots).1 =
      paths := by
    simpa [findCandidatePathsFromVertex] using h1
  rw [hr1]
  exact ⟨by simpa [findCandidatePathsFromVertex] using h2, h3, h4⟩

theorem pivotFold_spec (p : RawPattern) (pivots : List TagId) :
    ∀ (pl : List TagId) (acc : List (TagId × List PathRef))
      (visited : List TagId),
    ∃ newEntries,
      (pl.foldl
        (fun (acc : List (TagId × List PathRef) × List TagId) v =>
          let r := findCandidatePathsFromVertex p acc.2 v pivots
          (acc.1 ++ [(v, r.1)], r.2))
        (acc, visited)).1 = acc ++ newEntries ∧
      (pl.foldl
        (fun (acc : List (TagId × List PathRef) × List TagId) v =>
          let r := findCandidatePathsFromVertex p acc.2 v pivots
          (acc.1 ++ [(v, r.1)], r.2))
        (acc, visited)).2 =
        (newEntries.flatMap (fun pv => pv.2.flatMap (·.edges))).reverse ++
          visited ∧
      (newEntries.flatMap (fun pv => pv.2.flatMap (·.edges))).Nodup ∧
      ∀ e ∈ newEntries.flatMap (fun pv => pv.2.flatMap (·.edges)),
        e ∉ visited := by
  intro pl
  induction pl with
  | nil => intro acc visited; exact ⟨[], by simp⟩
  | cons v rest ih =>
    intro acc visited
    rw [List.foldl_cons]
    dsimp only
    obtain ⟨hv2, hv3, hv4⟩ :=
      findCandidatePathsFromVertex_spec p pivots v visited
    set r := findCandidatePathsFromVertex p visited v pivots with hrdef
    obtain ⟨ne2, h1, h2, h3, h4⟩ := ih (acc ++ [(v, r.1)]) r.2
    refine ⟨(v, r.1) :: ne2, ?_, ?_, ?_, ?_⟩
    · rw [h1]; simp
    · rw [h2, hv2, List.flatMap_cons]
      dsimp only
      simp [List.reverse_append]
    · rw [List.flatMap_cons]
      dsimp only
      rw [List.nodup_append]
      refine ⟨hv3, h3, ?_⟩
      intro x hx hx2
      refine (h4 x hx2) ?_
      rw [hv2]
      refine List.mem_append.mpr (Or.inl ?_)
      exact List.mem_reverse.mpr hx
    · intro e he
      rw [List.flatMap_cons] at he
      dsimp only at he
      rcases List.mem_append.mp he with he | he
      · exact hv4 e he
      · intro hvv
        refine (h4 e he) ?_
        rw [hv2]
        exact List.mem_append.mpr (Or.inr hvv)

theorem findCandidatePathsWithPivots_nodup (p : RawPattern)
    (pivots : List TagId) :
    ((findCandidatePathsWithPivots p pivots).flatMap
      (fun pv => pv.2.flatMap (·.edges))).Nodup := by
  obtain ⟨ne, h1, _, h3, _⟩ := pivotFold_spec p pivots pivots [] []
  unfold findCandidatePathsWithPivots
  rw [h1]
  simpa using h3

theorem perm_flatMap {α β : Type} (f : α → List β) {l₁ l₂ : List α}
    (h : l₁.Perm l₂) : (l₁.flatMap f).Perm (l₂.flatMap f) := by
  induction h with
  | nil => simp
  | cons x _ ih =>
    rw [List.flatMap_cons, List.flatMap_cons]
    exact ih.append_left (f x)
  | swap x y l =>
    rw [List.flatMap_cons, List.flatMap_cons, List.flatMap_cons,
      List.flatMap_cons, ← List.append_assoc, ← List.append_assoc]
    exact (List.perm_append_comm).append_right _
  | trans _ _ ih1 ih2 => exact ih1.trans ih2

theorem partitionDedupGo_perm {α : Type} (eqb : α → α → Bool) :
    ∀ (prev : α) (l : List α),
    ((partitionDedupGo eqb prev l).1 ++
      (partitionDedupGo eqb prev l).2).Perm l := by
  intro prev l
  induction l generalizing prev with
  | nil => simp [partitionDedupGo]
  | cons x xs ih =>
    unfold partitionDedupGo
    by_cases h : eqb prev x
    · rw [if_pos h]
      dsimp only
      exact (List.perm_middle).trans ((ih prev).cons x)
    · rw [if_neg h]
      dsimp only
      rw [List.cons_append]
      exact (ih x).cons x

theorem partitionDedup_perm {α : Type} (eqb : α → α → Bool) (l : List α) :
    ((partitionDedup eqb l).1 ++ (partitionDedup eqb l).2).Perm l := by
  cases l with
  | nil => simp [partitionDedup]
  | cons x xs =>
    unfold partitionDedup
    dsimp only
    rw [List.cons_append]
    exact (partitionDedupGo_perm eqb x xs).cons x

theorem starRounds_units (cm : CatalogModel) (p : RawPattern)
    (pivot : TagId) :
    ∀ (fuel : Nat) (segs : List PathSegment)
      (acc res : List (CatalogEdge × List TagId)),
    starRounds cm p pivot fuel segs acc = .ok res →
    (res.flatMap (·.2)).Perm
      (acc.flatMap (·.2) ++ segs.flatMap (·.edges)) := by
  intro fuel
  induction fuel with
  | zero =>
    intro segs acc res h
    cases segs with
    | nil => cases h; simp
    | cons s ss => cases h
  | succ n ih =>
    intro segs acc res h
    cases segs with
    | nil => cases h; simp
    | cons s ss =>
      unfold starRounds at h
      dsimp only at h
      cases ht : translateStar cm p
          (partitionDedup (fun a b => cmpSegment p a b = .eq)
            (sortByCmp (cmpSegment p) (s :: ss))).1 pivot with
      | error e => rw [ht, bind_err_run] at h; cases h
      | ok ce =>
        rw [ht, bind_ok_run] at h
        have hperm := ih _ _ _ h
        refine hperm.trans ?_
        simp only [List.flatMap_append, List.flatMap_cons, List.flatMap_nil,
          List.append_nil, List.append_assoc]
        refine List.Perm.append_left _ ?_
        have hpd := partitionDedupGo_perm
          (fun a b => cmpSegment p a b = .eq)
        have hpd2 := partitionDedup_perm
          (fun a b => cmpSegment p a b = .eq)
          (sortByCmp (cmpSegment p) (s :: ss))
        have hsort := sortByCmp_perm (cmpSegment p) (s :: ss)
        have hflat := perm_flatMap (fun x => x.edges) (hpd2.trans hsort)
        rw [List.flatMap_append] at hflat
        exact hflat

theorem splitSegments_units (m : Nat) :
    ∀ (fuel : Nat) (s : PathSegment) (acc segs : List PathSegment),
    splitSegments m fuel s acc = .ok segs →
    segs.flatMap (·.edges) = acc.flatMap (·.edges) ++ s.edges := by
  intro fuel
  induction fuel with
  | zero => intro s acc segs h; cases h
  | succ n ih =>
    intro s acc segs h
    unfold splitSegments at h
    by_cases h1 : s.len > m
    · rw [if_pos h1] at h
      have := ih _ _ _ h
      rw [this]
      simp only [List.flatMap_append, List.flatMap_cons, List.flatMap_nil,
        List.append_nil, List.append_assoc]
      have : (s.splitAt m).1.edges ++ (s.splitAt m).2.edges = s.edges := by
        simp [PathSegment.splitAt, segmentSplitAt]
      rw [this]
    · rw [if_neg h1] at h
      by_cases h2 : s.len > 0
      · rw [if_pos h2] at h
        cases h
        simp
      · rw [if_neg h2] at h
        cases h
        have : s.edges = [] := by
          have : s.edges.length = 0 := by
            unfold PathSegment.len at h2; omega
          exact List.length_eq_zero.mp this
        rw [this]
        simp

theorem flatMap_congr_map {α β γ : Type} (f : α → List γ) (g : β → List γ)
    (l₁ : List α) (l₂ : List β) (h : l₁.map f = l₂.map g) :
    l₁.flatMap f = l₂.flatMap g := by
  induction l₁ generalizing l₂ with
  | nil =>
    cases l₂ with
    | nil => rfl
    | cons b bs => simp at h
  | cons a as ih =>
    cases l₂ with
    | nil => simp at h
    | cons b bs =>
      simp only [List.map_cons, List.cons.injEq] at h
      rw [List.flatMap_cons, List.flatMap_cons, h.1, ih bs h.2]

theorem mapM_map_rel {α β γ : Type} (f : α → Except RunError β)
    (g : β → γ) (k : α → γ)
    (hfg : ∀ a x, f a = .ok x → g x = k a) :
    ∀ (l : List α) (r : List β), l.mapM f = .ok r → r.map g = l.map k := by
  intro l
  induction l with
  | nil => intro r h; rw [List.mapM_nil] at h; cases h; rfl
  | cons a as ih =>
    intro r h
    rw [List.mapM_cons] at h
    cases hf : f a with
    | error e => rw [hf, bind_err_run] at h; cases h
    | ok x =>
      rw [hf, bind_ok_run] at h
      cases hrest : as.mapM f with
      | error e => rw [hrest, bind_err_run] at h; cases h
      | ok rs =>
        rw [hrest, bind_ok_run, pure_run] at h
        cases h
        simp only [List.map_cons]
        rw [hfg a x hf, ih rs hrest]

theorem decomposePath_units (d : HeuristicDecomposer) (p : RawPattern)
    (path : PathRef) (l : List (CatalogEdge × List TagId))
    (h : decomposePath d p path = .ok l) :
    l.flatMap (·.2) = path.edges := by
  unfold decomposePath at h
  by_cases he : path.edges.isEmpty
  · rw [if_pos he] at h; cases h
  · rw [if_neg he] at h
    cases hs : splitSegments d.maxPathLength (path.len + 1) path.toSegment []
      with
    | error e => rw [hs, bind_err_run] at h; cases h
    | ok segs =>
      rw [hs, bind_ok_run] at h
      by_cases hse : segs.isEmpty
      · rw [if_pos hse] at h; cases h
      · rw [if_neg hse] at h
        have hmap : l.map (·.2) = segs.map (·.edges) := by
          refine mapM_map_rel _ (·.2) (·.edges) ?_ segs l h
          intro s0 x hr
          cases hd1 : liftOpt (p.degree s0.startTag) with
          | error e => rw [hd1, bind_err_run] at hr; cases hr
          | ok sd =>
            rw [hd1, bind_ok_run] at hr
            cases hd2 : liftOpt (p.degree s0.endTag) with
            | error e => rw [hd2, bind_err_run] at hr; cases hr
            | ok ed =>
              rw [hd2, bind_ok_run] at hr
              cases hce : (if d.disableStar || (sd > 1 && ed > 1) then
                  translatePath d.catalog p s0
                else if sd = 1 then
                  translateStar d.catalog p [s0] s0.endTag
                else if ed = 1 then
                  translateStar d.catalog p [s0] s0.startTag
                else (.error .panicOther : Except RunError CatalogEdge))
                with
              | error e => rw [hce, bind_err_run] at hr; cases hr
              | ok ce =>
                rw [hce, bind_ok_run] at hr
                cases hr
                rfl
        have hfm : l.flatMap (·.2) = segs.flatMap (·.edges) :=
          flatMap_congr_map (·.2) (·.edges) l segs hmap
        rw [hfm]
        have := splitSegments_units d.maxPathLength (path.len + 1)
          path.toSegment [] segs hs
        rw [this]
        simp [PathRef.toSegment]

theorem bind_ok_inv {α β : Type} {x : Except RunError α}
    {f : α → Except RunError β} {r : β} (h : (x >>= f) = .ok r) :
    ∃ a, x = .ok a ∧ f a = .ok r := by
  cases x with
  | ok a => exact ⟨a, rfl, h⟩
  | error e => rw [bind_err_run] at h; cases h

theorem pathFold_units (d : HeuristicDecomposer) (p : RawPattern) :
    ∀ (ps : List PathRef) (acc r : List (CatalogEdge × List TagId)),
    ps.foldlM (fun acc path => do
      let decomposed ← decomposePath d p path
      .ok (acc ++ decomposed)) acc = .ok r →
    r.flatMap (·.2) = acc.flatMap (·.2) ++ ps.flatMap (·.edges) := by
  intro ps
  induction ps with
  | nil => intro acc r h; rw [List.foldlM_nil] at h; cases h; simp
  | cons path rest ih =>
    intro acc r h
    rw [List.foldlM_cons] at h
    cases hd : decomposePath d p path with
    | error e => rw [hd, bind_err_run, bind_err_run] at h; cases h
    | ok dec =>
      rw [hd, bind_ok_run, bind_ok_run] at h
      have hr := ih (acc ++ dec) r h
      rw [hr, List.flatMap_append, decomposePath_units d p path dec hd,
        List.flatMap_cons, List.append_assoc]

theorem pivotEdges_units (d : HeuristicDecomposer) (p : RawPattern)
    (pivot : TagId) (paths : List PathRef)
    (l : List (CatalogEdge × List TagId))
    (h : pivotEdges d p pivot paths = .ok l) :
    (l.flatMap (·.2)).Perm (paths.flatMap (·.edges)) := by
  unfold pivotEdges at h
  obtain ⟨se, hs, h⟩ := bind_ok_inv h
  obtain ⟨pe, hp, h⟩ := bind_ok_inv h
  cases h
  have hse := starRounds_units d.catalog p pivot _ _ _ _ hs
  have hpe := pathFold_units d p _ _ _ hp
  rw [List.flatMap_append]
  set parts := paths.partition (fun path =>
    decide (((p.degree path.endTag).getD 0 = 1) ∧
      path.len ≤ d.maxStarLength)) with hparts
  have hto : ((parts.1.take d.maxStarDegree).map
      PathRef.toSegment).flatMap (·.edges) =
      (parts.1.take d.maxStarDegree).flatMap (·.edges) := by
    rw [List.flatMap_map]
    rfl
  rw [hto] at hse
  simp only [List.flatMap_nil, List.nil_append] at hse hpe
  have hsplit : ((parts.1.take d.maxStarDegree).flatMap (·.edges)) ++
      ((if parts.1.length > d.maxStarDegree then
        parts.1.drop d.maxStarDegree else []) ++ parts.2).flatMap
        (·.edges) =
      parts.1.flatMap (·.edges) ++ parts.2.flatMap (·.edges) := by
    by_cases hlen : parts.1.length > d.maxStarDegree
    · rw [if_pos hlen]
      rw [List.flatMap_append, ← List.append_assoc,
        ← List.flatMap_append, List.take_append_drop]
    · rw [if_neg hlen, List.nil_append,
        List.take_of_length_le (by omega)]
  have hperm : (se.flatMap (·.2) ++ pe.flatMap (·.2)).Perm
      (parts.1.flatMap (·.edges) ++ parts.2.flatMap (·.edges)) := by
    rw [hpe, ← hsplit]
    exact hse.append_right _
  refine hperm.trans ?_
  rw [← List.flatMap_append]
  refine perm_flatMap (fun pr : PathRef => pr.edges) ?_
  rw [hparts, List.partition_eq_filter_filter]
  exact List.filter_append_perm _ paths

theorem cpsFold_units (d : HeuristicDecomposer) (p : RawPattern) :
    ∀ (cps : List (TagId × List PathRef))
      (acc r : List (CatalogEdge × List TagId)),
    cps.foldlM (fun acc pv => do
      let more ← pivotEdges d p pv.1 pv.2
      .ok (acc ++ more)) acc = .ok r →
    (r.flatMap (·.2)).Perm (acc.flatMap (·.2) ++
      cps.flatMap (fun pv => pv.2.flatMap (·.edges))) := by
  intro cps
  induction cps with
  | nil => intro acc r h; rw [List.foldlM_nil] at h; cases h; simp
  | cons pv rest ih =>
    intro acc r h
    rw [List.foldlM_cons] at h
    cases hm : pivotEdges d p pv.1 pv.2 with
    | error e => rw [hm, bind_err_run, bind_err_run] at h; cases h
    | ok more =>
      rw [hm, bind_ok_run, bind_ok_run] at h
      have hr := ih (acc ++ more) r h
      have hmore := pivotEdges_units d p pv.1 pv.2 more hm
      refine hr.trans ?_
      rw [List.flatMap_append, List.flatMap_cons, List.append_assoc]
      exact List.Perm.append_left _ (hmore.append_right _)

theorem decomposeCandidatePaths_units (d : HeuristicDecomposer)
    (p : RawPattern) (cps : List (TagId × List PathRef))
    (cp : CatalogPattern) (units : List (List TagId))
    (h : decomposeCandidatePaths d p cps = .ok (cp, units)) :
    (units.flatMap id).Perm
      (cps.flatMap (fun pv => pv.2.flatMap (·.edges))) := by
  unfold decomposeCandidatePaths at h
  obtain ⟨edges, he, h⟩ := bind_ok_inv h
  obtain ⟨cp2, hc, h⟩ := bind_ok_inv h
  cases h
  have hfold := cpsFold_units d p cps [] edges he
  simp only [List.flatMap_nil, List.nil_append] at hfold
  refine List.Perm.trans ?_ hfold
  rw [List.flatMap_map]
  rfl

theorem findCandidatePaths_shape (p : RawPattern)
    (cps : List (TagId × List PathRef))
    (h : findCandidatePaths p = .ok cps) :
    ∃ pivots, cps = findCandidatePathsWithPivots p pivots := by
  unfold findCandidatePaths at h
  split at h
  · split at h
    · cases h; exact ⟨_, rfl⟩
    · cases h
  · split at h
    · split at h
      · cases h; exact ⟨_, rfl⟩
      · cases h
    · cases h; exact ⟨_, rfl⟩

theorem decomposeAcyclic_nodup (d : HeuristicDecomposer) (p : RawPattern)
    (cu : CatalogPattern × List (List TagId))
    (h : decomposeAcyclic d p = .ok cu) : ((cu.2).flatMap id).Nodup := by
  unfold decomposeAcyclic at h
  obtain ⟨cps, hf, h⟩ := bind_ok_inv h
  obtain ⟨pivots, rfl⟩ := findCandidatePaths_shape p cps hf
  obtain ⟨cp, units⟩ := cu
  have hperm := decomposeCandidatePaths_units d p _ cp units h
  exact (hperm.nodup_iff).mpr (findCandidatePathsWithPivots_nodup p pivots)

theorem mapM_mem {α β : Type} (f : α → Except RunError β) :
    ∀ (l : List α) (r : List β), l.mapM f = .ok r →
    ∀ y ∈ r, ∃ x ∈ l, f x = .ok y := by
  intro l
  induction l with
  | nil =>
    intro r h y hy
    rw [List.mapM_nil] at h
    cases h
    simp at hy
  | cons a as ih =>
    intro r h y hy
    rw [List.mapM_cons] at h
    obtain ⟨x, hx, h⟩ := bind_ok_inv h
    obtain ⟨xs, hxs, h⟩ := bind_ok_inv h
    rw [pure_run] at h
    cases h
    rcases List.mem_cons.mp hy with rfl | hy
    · exact ⟨a, List.mem_cons_self a as, hx⟩
    · obtain ⟨x2, hx2, hfx2⟩ := ih xs hxs y hy
      exact ⟨x2, List.mem_cons_of_mem a hx2, hfx2⟩

theorem decomposeCyclic_nodup (d : HeuristicDecomposer) (p : RawPattern)
    (res : List (CatalogPattern × List (List TagId)))
    (h : decomposeCyclic d p = .ok res) :
    ∀ cu ∈ res, ((cu.2).flatMap id).Nodup := by
  unfold decomposeCyclic at h
  obtain ⟨trees, ht, h⟩ := bind_ok_inv h
  obtain ⟨base, hb, h⟩ := bind_ok_inv h
  have hbase : ∀ cu ∈ base, ((cu.2).flatMap id).Nodup := by
    intro cu hcu
    obtain ⟨t, _, hta⟩ := mapM_mem _ trees base hb cu hcu
    exact decomposeAcyclic_nodup d t.raw cu hta
  intro cu hcu
  by_cases hdc : d.disableCyclic = true
  · rw [if_pos hdc] at h
    cases h
    exact hbase cu hcu
  · rw [if_neg hdc] at h
    by_cases hcy : p.isCycle = true
    · rw [if_pos hcy] at h
      obtain ⟨extra, hx, h⟩ := bind_ok_inv h
      cases h
      rcases List.mem_append.mp hcu with hcu | hcu
      · exact hbase cu hcu
      · obtain ⟨v, _, hva⟩ := mapM_mem _ p.vertices extra hx cu hcu
        obtain ⟨cp, units⟩ := cu
        have hperm := decomposeCandidatePaths_units d p _ cp units hva
        exact (hperm.nodup_iff).mpr
          (findCandidatePathsWithPivots_nodup p _)
    · rw [if_neg hcy] at h
      by_cases hdp : d.disablePrune = true
      · rw [if_pos hdp] at h
        obtain ⟨one, ha, h⟩ := bind_ok_inv h
        cases h
        rcases List.mem_append.mp hcu with hcu | hcu
        · exact hbase cu hcu
        · rcases List.mem_singleton.mp hcu with rfl
          exact decomposeAcyclic_nodup d p _ ha
      · rw [if_neg hdp] at h
        obtain ⟨pruned, hpr, h⟩ := bind_ok_inv h
        obtain ⟨one, ha, h⟩ := bind_ok_inv h
        cases h
        rcases List.mem_append.mp hcu with hcu | hcu
        · exact hbase cu hcu
        · rcases List.mem_singleton.mp hcu with rfl
          exact decomposeAcyclic_nodup d pruned.raw _ ha

/-- C5 (amended). Every hyperedge list produced by the decomposer covers
each query edge at most once: for every catalog pattern in the
decomposition, the query-edge tags its hyperedges reference are pairwise
distinct (the edge-visited set is shared across all pivot walks, star
merging and path splitting repartition walks without duplication). Full
coverage fails — see the counterexample. -/
theorem C5_edge_coverage (d : HeuristicDecomposer) (p : RawPattern)
    (res : List (CatalogPattern × List (List TagId)))
    (h : d.decompose p = .ok res) :
    ∀ cu ∈ res, ((cu.2).flatMap id).Nodup := by
  intro cu hcu
  unfold HeuristicDecomposer.decompose at h
  cases hv : p.vertices with
  | nil => rw [hv] at h; cases h
  | cons v rest =>
    rw [hv] at h
    dsimp only at h
    by_cases hone : rest.isEmpty ∧ p.edges.isEmpty
    · rw [if_pos hone] at h
      obtain ⟨edge, he, h⟩ := bind_ok_inv h
      cases h
      rcases List.mem_singleton.mp hcu with rfl
      simp
    · rw [if_neg hone] at h
      by_cases hcyc : ¬ p.isCyclic = true
      · rw [if_pos hcyc] at h
        obtain ⟨one, ha, h⟩ := bind_ok_inv h
        cases h
        rcases List.mem_singleton.mp hcu with rfl
        exact decomposeAcyclic_nodup d p _ ha
      · rw [if_neg hcyc] at h
        exact decomposeCyclic_nodup d p res h cu hcu

/-! ## Fixtures for the decomposer claims -/

/-- A directed triangle: three vertices of label 0 in a 3-cycle. -/
def triW : RawPattern :=
  ⟨[⟨0, 0⟩, ⟨1, 0⟩, ⟨2, 0⟩], [⟨0, 0, 1, 0⟩, ⟨1, 1, 2, 0⟩, ⟨2, 2, 0, 0⟩]⟩

/-- The 2-edge path the triangle's spanning tree decomposes into. -/
def triPathRaw : RawPattern :=
  ⟨[⟨1, 0⟩, ⟨0, 0⟩, ⟨2, 0⟩], [⟨0, 0, 1, 0⟩, ⟨2, 2, 0, 0⟩]⟩

/-- A mock catalog holding that path under label 7 (stars under 9). -/
def triCatalog : CatalogModel :=
  ⟨fun _ => some 7, fun _ => triPathRaw.toPath.toOption,
   fun _ _ => some 9, fun _ => none, fun _ => some 1⟩

/-- A join engine stub. -/
def jW : CatalogPattern → Nat → Except RunError (Rat × Nat) :=
  fun _ n => .ok (0, n)

/-- Decomposer with `limit = 0`, stars, pruning and cyclic handling
disabled. -/
def d7W : HeuristicDecomposer :=
  HeuristicDecomposer.new triCatalog 2 0 0 0 true true true

/-- Concrete instantiation of `C7_cyclic_estimate_error` at the
triangle. -/
theorem C7_cyclic_estimate_error_witness :
    triW.isCyclic = true ∧ d7W.disableCyclic = true ∧ d7W.limit = 0 ∧
    ∃ e, CardinalityEstimator.estimate d7W jW 0 triW = .error e :=
  ⟨by decide, rfl, rfl,
    C7_cyclic_estimate_error d7W jW 0 triW (by decide) rfl rfl⟩

/-- A single vertex of label 0. -/
def p1W : RawPattern := ⟨[⟨0, 0⟩], []⟩

/-- A mock catalog resolving every star code to label 3. -/
def c1W : CatalogModel :=
  ⟨fun _ => none, fun _ => none, fun _ _ => some 3, fun _ => none,
   fun _ => none⟩

/-- Decomposer over `c1W` with `limit = 1`. -/
def d1W : HeuristicDecomposer :=
  HeuristicDecomposer.new c1W 2 2 2 1 false false false

/-- A join engine stub returning estimate 3 and consuming one table id. -/
def j1W : CatalogPattern → Nat → Except RunError (Rat × Nat) :=
  fun _ n => .ok (3, n + 1)

/-- The catalog pattern `d1W` decomposes the single vertex into. -/
def cpC1W : CatalogPattern :=
  (CatalogPattern.new.addVertex ⟨0, 0⟩).addEdge (CatalogEdge.mkStar 0 3 0)

/-- Concrete instantiation of `C1_estimate_min` at the single-vertex
pattern. -/
theorem C1_estimate_min_witness :
    (∃ pats cards idg, d1W.decompose p1W = .ok pats ∧ pats ≠ [] ∧
      joinCards j1W (pats.map (·.1)) 5 = .ok (cards, idg) ∧
      cards.length = pats.length ∧ (3 : Rat) ∈ cards ∧
      ∀ c ∈ cards, (3 : Rat) ≤ c) ∧
    p1W.isCyclic = false ∧
    ([(cpC1W, ([[]] : List (List TagId)))].length = 1) :=
  ⟨C1_estimate_min.1 d1W j1W 5 p1W 3 rfl, by decide,
    C1_estimate_min.2 d1W p1W [(cpC1W, [[]])] (by decide) rfl⟩

/-- Decomposer for the C5 counterexample: `limit = 1`, stars, pruning
and cyclic handling disabled, `max_path_length = 2`. -/
def d5W : HeuristicDecomposer :=
  HeuristicDecomposer.new triCatalog 2 0 0 1 true true true

/-- The single catalog pattern `d5W` produces for the triangle: one
path hyperedge over the spanning tree `1 – 0 – 2`, covering query edges
0 and 2 only. -/
def cpTriW : CatalogPattern :=
  ((CatalogPattern.new.addVertex ⟨1, 0⟩).addVertex ⟨2, 0⟩).addEdge
    (CatalogEdge.mkPath 0 7 1 2)

/-- C5 counterexample: the connected triangle decomposes (limit 1,
cyclic handling disabled) into one catalog pattern whose hyperedges
reference only query edges 0 and 2 — query edge 1 is left uncovered, so
"every query edge is referenced in exactly one hyperedge" fails. -/
theorem C5_counterexample :
    triW.isConnected = true ∧
    d5W.decompose triW = .ok [(cpTriW, [[0, 2]])] ∧
    1 ∈ triW.edges.map (·.tagId) ∧
    ∀ cu ∈ [(cpTriW, [[0, 2]])],
      (1 : TagId) ∉ (cu.2.flatMap id : List TagId) :=
  ⟨by decide, by rfl, by decide, by decide⟩

/-- Concrete instantiation of `C5_edge_coverage` at the triangle
decomposition. -/
theorem C5_edge_coverage_witness :
    ((([[0, 2]] : List (List TagId))).flatMap id).Nodup :=
  C5_edge_coverage d5W triW [(cpTriW, [[0, 2]])] rfl
    (cpTriW, [[0, 2]]) (List.mem_singleton.mpr rfl)

/-- A 2-vertex pattern with 65 parallel edges (cyclic, over the 64-edge
bound). -/
def bigPW : RawPattern :=
  ⟨[⟨0, 0⟩, ⟨1, 0⟩], (List.range 65).map (fun i => ⟨i, 0, 1, 0⟩)⟩

/-- Decomposer over `triCatalog` with `limit = 1`. -/
def d10W : HeuristicDecomposer :=
  HeuristicDecomposer.new triCatalog 2 0 0 1 true true true

/-- Concrete instantiation of `C10_spanning_tree_assert`: the assertion
fires on the 65-edge pattern and cannot fire on the triangle. -/
theorem C10_spanning_tree_assert_witness :
    bigPW.vertices ≠ [] ∧ bigPW.isCyclic = true ∧
    64 < bigPW.edges.length ∧ 1 ≤ d10W.limit ∧
    d10W.decompose bigPW = .error .assert64Edges ∧
    triW.edges.length ≤ 64 ∧
    d10W.decompose triW ≠ .error .assert64Edges :=
  ⟨by decide, by decide, by decide, by decide,
    C10_spanning_tree_assert.1 d10W bigPW (by decide) (by decide)
      (by decide) (by decide),
    by decide,
    C10_spanning_tree_assert.2 d10W triW (by decide)⟩

/-! ## Claim C3: canonical codes, relabelings and isomorphism -/

/-- In-place tag relabeling: `f` renames vertex tags (also at edge
endpoints), `g` renames edge tags; declaration order is unchanged. -/
def RawPattern.relabel (f g : TagId → TagId) (p : RawPattern) :
    RawPattern :=
  ⟨p.vertices.map (fun v => ⟨f v.tagId, v.labelId⟩),
   p.edges.map (fun e => ⟨g e.tagId, f e.src, f e.dst, e.labelId⟩)⟩

/-- `fv`/`fe` witness an isomorphism of labeled directed multigraphs
from `p` onto `q`: they are injective on the tags of `p` and the
relabeled vertex and edge lists are permutations of `q`'s. -/
def IsIso (p q : RawPattern) (fv fe : TagId → TagId) : Prop :=
  (p.vertices.map (fun v => fv v.tagId)).Nodup ∧
  (p.edges.map (fun e => fe e.tagId)).Nodup ∧
  List.Perm (p.vertices.map
    (fun v => PatternVertex.mk (fv v.tagId) v.labelId)) q.vertices ∧
  List.Perm (p.edges.map
    (fun e => PatternEdge.mk (fe e.tagId) (fv e.src) (fv e.dst)
      e.labelId)) q.edges

/-- Isomorphism of labeled directed multigraphs. -/
def Isomorphic (p q : RawPattern) : Prop := ∃ fv fe, IsIso p q fv fe

/-- Vertex renaming. -/
def relabelVertex (f : TagId → TagId) (v : PatternVertex) : PatternVertex :=
  ⟨f v.tagId, v.labelId⟩

/-- Edge renaming. -/
def relabelEdge (f g : TagId → TagId) (e : PatternEdge) : PatternEdge :=
  ⟨g e.tagId, f e.src, f e.dst, e.labelId⟩

/-- Adjacency renaming. -/
def relabelAdj (f g : TagId → TagId) (a : PatternAdjacency) :
    PatternAdjacency :=
  ⟨g a.edgeTagId, a.edgeLabelId, f a.neighborTagId, a.direction⟩

/-- Key renaming of an association-list entry. -/
def relabelPair {α : Type} (f : TagId → TagId) (kv : TagId × α) :
    TagId × α := (f kv.1, kv.2)

theorem relabel_vertices (f g : TagId → TagId) (p : RawPattern) :
    (p.relabel f g).vertices = p.vertices.map (relabelVertex f) := rfl

theorem relabel_edges (f g : TagId → TagId) (p : RawPattern) :
    (p.relabel f g).edges = p.edges.map (relabelEdge f g) := rfl

theorem getVertex_relabel (f g : TagId → TagId)
    (hf : Function.Injective f) (p : RawPattern) (t : TagId) :
    (p.relabel f g).getVertex (f t) =
      (p.getVertex t).map (relabelVertex f) := by
  unfold RawPattern.getVertex
  rw [relabel_vertices, List.find?_map]
  have hfn : ((fun v : PatternVertex => decide (v.tagId = f t)) ∘
      relabelVertex f) = fun v : PatternVertex => decide (v.tagId = t) := by
    funext v
    simp [relabelVertex, Function.comp, hf.eq_iff]
  rw [hfn]

theorem getEdge_relabel (f g : TagId → TagId)
    (hg : Function.Injective g) (p : RawPattern) (t : TagId) :
    (p.relabel f g).getEdge (g t) =
      (p.getEdge t).map (relabelEdge f g) := by
  unfold RawPattern.getEdge
  rw [relabel_edges, List.find?_map]
  have hfn : ((fun e : PatternEdge => decide (e.tagId = g t)) ∘
      relabelEdge f g) = fun e : PatternEdge => decide (e.tagId = t) := by
    funext e
    simp [relabelEdge, Function.comp, hg.eq_iff]
  rw [hfn]

theorem getVertexLabel_relabel (f g : TagId → TagId)
    (hf : Function.Injective f) (p : RawPattern) (t : TagId) :
    (((p.relabel f g).getVertex (f t)).map (·.labelId)).getD 0 =
      ((p.getVertex t).map (·.labelId)).getD 0 := by
  rw [getVertex_relabel f g hf]
  cases p.getVertex t <;> rfl

theorem vertexTags_relabel (f g : TagId → TagId) (p : RawPattern) :
    (p.relabel f g).vertexTags = p.vertexTags.map f := by
  unfold RawPattern.vertexTags
  rw [relabel_vertices, List.map_map, List.map_map]
  rfl

theorem outgoingAdjacencies_relabel (f g : TagId → TagId)
    (hf : Function.Injective f) (p : RawPattern) (t : TagId) :
    (p.relabel f g).outgoingAdjacencies (f t) =
      (p.outgoingAdjacencies t).map (List.map (relabelAdj f g)) := by
  unfold RawPattern.outgoingAdjacencies
  rw [vertexTags_relabel, relabel_edges]
  by_cases hmem : t ∈ p.vertexTags
  · rw [if_pos hmem, if_pos (List.mem_map_of_mem f hmem)]
    rw [Option.map_some', List.filterMap_map, List.map_filterMap]
    refine congrArg (fun h => some (List.filterMap h p.edges)) ?_
    funext e
    by_cases hsrc : e.src = t
    · simp [relabelEdge, Function.comp, hsrc, relabelAdj]
    · simp [relabelEdge, Function.comp, hf.eq_iff, hsrc]
  · rw [if_neg hmem, if_neg ?_]
    · rfl
    · intro hc
      obtain ⟨t2, ht2, he⟩ := List.mem_map.mp hc
      exact hmem (hf he ▸ ht2)

theorem incomingAdjacencies_relabel (f g : TagId → TagId)
    (hf : Function.Injective f) (p : RawPattern) (t : TagId) :
    (p.relabel f g).incomingAdjacencies (f t) =
      (p.incomingAdjacencies t).map (List.map (relabelAdj f g)) := by
  unfold RawPattern.incomingAdjacencies
  rw [vertexTags_relabel, relabel_edges]
  by_cases hmem : t ∈ p.vertexTags
  · rw [if_pos hmem, if_pos (List.mem_map_of_mem f hmem)]
    rw [Option.map_some', List.filterMap_map, List.map_filterMap]
    refine congrArg (fun h => some (List.filterMap h p.edges)) ?_
    funext e
    by_cases hdst : e.dst = t
    · simp [relabelEdge, Function.comp, hdst, relabelAdj]
    · simp [relabelEdge, Function.comp, hf.eq_iff, hdst]
  · rw [if_neg hmem, if_neg ?_]
    · rfl
    · intro hc
      obtain ⟨t2, ht2, he⟩ := List.mem_map.mp hc
      exact hmem (hf he ▸ ht2)

theorem adjacencies_relabel (f g : TagId → TagId)
    (hf : Function.Injective f) (p : RawPattern) (t : TagId) :
    (p.relabel f g).adjacencies (f t) =
      (p.adjacencies t).map (List.map (relabelAdj f g)) := by
  unfold RawPattern.adjacencies
  rw [outgoingAdjacencies_relabel f g hf, incomingAdjacencies_relabel f g hf]
  cases p.outgoingAdjacencies t <;> cases p.incomingAdjacencies t <;>
    simp

theorem outDegree_relabel (f g : TagId → TagId)
    (hf : Function.Injective f) (p : RawPattern) (t : TagId) :
    (p.relabel f g).outDegree (f t) = p.outDegree t := by
  unfold RawPattern.outDegree
  rw [outgoingAdjacencies_relabel f g hf]
  cases p.outgoingAdjacencies t <;> simp

theorem inDegree_relabel (f g : TagId → TagId)
    (hf : Function.Injective f) (p : RawPattern) (t : TagId) :
    (p.relabel f g).inDegree (f t) = p.inDegree t := by
  unfold RawPattern.inDegree
  rw [incomingAdjacencies_relabel f g hf]
  cases p.incomingAdjacencies t <;> simp

theorem minVertexLabelId_relabel (f g : TagId → TagId) (p : RawPattern) :
    (p.relabel f g).minVertexLabelId = p.minVertexLabelId := by
  unfold RawPattern.minVertexLabelId
  rw [relabel_vertices, List.map_map]
  rfl

theorem assocGet_relabel {α : Type} (f : TagId → TagId)
    (hf : Function.Injective f) (l : List (TagId × α)) (k : TagId) :
    assocGet (l.map (relabelPair f)) (f k) = assocGet l k := by
  unfold assocGet
  rw [List.find?_map]
  have : (fun kv : TagId × α => decide (kv.1 = f k)) ∘ relabelPair f =
      fun kv : TagId × α => decide (kv.1 = k) := by
    funext kv
    simp [relabelPair, hf.eq_iff]
  rw [this]
  cases l.find? (fun kv : TagId × α => decide (kv.1 = k)) <;> rfl

theorem assocSet_relabel {α : Type} (f : TagId → TagId)
    (hf : Function.Injective f) (l : List (TagId × α)) (k : TagId)
    (v : α) :
    assocSet (l.map (relabelPair f)) (f k) v =
      (assocSet l k v).map (relabelPair f) := by
  unfold assocSet
  have hany : (l.map (relabelPair f)).any (fun kv => kv.1 = f k) =
      l.any (fun kv => kv.1 = k) := by
    rw [List.any_map]
    congr 1
    funext kv
    simp [relabelPair, hf.eq_iff]
  rw [hany]
  by_cases h : l.any (fun kv => kv.1 = k)
  · rw [if_pos h, if_pos h, List.map_map, List.map_map]
    congr 1
    funext kv
    by_cases hk : kv.1 = k
    · simp [relabelPair, Function.comp, hk]
    · simp [relabelPair, Function.comp, hf.eq_iff, hk]
  · rw [if_neg h, if_neg h, List.map_append]
    rfl

/-- Renaming of a canonicalizer state. -/
def CanonState.relabel (f g : TagId → TagId) (st : CanonState) :
    CanonState :=
  ⟨st.adjMap.map (fun kv => (f kv.1, kv.2.map (relabelAdj f g))),
   st.groupMap.map (relabelPair f),
   st.groups.map (fun kv => (kv.1, kv.2.map f)),
   st.vRank.map (relabelPair f),
   st.eRank.map (relabelPair g),
   st.converged⟩

theorem insertByCmp_map {α β : Type} (r : α → β) (cmpa : α → α → Ordering)
    (cmpb : β → β → Ordering) (hc : ∀ a b, cmpb (r a) (r b) = cmpa a b)
    (x : α) (l : List α) :
    insertByCmp cmpb (r x) (l.map r) = (insertByCmp cmpa x l).map r := by
  induction l with
  | nil => rfl
  | cons y ys ih =>
    rw [List.map_cons]
    unfold insertByCmp
    rw [hc]
    by_cases h : cmpa x y = .lt
    · rw [if_pos h, if_pos h]; rfl
    · rw [if_neg h, if_neg h, List.map_cons, ih]

theorem sortByCmp_map {α β : Type} (r : α → β) (cmpa : α → α → Ordering)
    (cmpb : β → β → Ordering) (hc : ∀ a b, cmpb (r a) (r b) = cmpa a b)
    (l : List α) :
    sortByCmp cmpb (l.map r) = (sortByCmp cmpa l).map r := by
  induction l with
  | nil => rfl
  | cons x xs ih =>
    rw [List.map_cons]
    unfold sortByCmp
    rw [ih, insertByCmp_map r cmpa cmpb hc]

theorem cmpList_map {α β : Type} (r : α → β) (cmpa : α → α → Ordering)
    (cmpb : β → β → Ordering) (hc : ∀ a b, cmpb (r a) (r b) = cmpa a b) :
    ∀ (l1 l2 : List α),
    cmpList cmpb (l1.map r) (l2.map r) = cmpList cmpa l1 l2 := by
  intro l1
  induction l1 with
  | nil => intro l2; cases l2 <;> rfl
  | cons a as ih =>
    intro l2
    cases l2 with
    | nil => rfl
    | cons b bs =>
      rw [List.map_cons, List.map_cons]
      unfold cmpList
      rw [hc, ih]

theorem groupsInsert_relabel (f : TagId → TagId) (k : LabelId × Nat)
    (t : TagId) :
    ∀ (groups : List ((LabelId × Nat) × List TagId)),
    groupsInsert k (f t) (groups.map (fun kv => (kv.1, kv.2.map f))) =
      (groupsInsert k t groups).map (fun kv => (kv.1, kv.2.map f)) := by
  intro groups
  induction groups with
  | nil => rfl
  | cons kv rest ih =>
    rw [List.map_cons]
    unfold groupsInsert
    by_cases h1 : k = kv.1
    · rw [if_pos h1, if_pos h1, List.map_cons]
      simp
    · rw [if_neg h1, if_neg h1]
      by_cases h2 : keyLt k kv.1 = true
      · rw [if_pos h2, if_pos h2]
        simp
      · rw [if_neg h2, if_neg h2, List.map_cons, ih]

theorem cmpAdjacency_relabel (f g : TagId → TagId)
    (hf : Function.Injective f) (p : RawPattern) (st : CanonState)
    (a1 a2 : PatternAdjacency) :
    cmpAdjacency (p.relabel f g) (st.relabel f g).groupMap
      (st.relabel f g).vRank (relabelAdj f g a1) (relabelAdj f g a2) =
      cmpAdjacency p st.groupMap st.vRank a1 a2 := by
  unfold cmpAdjacency
  rw [show (relabelAdj f g a1).neighborTagId = f a1.neighborTagId from rfl,
    show (relabelAdj f g a2).neighborTagId = f a2.neighborTagId from rfl,
    getVertexLabel_relabel f g hf, getVertexLabel_relabel f g hf]
  unfold CanonState.relabel
  rw [assocGet_relabel f hf, assocGet_relabel f hf, assocGet_relabel f hf,
    assocGet_relabel f hf]
  rfl

theorem sortVertexAdjacencies_relabel (f g : TagId → TagId)
    (hf : Function.Injective f) (p : RawPattern) (st : CanonState) :
    sortVertexAdjacencies (p.relabel f g) (st.relabel f g) =
      (sortVertexAdjacencies p st).relabel f g := by
  unfold sortVertexAdjacencies
  unfold CanonState.relabel
  simp only [List.map_map]
  congr 1
  refine congrArg (fun h => List.map h st.adjMap) ?_
  funext kv
  simp only [Function.comp]
  exact congrArg (fun l => (f kv.1, l))
    (sortByCmp_map (relabelAdj f g) _ _
      (cmpAdjacency_relabel f g hf p st) kv.2)

theorem cmpVertex_relabel (f g : TagId → TagId)
    (hf : Function.Injective f) (p : RawPattern) (st : CanonState)
    (t1 t2 : TagId) :
    cmpVertex (p.relabel f g) (st.relabel f g) (f t1) (f t2) =
      cmpVertex p st t1 t2 := by
  unfold cmpVertex
  rw [getVertexLabel_relabel f g hf, getVertexLabel_relabel f g hf,
    outDegree_relabel f g hf, outDegree_relabel f g hf,
    inDegree_relabel f g hf, inDegree_relabel f g hf]
  have hadj : ∀ t, (assocGet (st.relabel f g).adjMap (f t)).getD [] =
      ((assocGet st.adjMap t).getD []).map (relabelAdj f g) := by
    intro t
    show (assocGet (st.adjMap.map
      (fun kv => (f kv.1, kv.2.map (relabelAdj f g)))) (f t)).getD [] = _
    have : st.adjMap.map (fun kv => (f kv.1, kv.2.map (relabelAdj f g))) =
        (st.adjMap.map (fun kv => (kv.1, kv.2.map (relabelAdj f g)))).map
          (relabelPair f) := by
      rw [List.map_map]; rfl
    rw [this, assocGet_relabel f hf]
    unfold assocGet
    rw [List.find?_map]
    have hfn : ((fun kv : TagId × List PatternAdjacency =>
        decide (kv.1 = t)) ∘
        (fun kv : TagId × List PatternAdjacency =>
          (kv.1, kv.2.map (relabelAdj f g)))) =
        fun kv : TagId × List PatternAdjacency => decide (kv.1 = t) := by
      funext kv; rfl
    rw [hfn]
    cases st.adjMap.find? (fun kv => decide (kv.1 = t)) <;> rfl
  rw [hadj, hadj]
  rw [cmpList_map (relabelAdj f g) _ _ (cmpAdjacency_relabel f g hf p st)]

theorem pairwisePass_relabel (f : TagId → TagId)
    (cmpv cmpv' : TagId → TagId → Ordering)
    (hc : ∀ a b, cmpv' (f a) (f b) = cmpv a b) (tags : List TagId)
    (g0 : Nat) :
    pairwisePass cmpv' (tags.map f) g0 = pairwisePass cmpv tags g0 := by
  unfold pairwisePass
  rw [List.length_map]
  have hget : ∀ i, i < tags.length →
      (tags.map f).getD i 0 = f (tags.getD i 0) := by
    intro i hi
    rw [List.getD_eq_getElem?_getD, List.getD_eq_getElem?_getD,
      List.getElem?_map]
    rw [List.getElem?_eq_getElem hi]
    rfl
  have houter : ∀ (tmp : List Nat) (li : List Nat),
      (∀ i ∈ li, i < tags.length) →
      li.foldl (fun tmp i =>
        (List.range tags.length).foldl (fun tmp j =>
          if i < j then
            match cmpv' ((tags.map f).getD i 0) ((tags.map f).getD j 0)
              with
            | .gt => bumpAt tmp i
            | .lt => bumpAt tmp j
            | .eq => tmp
          else tmp) tmp) tmp =
      li.foldl (fun tmp i =>
        (List.range tags.length).foldl (fun tmp j =>
          if i < j then
            match cmpv (tags.getD i 0) (tags.getD j 0) with
            | .gt => bumpAt tmp i
            | .lt => bumpAt tmp j
            | .eq => tmp
          else tmp) tmp) tmp := by
    intro tmp li
    induction li generalizing tmp with
    | nil => intro _; rfl
    | cons i rest ihl =>
      intro hmem
      rw [List.foldl_cons, List.foldl_cons]
      have hinner : ∀ (tmp2 : List Nat) (lj : List Nat),
          (∀ j ∈ lj, j < tags.length) →
          lj.foldl (fun tmp j =>
            if i < j then
              match cmpv' ((tags.map f).getD i 0)
                ((tags.map f).getD j 0) with
              | .gt => bumpAt tmp i
              | .lt => bumpAt tmp j
              | .eq => tmp
            else tmp) tmp2 =
          lj.foldl (fun tmp j =>
            if i < j then
              match cmpv (tags.getD i 0) (tags.getD j 0) with
              | .gt => bumpAt tmp i
              | .lt => bumpAt tmp j
              | .eq => tmp
            else tmp) tmp2 := by
        intro tmp2 lj
        induction lj generalizing tmp2 with
        | nil => intro _; rfl
        | cons j restj ihj =>
          intro hmemj
          rw [List.foldl_cons, List.foldl_cons]
          have hij : (if i < j then
              match cmpv' ((tags.map f).getD i 0)
                ((tags.map f).getD j 0) with
              | .gt => bumpAt tmp2 i
              | .lt => bumpAt tmp2 j
              | .eq => tmp2
            else tmp2) =
              (if i < j then
              match cmpv (tags.getD i 0) (tags.getD j 0) with
              | .gt => bumpAt tmp2 i
              | .lt => bumpAt tmp2 j
              | .eq => tmp2
            else tmp2) := by
            by_cases hlt : i < j
            · rw [if_pos hlt, if_pos hlt,
                hget i (hmem i (List.mem_cons_self i rest)),
                hget j (hmemj j (List.mem_cons_self j restj)), hc]
            · rw [if_neg hlt, if_neg hlt]
          rw [hij]
          exact ihj _ (fun j2 hj2 => hmemj j2 (List.mem_cons_of_mem j hj2))
      rw [hinner tmp (List.range tags.length)
        (fun j hj => List.mem_range.mp hj)]
      exact ihl _ (fun i2 hi2 => hmem i2 (List.mem_cons_of_mem i hi2))
  exact houter (List.replicate tags.length g0) (List.range tags.length)
    (fun i hi => List.mem_range.mp hi)

theorem refineInner_relabel (f : TagId → TagId)
    (hf : Function.Injective f) (label : LabelId) (g0 : Nat) :
    ∀ (pairs : List (TagId × Nat)) (a1 : List (TagId × Nat))
      (a2 : List ((LabelId × Nat) × List TagId)) (b : Bool),
    (pairs.map (Prod.map f id)).foldl
      (fun acc tg =>
        let conv := acc.2.2 && decide (tg.2 = g0)
        (assocSet acc.1 tg.1 tg.2,
         groupsInsert (label, tg.2) tg.1 acc.2.1, conv))
      (a1.map (relabelPair f), a2.map (fun kv => (kv.1, kv.2.map f)), b) =
    ((pairs.foldl
      (fun acc tg =>
        let conv := acc.2.2 && decide (tg.2 = g0)
        (assocSet acc.1 tg.1 tg.2,
         groupsInsert (label, tg.2) tg.1 acc.2.1, conv))
      (a1, a2, b)).1.map (relabelPair f),
     (pairs.foldl
      (fun acc tg =>
        let conv := acc.2.2 && decide (tg.2 = g0)
        (assocSet acc.1 tg.1 tg.2,
         groupsInsert (label, tg.2) tg.1 acc.2.1, conv))
      (a1, a2, b)).2.1.map (fun kv => (kv.1, kv.2.map f)),
     (pairs.foldl
      (fun acc tg =>
        let conv := acc.2.2 && decide (tg.2 = g0)
        (assocSet acc.1 tg.1 tg.2,
         groupsInsert (label, tg.2) tg.1 acc.2.1, conv))
      (a1, a2, b)).2.2) := by
  intro pairs
  induction pairs with
  | nil => intro a1 a2 b; rfl
  | cons tg rest ih =>
    intro a1 a2 b
    obtain ⟨t0, n0⟩ := tg
    rw [List.map_cons, List.foldl_cons, List.foldl_cons]
    dsimp only [Prod.map, id]
    rw [assocSet_relabel f hf, groupsInsert_relabel f]
    exact ih _ _ _

theorem refineVertexGroups_relabel (f g : TagId → TagId)
    (hf : Function.Injective f) (p : RawPattern) (st : CanonState) :
    refineVertexGroups (p.relabel f g) (st.relabel f g) =
      (refineVertexGroups p st).relabel f g := by
  unfold refineVertexGroups
  have hstep : ∀ (groups : List ((LabelId × Nat) × List TagId))
      (a1 : List (TagId × Nat)) (a2 : List ((LabelId × Nat) × List TagId))
      (b : Bool),
      (groups.map (fun kv => (kv.1, kv.2.map f))).foldl
        (fun acc entry =>
          let label := entry.1.1
          let g0 := entry.1.2
          let tags := entry.2
          let tmp := pairwisePass
            (cmpVertex (p.relabel f g) (st.relabel f g)) tags g0
          (tags.zip tmp).foldl
            (fun acc tg =>
              let conv := acc.2.2 && decide (tg.2 = g0)
              (assocSet acc.1 tg.1 tg.2,
               groupsInsert (label, tg.2) tg.1 acc.2.1, conv))
            acc)
        (a1.map (relabelPair f), a2.map (fun kv => (kv.1, kv.2.map f)),
          b) =
      ((groups.foldl
        (fun acc entry =>
          let label := entry.1.1
          let g0 := entry.1.2
          let tags := entry.2
          let tmp := pairwisePass (cmpVertex p st) tags g0
          (tags.zip tmp).foldl
            (fun acc tg =>
              let conv := acc.2.2 && decide (tg.2 = g0)
              (assocSet acc.1 tg.1 tg.2,
               groupsInsert (label, tg.2) tg.1 acc.2.1, conv))
            acc)
        (a1, a2, b)).1.map (relabelPair f),
       (groups.foldl
        (fun acc entry =>
          let label := entry.1.1
          let g0 := entry.1.2
          let tags := entry.2
          let tmp := pairwisePass (cmpVertex p st) tags g0
          (tags.zip tmp).foldl
            (fun acc tg =>
              let conv := acc.2.2 && decide (tg.2 = g0)
              (assocSet acc.1 tg.1 tg.2,
               groupsInsert (label, tg.2) tg.1 acc.2.1, conv))
            acc)
        (a1, a2, b)).2.1.map (fun kv => (kv.1, kv.2.map f)),
       (groups.foldl
        (fun acc entry =>
          let label := entry.1.1
          let g0 := entry.1.2
          let tags := entry.2
          let tmp := pairwisePass (cmpVertex p st) tags g0
          (tags.zip tmp).foldl
            (fun acc tg =>
              let conv := acc.2.2 && decide (tg.2 = g0)
              (assocSet acc.1 tg.1 tg.2,
               groupsInsert (label, tg.2) tg.1 acc.2.1, conv))
            acc)
        (a1, a2, b)).2.2) := by
    intro groups
    induction groups with
    | nil => intro a1 a2 b; rfl
    | cons entry rest ihg =>
      intro a1 a2 b
      rw [List.map_cons, List.foldl_cons, List.foldl_cons]
      dsimp only
      rw [pairwisePass_relabel f _ _ (cmpVertex_relabel f g hf p st)]
      rw [List.zip_map_left]
      rw [refineInner_relabel f hf]
      exact ihg _ _ _
  have h0 := hstep st.groups [] [] true
  simp only [List.map_nil] at h0
  rw [show (CanonState.relabel f g st).groups =
    st.groups.map (fun kv => (kv.1, kv.2.map f)) from rfl]
  rw [h0]
  exact sortVertexAdjacencies_relabel f g hf p
    { st with
      groupMap := _, groups := _, converged := _ }

theorem refineLoop_relabel (f g : TagId → TagId)
    (hf : Function.Injective f) (p : RawPattern) :
    ∀ (fuel : Nat) (st : CanonState),
    refineLoop (p.relabel f g) fuel (st.relabel f g) =
      (refineLoop p fuel st).relabel f g := by
  intro fuel
  induction fuel with
  | zero => intro st; rfl
  | succ n ih =>
    intro st
    unfold refineLoop
    rw [show (CanonState.relabel f g st).converged = st.converged from rfl]
    by_cases hc : st.converged = true
    · rw [if_pos hc, if_pos hc]
    · rw [if_neg hc, if_neg hc, refineVertexGroups_relabel f g hf]
      exact ih _

theorem chunkGroups_map (f : TagId → TagId) :
    ∀ (l : List PatternVertex),
    chunkGroups (l.map (relabelVertex f)) =
      (chunkGroups l).map (fun kv => (kv.1, kv.2.map f)) := by
  intro l
  induction l with
  | nil => rfl
  | cons v vs ih =>
    rw [List.map_cons]
    unfold chunkGroups
    rw [ih]
    cases hcg : chunkGroups vs with
    | nil => rfl
    | cons kv rest =>
      obtain ⟨⟨lab, gg⟩, ts⟩ := kv
      rw [List.map_cons]
      dsimp only [relabelVertex]
      by_cases hl : v.labelId = lab
      · rw [if_pos hl, if_pos hl]
        simp
      · rw [if_neg hl, if_neg hl]
        simp

theorem canonInit_relabel (f g : TagId → TagId)
    (hf : Function.Injective f) (p : RawPattern) :
    canonInit (p.relabel f g) = (canonInit p).relabel f g := by
  have hst :
      (⟨(p.relabel f g).vertices.map
          (fun v => (v.tagId, ((p.relabel f g).adjacencies v.tagId).getD [])),
        (p.relabel f g).vertices.map (fun v => (v.tagId, 0)),
        chunkGroups (sortByCmp
          (fun a b => compare a.labelId b.labelId) (p.relabel f g).vertices),
        (p.relabel f g).vertices.map (fun v => (v.tagId, none)),
        (p.relabel f g).edges.map (fun e => (e.tagId, none)),
        false⟩ : CanonState) =
      CanonState.relabel f g
        ⟨p.vertices.map
          (fun v => (v.tagId, (p.adjacencies v.tagId).getD [])),
        p.vertices.map (fun v => (v.tagId, 0)),
        chunkGroups (sortByCmp
          (fun a b => compare a.labelId b.labelId) p.vertices),
        p.vertices.map (fun v => (v.tagId, none)),
        p.edges.map (fun e => (e.tagId, none)), false⟩ := by
    unfold CanonState.relabel
    rw [relabel_vertices, relabel_edges]
    simp only [List.map_map]
    congr 1
    · refine congrArg (fun h => List.map h p.vertices) ?_
      funext v
      simp only [Function.comp, relabelVertex]
      refine congrArg (fun l => (f v.tagId, l)) ?_
      rw [show (p.relabel f g).adjacencies (f v.tagId) =
        (p.adjacencies v.tagId).map (List.map (relabelAdj f g)) from
        adjacencies_relabel f g hf p v.tagId]
      cases p.adjacencies v.tagId <;> rfl
    · rw [show (sortByCmp (fun a b : PatternVertex =>
        compare a.labelId b.labelId) (p.vertices.map (relabelVertex f))) =
        (sortByCmp (fun a b : PatternVertex =>
          compare a.labelId b.labelId) p.vertices).map (relabelVertex f)
        from sortByCmp_map (relabelVertex f) _ _ (fun _ _ => rfl) _]
      exact chunkGroups_map f _
  exact Eq.trans (congrArg (sortVertexAdjacencies (p.relabel f g)) hst)
    (sortVertexAdjacencies_relabel f g hf p _)

theorem adjMapGet_relabel (f g : TagId → TagId)
    (hf : Function.Injective f) (st : CanonState) (t : TagId) :
    (assocGet (st.relabel f g).adjMap (f t)).getD [] =
      ((assocGet st.adjMap t).getD []).map (relabelAdj f g) := by
  show (assocGet (st.adjMap.map
    (fun kv => (f kv.1, kv.2.map (relabelAdj f g)))) (f t)).getD [] = _
  have hmm : st.adjMap.map
      (fun kv => (f kv.1, kv.2.map (relabelAdj f g))) =
      (st.adjMap.map (fun kv => (kv.1, kv.2.map (relabelAdj f g)))).map
        (relabelPair f) := by
    rw [List.map_map]; rfl
  rw [hmm, assocGet_relabel f hf]
  unfold assocGet
  rw [List.find?_map]
  have hfn : ((fun kv : TagId × List PatternAdjacency =>
      decide (kv.1 = t)) ∘
      (fun kv : TagId × List PatternAdjacency =>
        (kv.1, kv.2.map (relabelAdj f g)))) =
      fun kv : TagId × List PatternAdjacency => decide (kv.1 = t) := by
    funext kv; rfl
  rw [hfn]
  cases st.adjMap.find? (fun kv => decide (kv.1 = t)) <;> rfl

theorem vRankGet_relabel (f g : TagId → TagId)
    (hf : Function.Injective f) (st : CanonState) (t : TagId) :
    assocGet (st.relabel f g).vRank (f t) = assocGet st.vRank t := by
  show assocGet (st.vRank.map (relabelPair f)) (f t) = _
  exact assocGet_relabel f hf _ _

theorem relabel_set_eRank (f g : TagId → TagId)
    (hg : Function.Injective g) (st : CanonState) (a : TagId)
    (v : Option Nat) :
    { st.relabel f g with
      eRank := assocSet (st.relabel f g).eRank (g a) v } =
      CanonState.relabel f g { st with eRank := assocSet st.eRank a v } := by
  show ({ st.relabel f g with
    eRank := assocSet (st.eRank.map (relabelPair g)) (g a) v } :
      CanonState) = _
  rw [assocSet_relabel g hg]
  rfl

theorem relabel_set_vRank (f g : TagId → TagId)
    (hf : Function.Injective f) (st : CanonState) (a : TagId)
    (v : Option Nat) :
    { st.relabel f g with
      vRank := assocSet (st.relabel f g).vRank (f a) v } =
      CanonState.relabel f g { st with vRank := assocSet st.vRank a v } := by
  show ({ st.relabel f g with
    vRank := assocSet (st.vRank.map (relabelPair f)) (f a) v } :
      CanonState) = _
  rw [assocSet_relabel f hf]
  rfl

theorem filterAdjs_relabel (f g : TagId → TagId)
    (hg : Function.Injective g) (l : List PatternAdjacency)
    (visited : List TagId) :
    (l.map (relabelAdj f g)).filter
      (fun a => decide (a.edgeTagId ∉ visited.map g)) =
    (l.filter (fun a => decide (a.edgeTagId ∉ visited))).map
      (relabelAdj f g) := by
  rw [List.filter_map]
  refine congrArg (fun h => List.map (relabelAdj f g) (List.filter h l)) ?_
  funext a
  simp only [Function.comp, relabelAdj]
  exact decide_eq_decide.mpr
    (not_congr (List.mem_map_of_injective hg))

theorem relabel_set_both (f g : TagId → TagId)
    (hf : Function.Injective f) (hg : Function.Injective g)
    (st : CanonState) (a b : TagId) (v w : Option Nat) :
    ({ adjMap := (st.relabel f g).adjMap,
       groupMap := (st.relabel f g).groupMap,
       groups := (st.relabel f g).groups,
       vRank := assocSet (st.relabel f g).vRank (f b) w,
       eRank := assocSet (st.relabel f g).eRank (g a) v,
       converged := (st.relabel f g).converged } : CanonState) =
      CanonState.relabel f g
        { st with vRank := assocSet st.vRank b w,
                  eRank := assocSet st.eRank a v } := by
  have h1 : (st.relabel f g).vRank = st.vRank.map (relabelPair f) := rfl
  have h2 : (st.relabel f g).eRank = st.eRank.map (relabelPair g) := rfl
  rw [h1, h2, assocSet_relabel f hf, assocSet_relabel g hg]
  rfl

theorem getPatternRankingStartVertex_relabel (f g : TagId → TagId)
    (hf : Function.Injective f) (p : RawPattern) (st : CanonState) :
    getPatternRankingStartVertex (p.relabel f g) (st.relabel f g) =
      (getPatternRankingStartVertex p st).map f := by
  unfold getPatternRankingStartVertex
  rw [minVertexLabelId_relabel]
  cases p.minVertexLabelId with
  | none => rfl
  | some minLabel =>
    dsimp only
    have hgm : ∀ t, assocGet (st.relabel f g).groupMap (f t) =
        assocGet st.groupMap t := by
      intro t
      show assocGet (st.groupMap.map (relabelPair f)) (f t) = _
      exact assocGet_relabel f hf _ _
    have hfold : ∀ (li : List TagId) (acc : Option TagId),
        (li.map f).foldl
          (fun acc t =>
            match acc with
            | none => some t
            | some b =>
              if compare ((assocGet (st.relabel f g).groupMap t).getD 0)
                  ((assocGet (st.relabel f g).groupMap b).getD 0) = .lt
              then some t else some b)
          (acc.map f) =
        (li.foldl
          (fun acc t =>
            match acc with
            | none => some t
            | some b =>
              if compare ((assocGet st.groupMap t).getD 0)
                  ((assocGet st.groupMap b).getD 0) = .lt
              then some t else some b)
          acc).map f := by
      intro li
      induction li with
      | nil => intro acc; rfl
      | cons t rest ih =>
        intro acc
        rw [List.map_cons, List.foldl_cons, List.foldl_cons]
        cases acc with
        | none => exact ih (some t)
        | some b =>
          dsimp only [Option.map]
          rw [hgm t, hgm b]
          by_cases hlt : compare ((assocGet st.groupMap t).getD 0)
              ((assocGet st.groupMap b).getD 0) = .lt
          · rw [if_pos hlt, if_pos hlt]
            exact ih (some t)
          · rw [if_neg hlt, if_neg hlt]
            exact ih (some b)
    have hlist : ((p.relabel f g).vertices.filter
        (fun v => decide (v.labelId = minLabel))).map (·.tagId) =
        ((p.vertices.filter
          (fun v => decide (v.labelId = minLabel))).map (·.tagId)).map f := by
      rw [relabel_vertices, List.filter_map]
      have hfn : ((fun v : PatternVertex => decide (v.labelId = minLabel)) ∘
          relabelVertex f) =
          fun v : PatternVertex => decide (v.labelId = minLabel) := by
        funext v; rfl
      rw [hfn, List.map_map, List.map_map]
      rfl
    rw [hlist]
    exact hfold _ none

theorem rankingLoop_relabel (f g : TagId → TagId)
    (hf : Function.Injective f) (hg : Function.Injective g)
    (p : RawPattern) :
    ∀ (fuel : Nat) (stack : List PatternAdjacency)
      (visited : List TagId) (nV nE : Nat) (st : CanonState),
    rankingLoop (p.relabel f g) fuel (stack.map (relabelAdj f g))
      (visited.map g) nV nE (st.relabel f g) =
      (rankingLoop p fuel stack visited nV nE st).relabel f g := by
  intro fuel
  induction fuel with
  | zero => intro stack visited nV nE st; rfl
  | succ n ih =>
    intro stack visited nV nE st
    cases stack with
    | nil => rfl
    | cons adj rest =>
      rw [List.map_cons]
      unfold rankingLoop
      dsimp only [relabelAdj]
      by_cases hin : adj.edgeTagId ∈ visited
      · rw [if_pos (List.mem_map_of_mem g hin), if_pos hin]
        exact ih rest visited nV nE st
      · rw [if_neg (fun hc => hin
          ((List.mem_map_of_injective hg).mp hc)), if_neg hin]
        rw [vRankGet_relabel f g hf]
        rw [relabel_set_eRank f g hg]
        rw [relabel_set_both f g hf hg]
        rw [← apply_ite (CanonState.relabel f g)]
        rw [sortVertexAdjacencies_relabel f g hf]
        rw [adjMapGet_relabel f g hf]
        rw [← List.map_cons g, filterAdjs_relabel f g hg,
          ← List.map_append]
        exact ih _ _ _ _ _

theorem patternRankingFromVertex_relabel (f g : TagId → TagId)
    (hf : Function.Injective f) (hg : Function.Injective g)
    (p : RawPattern) (st : CanonState) (s : TagId) :
    patternRankingFromVertex (p.relabel f g) (st.relabel f g) (f s) =
      (patternRankingFromVertex p st s).relabel f g := by
  unfold patternRankingFromVertex
  dsimp only
  rw [relabel_set_vRank f g hf]
  rw [adjMapGet_relabel f g hf]
  rw [show (p.relabel f g).edges.length = p.edges.length from by
    rw [relabel_edges]; exact List.length_map _ _]
  exact rankingLoop_relabel f g hf hg p _ _ [] 1 0 _

theorem patternRanking_relabel (f g : TagId → TagId)
    (hf : Function.Injective f) (hg : Function.Injective g)
    (p : RawPattern) (st : CanonState) :
    patternRanking (p.relabel f g) (st.relabel f g) =
      (patternRanking p st).relabel f g := by
  unfold patternRanking
  rw [getPatternRankingStartVertex_relabel f g hf]
  cases getPatternRankingStartVertex p st with
  | none => rfl
  | some s => exact patternRankingFromVertex_relabel f g hf hg p st s

theorem canonPair_relabel (f g : TagId → TagId) (st : CanonState) :
    ((st.relabel f g).vRank.map (fun kv => (kv.1, kv.2.getD 0)),
     (st.relabel f g).eRank.map (fun kv => (kv.1, kv.2.getD 0))) =
      ((st.vRank.map (fun kv => (kv.1, kv.2.getD 0))).map (relabelPair f),
       (st.eRank.map (fun kv => (kv.1, kv.2.getD 0))).map (relabelPair g)) := by
  have hv : (st.relabel f g).vRank = st.vRank.map (relabelPair f) := rfl
  have he : (st.relabel f g).eRank = st.eRank.map (relabelPair g) := rfl
  rw [hv, he, List.map_map, List.map_map, List.map_map, List.map_map]
  rfl

theorem canonicalize_relabel (f g : TagId → TagId)
    (hf : Function.Injective f) (hg : Function.Injective g)
    (p : RawPattern) :
    canonicalize (p.relabel f g) =
      ((canonicalize p).1.map (relabelPair f),
       (canonicalize p).2.map (relabelPair g)) := by
  unfold canonicalize
  dsimp only
  rw [show (p.relabel f g).vertices.length = p.vertices.length from by
    rw [relabel_vertices]; exact List.length_map _ _]
  rw [canonInit_relabel f g hf, refineLoop_relabel f g hf,
    patternRanking_relabel f g hf hg]
  exact canonPair_relabel f g _

theorem getVertexRank_relabel (f g : TagId → TagId)
    (hf : Function.Injective f) (hg : Function.Injective g)
    (p : RawPattern) (t : TagId) :
    (mkGeneral (p.relabel f g)).getVertexRank (f t) =
      (mkGeneral p).getVertexRank t := by
  unfold mkGeneral GenPattern.getVertexRank
  dsimp only
  rw [canonicalize_relabel f g hf hg]
  exact assocGet_relabel f hf _ _

theorem getEdgeRank_relabel (f g : TagId → TagId)
    (hf : Function.Injective f) (hg : Function.Injective g)
    (p : RawPattern) (t : TagId) :
    (mkGeneral (p.relabel f g)).getEdgeRank (g t) =
      (mkGeneral p).getEdgeRank t := by
  unfold mkGeneral GenPattern.getEdgeRank
  dsimp only
  rw [canonicalize_relabel f g hf hg]
  exact assocGet_relabel g hg _ _

theorem edgeRecord_relabel (f g : TagId → TagId)
    (hf : Function.Injective f) (hg : Function.Injective g)
    (p : RawPattern) (e : PatternEdge) :
    (mkGeneral (p.relabel f g)).edgeRecord (relabelEdge f g e) =
      (mkGeneral p).edgeRecord e := by
  unfold GenPattern.edgeRecord
  rw [show (relabelEdge f g e).labelId = e.labelId from rfl,
    show (relabelEdge f g e).src = f e.src from rfl,
    show (relabelEdge f g e).dst = f e.dst from rfl,
    show (mkGeneral (p.relabel f g)).raw = p.relabel f g from rfl,
    show (mkGeneral p).raw = p from rfl,
    getVertex_relabel f g hf p e.src, getVertex_relabel f g hf p e.dst,
    getVertexRank_relabel f g hf hg p e.src,
    getVertexRank_relabel f g hf hg p e.dst,
    Option.map_map, Option.map_map]
  rfl

theorem encodeNormal_relabel (f g : TagId → TagId)
    (hf : Function.Injective f) (hg : Function.Injective g)
    (p : RawPattern) :
    (mkGeneral (p.relabel f g)).encodeNormal =
      (mkGeneral p).encodeNormal := by
  unfold GenPattern.encodeNormal
  rw [show (mkGeneral (p.relabel f g)).raw = p.relabel f g from rfl,
    show (mkGeneral p).raw = p from rfl, relabel_edges]
  have hc : ∀ a b : PatternEdge,
      compare (((mkGeneral (p.relabel f g)).getEdgeRank
          (relabelEdge f g a).tagId).getD 0)
        (((mkGeneral (p.relabel f g)).getEdgeRank
          (relabelEdge f g b).tagId).getD 0) =
      compare (((mkGeneral p).getEdgeRank a.tagId).getD 0)
        (((mkGeneral p).getEdgeRank b.tagId).getD 0) := by
    intro a b
    rw [show (relabelEdge f g a).tagId = g a.tagId from rfl,
      show (relabelEdge f g b).tagId = g b.tagId from rfl,
      getEdgeRank_relabel f g hf hg p a.tagId,
      getEdgeRank_relabel f g hf hg p b.tagId]
  rw [sortByCmp_map (relabelEdge f g) _ _ hc p.edges]
  refine flatMap_congr_map _ _ _ _ ?_
  rw [List.map_map]
  refine congrArg (fun h => List.map h _) ?_
  funext e
  exact edgeRecord_relabel f g hf hg p e

theorem encode_relabel (f g : TagId → TagId)
    (hf : Function.Injective f) (hg : Function.Injective g)
    (p : RawPattern) :
    (mkGeneral (p.relabel f g)).encode = (mkGeneral p).encode := by
  unfold GenPattern.encode
  rw [show (mkGeneral (p.relabel f g)).raw = p.relabel f g from rfl,
    show (mkGeneral p).raw = p from rfl, relabel_edges, relabel_vertices]
  cases p.edges with
  | nil =>
    dsimp only [List.map]
    cases p.vertices with
    | nil => rfl
    | cons v vs =>
      cases vs with
      | nil => rfl
      | cons w ws => rfl
  | cons e es =>
    cases es with
    | nil =>
      dsimp only [List.map]
      rw [show (relabelEdge f g e).labelId = e.labelId from rfl,
        show (relabelEdge f g e).src = f e.src from rfl,
        show (relabelEdge f g e).dst = f e.dst from rfl,
        getVertex_relabel f g hf p e.src, getVertex_relabel f g hf p e.dst,
        Option.map_map, Option.map_map]
      rfl
    | cons e2 es2 =>
      dsimp only [List.map]
      exact encodeNormal_relabel f g hf hg p

/-- An apex vertex (label 1) pointing to all five vertices of a directed
3-cycle `0→1→2→0` plus a directed 2-cycle `3⇄4` (labels 0). -/
def A1W : RawPattern :=
  ⟨[⟨0, 0⟩, ⟨1, 0⟩, ⟨2, 0⟩, ⟨3, 0⟩, ⟨4, 0⟩, ⟨5, 1⟩],
   [⟨0, 0, 1, 0⟩, ⟨1, 1, 2, 0⟩, ⟨2, 2, 0, 0⟩, ⟨3, 3, 4, 0⟩, ⟨4, 4, 3, 0⟩,
    ⟨5, 5, 0, 0⟩, ⟨6, 5, 1, 0⟩, ⟨7, 5, 2, 0⟩, ⟨8, 5, 3, 0⟩, ⟨9, 5, 4, 0⟩]⟩

/-- The same multigraph presented with the 3-cycle on `2, 3, 4` and the
2-cycle on `0, 1` — isomorphic to `A1W`. -/
def A2W : RawPattern :=
  ⟨[⟨0, 0⟩, ⟨1, 0⟩, ⟨2, 0⟩, ⟨3, 0⟩, ⟨4, 0⟩, ⟨5, 1⟩],
   [⟨0, 0, 1, 0⟩, ⟨1, 1, 0, 0⟩, ⟨2, 2, 3, 0⟩, ⟨3, 3, 4, 0⟩, ⟨4, 4, 2, 0⟩,
    ⟨5, 5, 0, 0⟩, ⟨6, 5, 1, 0⟩, ⟨7, 5, 2, 0⟩, ⟨8, 5, 3, 0⟩, ⟨9, 5, 4, 0⟩]⟩

/-- The vertex bijection of the isomorphism `A1W ≅ A2W`. -/
def fv3W : TagId → TagId := fun t =>
  match t with | 0 => 2 | 1 => 3 | 2 => 4 | 3 => 0 | 4 => 1 | t => t

/-- The edge bijection of the isomorphism `A1W ≅ A2W`. -/
def fe3W : TagId → TagId := fun t =>
  match t with
  | 0 => 2 | 1 => 3 | 2 => 4 | 3 => 0 | 4 => 1
  | 5 => 7 | 6 => 8 | 7 => 9 | 8 => 5 | 9 => 6 | t => t

/-- C3 counterexample: two connected isomorphic patterns with different
canonical codes — the canonical code is not a complete isomorphism
invariant (the refinement is 1-WL-style and the tie-breaking depends on
declaration order), so "equal codes iff isomorphic" fails in both
directions. -/
theorem C3_counterexample :
    A1W.isConnected = true ∧ A2W.isConnected = true ∧
    Isomorphic A1W A2W ∧ canonCode A1W ≠ canonCode A2W :=
  ⟨by decide, by decide, ⟨fv3W, fe3W, by unfold IsIso; decide⟩, by decide⟩

/-- **C3** (amended): the canonical code is equivariant — for every pattern
and every in-place injective renaming of its vertex tags and of its edge
tags, the canonical code of the renamed pattern equals that of the
original. The claimed "equal codes iff isomorphic" half fails: see
`C3_counterexample`, where two isomorphic connected patterns get different
canonical codes. -/
theorem C3_relabel_invariance (f g : TagId → TagId)
    (hf : Function.Injective f) (hg : Function.Injective g)
    (p : RawPattern) :
    canonCode (p.relabel f g) = canonCode p :=
  encode_relabel f g hf hg p

/-- Concrete instantiation of `C3_relabel_invariance`: shifting `A1W`'s
vertex tags by 7 and edge tags by 3 keeps the canonical code. -/
theorem C3_relabel_invariance_witness :
    canonCode (A1W.relabel (fun t => t + 7) (fun t => t + 3)) =
      canonCode A1W :=
  C3_relabel_invariance (fun t => t + 7) (fun t => t + 3)
    (add_left_injective 7) (add_left_injective 3) A1W

/-- Concrete instantiation of `C8_initial_binning` at `B = 5`, `n = 7`. -/
theorem C8_initial_binning_witness :
    (GreedyBinner.new 5 (List.range 7)).budget = 5 - (5 + 1) / 2 ∧
    (GreedyBinner.new 5 (List.range 7)).currentNumBuckets = (5 + 1) / 2 ∧
    ((GreedyBinner.new 5 (List.range 7)).bucketMap.map Prod.fst) =
      List.range 7 ∧
    (∀ b, bucketSize (GreedyBinner.new 5 (List.range 7)).bucketMap b =
      if b < 7 % ((5 + 1) / 2) then 7 / ((5 + 1) / 2) + 1
      else if b < (5 + 1) / 2 then 7 / ((5 + 1) / 2)
      else 0) :=
  C8_initial_binning 5 7 (by decide)

end PathCE
